import Mathlib

/-!
Verification development for the Flow dataflow engine (flux_foundry).

The definitions below are a shallow embedding of the C++ sources under
`src/flow/`.  Pipelines carry a single value type `V`; the carried datum is
`FResult V`, mirroring `result_t<T, E>` with the library's error-trait
alphabet collapsed into one inductive `Err`.  Stateful concurrent protocols
(the awaitable status word, the when_all / when_any aggregator state, the
controller's lock-set-handler protocol) are embedded as explicit state
machines whose events are the individual atomic operations of the source;
an interleaved execution is a list of events folded over the step function.
Line references point into the repository sources.
-/

namespace FluxFoundry

/-- `cancel_kind` from src/flow/flow_def.h (lines 22-25). -/
inductive CancelKind
  | soft
  | hard
deriving DecidableEq, Repr

/-- The error alphabet: one constructor per error-trait customization point of
src/flow/flow_def.h (`cancel_error`, `awaitable_creating_error`,
`async_submission_failed_error`, `async_all_failed_error`,
`async_any_failed_error`), plus `user` for error values produced by stage
callables. -/
inductive Err
  | user (code : Nat)
  | cancelErr (k : CancelKind)
  | awaitableCreating
  | submissionFailed
  | anyFailed (i : Nat)
  | allFailed
deriving DecidableEq, Repr

/-- `result_t<T, E>` (src/memory/result_t.h, used throughout flow): a sum of a
value and an error.  The embedding is monomorphic in the value type `V`. -/
inductive FResult (V : Type)
  | value (v : V)
  | error (e : Err)
deriving DecidableEq, Repr

namespace FResult

/-- `result_t::has_value`. -/
def isValue {V : Type} : FResult V → Prop
  | .value _ => True
  | .error _ => False

/-- `result_t::has_error`. -/
def isError {V : Type} : FResult V → Prop
  | .value _ => False
  | .error _ => True

instance {V : Type} (r : FResult V) : Decidable r.isValue := by
  cases r <;> simp [isValue] <;> infer_instance

instance {V : Type} (r : FResult V) : Decidable r.isError := by
  cases r <;> simp [isError] <;> infer_instance

end FResult

/-! ## Controller state-word arithmetic (claim C9)

`runner_cancel` (src/flow/flow_runner.h lines 79-86):
`none = 0, hard = 1, soft = 2, locked = 3, msk = 3, epoch = 4`.
The controller state word is a `size_t`: arithmetic is modulo `2^64`. -/

/-- Number of values of the 64-bit state word. -/
def WSIZE : Nat := 2 ^ 64

/-- `flow_controller::unlock(token)` (src/flow/flow_runner.h lines 138-142):
a CAS of the state word from `token` to `token + 1` (size_t wrap-around). -/
def unlockWord (state token : Nat) : Nat :=
  if state = token then (token + 1) % WSIZE else state

/-- The success path of `flow_controller::lock_and_set_cancel_handler`
(src/flow/flow_runner.h lines 102-128): the CAS loop can only succeed from a
state `s` whose low bits `s &&& msk` are `none` (every other observation
returns early), and then installs `s ||| locked` and returns it as the token.
`none` means the lock succeeded and the returned token is the payload;
the failure observation returns the observed (cancelled) state to the caller
and is modelled by `Option.none` here. -/
def lockAndSetToken (s : Nat) : Option Nat :=
  if s &&& 3 = 0 then some (s ||| 3) else none

/-! ## Runner dispatch interpreter (claims C1, C6, C7, C10)

`flow_runner::ipc<I>::run` / `dispatch` (src/flow/flow_runner.h lines
332-563) and `flow_fast_runner::ipc` (lines 768-849).  A stage list is kept
in execution order: the head is the first stage to run (storage index
`node_count - 1`), and the `end` node's callable (storage index 0) is the
separate `endF` argument.  The controller's cancel flag is read at each
dispatch; because `flow_controller::cancel` may fire concurrently at any
moment, the sequence of observed values is an arbitrary schedule
`sched : Nat -> CObs`, one tick per atomic load. -/

/-- One observation of the controller's cancel bits
(`is_force_canceled` / `is_soft_canceled`, lines 208-222). -/
inductive CObs
  | cnone
  | csoft
  | chard
deriving DecidableEq, Repr

/-- A blueprint stage as the runner sees it.

* `fcalc f`: a calc node's stored callable (`flow_calc_node::f`) — already
  the *wrapped* callable produced by `transform`/`then`/`on_error`, of shape
  `result -> result`.
* `fvia`: a via node; its dispatcher forwards the carried result unchanged
  to the next stage on another executor.
* `fasync createErr submitCode completion adaptor`: an async node.
  `createErr = some e` models the factory returning an error (awaitable
  creation failure); otherwise `submitCode` is what the awaitable's
  `submit_async` returns, and `completion` is the `async_result_type`
  value eventually handed to the registered next-step continuation
  (this includes a cancel error when the controller's cancel path won the
  waiting-to-done race).  `adaptor` is the node's adaptor applied to the
  completion before the next stage runs. -/
inductive FNode (V : Type)
  | fcalc (f : FResult V → FResult V)
  | fvia
  | fasync (createErr : Option Err) (submitCode : Int) (completion : FResult V)
      (adaptor : FResult V → FResult V)

/-- The stage-dispatch recursion of the full runner, mirroring
`flow_runner::ipc<I>::run` (lines 334-355) and the per-tag `dispatch`
overloads (lines 363-562).  Output: the list of values handed to the
receiver's `emplace` (`ipc<0>::run`, lines 357-360).

* `I != 0`, force-cancelled: jump to the end node with a hard cancel error
  (lines 340-346).
* `I != 0`, soft-cancelled: the stage's input is replaced by a soft cancel
  error (lines 349-352); a calc node still applies its callable to it, via
  and async nodes dispatch a task carrying the error to the next stage
  (async: lines 380-392, the awaitable is never built).
* async, not cancelled (`dispatch_async_node`, lines 449-557): factory
  failure forwards the factory's error (lines 458-469); then the runner
  locks the controller — if the lock observation shows cancel bits the
  stage forwards a cancel error of the observed kind (lines 481-497);
  a nonzero `submit_async` forwards `async_submission_failed_error`
  (lines 541-556); otherwise the completion, fed through the adaptor,
  reaches the next stage (lines 509-539). -/
def runNodes {V : Type} (sched : Nat → CObs) :
    Nat → List (FNode V) → (FResult V → FResult V) → FResult V → List (FResult V)
  | _, [], endF, inp => [endF inp]
  | t, node :: rest, endF, inp =>
    match sched t with
    | .chard => [endF (.error (.cancelErr .hard))]
    | .csoft =>
      match node with
      | .fcalc f => runNodes sched (t + 1) rest endF (f (.error (.cancelErr .soft)))
      | .fvia => runNodes sched (t + 1) rest endF (.error (.cancelErr .soft))
      | .fasync _ _ _ _ => runNodes sched (t + 1) rest endF (.error (.cancelErr .soft))
    | .cnone =>
      match node with
      | .fcalc f => runNodes sched (t + 1) rest endF (f inp)
      | .fvia => runNodes sched (t + 1) rest endF inp
      | .fasync createErr code completion adaptor =>
        match createErr with
        | some e => runNodes sched (t + 1) rest endF (.error e)
        | none =>
          match sched (t + 1) with
          | .csoft => runNodes sched (t + 2) rest endF (.error (.cancelErr .soft))
          | .chard => runNodes sched (t + 2) rest endF (.error (.cancelErr .hard))
          | .cnone =>
            if code ≠ 0 then runNodes sched (t + 2) rest endF (.error .submissionFailed)
            else runNodes sched (t + 2) rest endF (adaptor completion)

/-- `flow_runner::operator()` (src/flow/flow_runner.h lines 291-307): a null
blueprint handle returns immediately; otherwise the per-run controller is
allocated lazily and an allocation failure also returns immediately; only
then is the input constructed and stage `node_count - 1` dispatched. -/
def runnerInvoke {V : Type} (bpPresent ctrlAlloc : Bool) (sched : Nat → CObs)
    (nodes : List (FNode V)) (endF : FResult V → FResult V) (inp : FResult V) :
    List (FResult V) :=
  if bpPresent then
    if ctrlAlloc then runNodes sched 0 nodes endF inp
    else []
  else []

/-- `flow_fast_runner::ipc` (src/flow/flow_runner.h lines 768-849): the same
dispatch without a controller — no cancel observations, no lock protocol. -/
def fastRun {V : Type} :
    List (FNode V) → (FResult V → FResult V) → FResult V → List (FResult V)
  | [], endF, inp => [endF inp]
  | .fcalc f :: rest, endF, inp => fastRun rest endF (f inp)
  | .fvia :: rest, endF, inp => fastRun rest endF inp
  | .fasync createErr code completion adaptor :: rest, endF, _inp =>
    match createErr with
    | some e => fastRun rest endF (.error e)
    | none =>
      if code ≠ 0 then fastRun rest endF (.error .submissionFailed)
      else fastRun rest endF (adaptor completion)

/-- `flow_fast_runner::operator()` (src/flow/flow_runner.h lines 758-765):
a null blueprint handle returns immediately. -/
def fastRunnerInvoke {V : Type} (bpPresent : Bool) (nodes : List (FNode V))
    (endF : FResult V → FResult V) (inp : FResult V) : List (FResult V) :=
  if bpPresent then fastRun nodes endF inp else []

/-- A stage callable propagates errors unchanged.  This is the shape of every
wrapper built by `transform` (src/flow/flow_node.h lines 186-194: the error
side is forwarded without calling the user callable), and of the identity
`end()` node (lines 547-556). -/
def errPass {V : Type} (f : FResult V → FResult V) : Prop :=
  ∀ e : Err, f (.error e) = .error e

/-- A stage that forwards errors unchanged to the next stage: a calc node
with an error-propagating callable, or a via node.  (An async node rebuilds
its payload from the awaitable, so it is not a passthrough stage.) -/
def isPassNode {V : Type} : FNode V → Prop
  | .fcalc f => errPass f
  | .fvia => True
  | .fasync _ _ _ _ => False

/-- `flow_when_all_awaitable::submit` (src/flow/flow_async_aggregator.h lines
289-323): if any sub-blueprint pointer is null (`all_bps_present`, lines
216-224) the submit refuses to launch and returns -1; otherwise the launch
loop runs (in the no-exception build `launch<I>` always returns 0, lines
226-257) and submit returns 0.  `present` lists, per child, whether its
`lite_ptr` to the sub-blueprint is non-null. -/
def whenAllSubmit (present : List Bool) : Int :=
  if present.all (fun b => b) then 0 else -1

/-! ## Calc-node fusion (claim C8)

`zipped_callable` and the `calc | calc` composition overloads
(src/flow/flow_blueprint.h lines 92-135 and 340-360). -/

/-- `MAX_ZIP_N` (src/flow/flow_def.h lines 11-20): 2 for clang/gcc and the
default; 8 for MSVC.  The clang/gcc value is used. -/
def MAX_ZIP_N : Nat := 2

/-- `zipped_callable<F, G>::operator()` (src/flow/flow_blueprint.h lines
107-117): `fg.second()(fg.first()(x))` — the earlier stage `f` first, then
`g`. -/
def zipF {A : Type} (f g : A → A) : A → A := fun x => g (f x)

/-- The wrapper `transform(f)` installs into its calc node
(src/flow/flow_node.h lines 186-194): call `f` on the value side, propagate
the error side untouched. -/
def transformWrap {V : Type} (f : V → V) : FResult V → FResult V
  | .value v => .value (f v)
  | .error e => .error e

/-- A blueprint under construction, in storage order: the head is the most
recently appended node (it executes last), paired with the calc node's zip
depth `N` (`flow_calc_node<I, O, F, N>`). -/
def BNode (V : Type) : Type := FNode V × Nat

/-- Appending a calc node to a blueprint, mirroring the `operator|`
overloads of src/flow/flow_blueprint.h:

* head is a calc node of depth `MAX_ZIP_N` (lines 352-360): a fresh calc
  node of depth 1 is prepended;
* head is a calc node of smaller depth (lines 340-350): the head is fused
  into one `zipped_callable` of depth `N + 1`;
* head is a via or async node (lines 393-401 and 414-424): the new calc
  node is prepended with depth 1. -/
def pipeCalc {V : Type} (nodes : List (BNode V)) (g : FResult V → FResult V) :
    List (BNode V) :=
  match nodes with
  | (FNode.fcalc f, n) :: rest =>
    if n = MAX_ZIP_N then (FNode.fcalc g, 1) :: (FNode.fcalc f, n) :: rest
    else (FNode.fcalc (zipF f g), n + 1) :: rest
  | other => (FNode.fcalc g, 1) :: other

/-- `make_blueprint<T, E>()` (src/flow/flow_node.h lines 587-599): a single
identity calc node of depth 1. -/
def mkBlueprint (V : Type) : List (BNode V) := [(FNode.fcalc (fun r => r), 1)]

/-- The node list a runner executes for a built blueprint: storage order
reversed (storage index `n-1` executes first), zip depths erased. -/
def execNodes {V : Type} (nodes : List (BNode V)) : List (FNode V) :=
  (nodes.map Prod.fst).reverse

/-! ## Awaitable status state machine (claim C4)

`awaitable_base` (src/flow/flow_awaitable.h lines 17-146).  The status word
holds `idle / waiting / done`; `access_delegate::submit_async` performs the
idle-to-waiting CAS and calls the derived `submit()` (lines 75-90),
`resume` performs the waiting-to-done CAS for the completion path
(lines 134-141), and the static `cancel` performs the same CAS for the
controller's cancel path (lines 55-66).  `do_resume` (lines 42-53) invokes
the registered next-step continuation.

The machine is driven by the runner's single submitter thread; the
controller's cancel vtable can only reach the awaitable after a successful
`submit_async` made the handler visible outside the controller lock
(`flow_runner::ipc::dispatch_async_node`, src/flow/flow_runner.h lines
450-557 — while the runner holds the controller lock, `cancel()` spins and
cannot invoke the handler; the lock is only released after submit).  A
failed inner `submit()` restores `idle` under that same protection, so the
whole `submit_async` call is a single atomic event here. -/

/-- `awaitable_base::wait_state` (src/flow/flow_awaitable.h lines 26-30). -/
inductive AwStatus
  | idle
  | waiting
  | done
deriving DecidableEq, Repr

/-- Which party won the waiting-to-done CAS. -/
inductive AwParty
  | resumer
  | canceller
deriving DecidableEq, Repr

/-- Observable state of one awaitable's status machine.
`nextStepRuns` counts invocations of the next-step continuation
(`do_resume`, lines 42-53); `cancelEnabled` records that a successful
`submit_async` has made the cancel handler reachable by the controller;
`succSubmits` counts `submit_async` calls that returned 0. -/
structure AwState where
  status : AwStatus
  nextStepRuns : Nat
  cancelEnabled : Bool
  succSubmits : Nat
  doneBy : Option AwParty
deriving DecidableEq, Repr

/-- The freshly constructed awaitable (src/flow/flow_awaitable.h lines
143-145): status `idle`. -/
def awInit : AwState :=
  { status := .idle
    nextStepRuns := 0
    cancelEnabled := false
    succSubmits := 0
    doneBy := none }

/-- `access_delegate::submit_async` (lines 75-90) as a function of the state
and of the derived `submit()` return code: a failed idle-to-waiting CAS
returns -1 without touching anything; a nonzero inner code restores `idle`
and forwards the code; otherwise the awaitable is `waiting` and 0 is
returned. -/
def awSubmitAsync (s : AwState) (code : Int) : AwState × Int :=
  if s.status ≠ .idle then (s, -1)
  else if code ≠ 0 then (s, code)
  else
    ({ s with
        status := .waiting
        cancelEnabled := true
        succSubmits := s.succSubmits + 1 }, 0)

/-- `awaitable_base::resume` (lines 134-141): the waiting-to-done CAS; on
success `do_resume` runs the next-step continuation; a loser is a no-op. -/
def awResume (s : AwState) : AwState :=
  if s.status = .waiting then
    { s with
        status := .done
        nextStepRuns := s.nextStepRuns + 1
        doneBy := some .resumer }
  else s

/-- The static `cancel` handed to the controller (lines 55-66): the same
waiting-to-done CAS, then `do_resume` with a cancel error; only reachable
once the handler is visible (`cancelEnabled`). -/
def awCancel (s : AwState) : AwState :=
  if s.cancelEnabled then
    if s.status = .waiting then
      { s with
          status := .done
          nextStepRuns := s.nextStepRuns + 1
          doneBy := some .canceller }
    else s
  else s

/-- Events of the awaitable status machine. -/
inductive AwEvent
  | submitAsync (code : Int)
  | resume
  | cancel
deriving DecidableEq, Repr

/-- One interleaving step. -/
def awStep (s : AwState) : AwEvent → AwState
  | .submitAsync code => (awSubmitAsync s code).1
  | .resume => awResume s
  | .cancel => awCancel s

/-- The state after an interleaving of events on a fresh awaitable. -/
def awRun (evs : List AwEvent) : AwState :=
  evs.foldl awStep awInit

/-! ## when_all aggregator state machine (claim C2)

`flow_when_all_state` / `flow_when_all_awaitable`
(src/flow/flow_async_aggregator.h lines 106-334).  Parameters: `N` children
and `r i`, the single result child `i`'s pipeline delivers to its
`delegate<i>` receiver (exactly one per child, claim C1).

Shared atomics: `fired` (packed `count*epoch | launch_success_msk |
launch_failed_msk`, with `epoch = 4`, `launch_success_msk = 2`; lines
26-31 and 113-118), and `failed` (initialized to `N`, lines 118-123).

Each child's `delegate<I>::emplace` (lines 157-193) is a straight-line
program of separate atomic operations: store the result into slot `I`;
if it is an error, cancel the siblings and CAS `failed : N -> I`;
`fired.fetch_sub(epoch)`; if the pre-subtract value was
`successfully_finished = epoch | launch_success_msk = 6`, load `failed`
and resume the parent.  Events of distinct children interleave arbitrarily;
each child's events stay in program order, tracked by a per-child program
counter. -/

/-- Per-child program counter through `delegate<I>::emplace`.  `sawLast`
becomes true at the `fetch_sub` that observed the terminal value 6
(it is sticky: `finished` keeps it); `pushed` records that this child
performed the parent resume. -/
inductive WaPhase
  | unlaunched
  | launched
  | stored
  | casDone
  | decDone
  | finished
deriving DecidableEq, Repr

/-- State of one when_all child. -/
structure WaChild where
  phase : WaPhase
  sawLast : Bool
  pushed : Bool
deriving DecidableEq, Repr

/-- A child before its runner is launched. -/
def waChildInit : WaChild :=
  { phase := .unlaunched, sawLast := false, pushed := false }

/-- The submitter thread's program counter through
`flow_when_all_awaitable::submit` (lines 280-323): launch children
0..N-1 in order (`launch<I>`, lines 226-257: `fired.fetch_add(epoch)` then
run the child), then `fired.fetch_or(launch_success_msk)` recording whether
the pre-or value was 0, then (only in that case) load `failed` and resume. -/
inductive WaSub
  | launching (i : Nat)
  | afterMark (sawZero : Bool)
  | sdone (pushed : Bool)
deriving DecidableEq, Repr

/-- What the aggregator resumes its parent with:
`result_type(value_tag, result_delegate)` on success,
`async_any_failed_error::make(i)` / `async_all_failed_error::make()`
otherwise, and the when_any winner payload (the success delegate whose
`winner()` is `i`). -/
inductive AggPayload
  | success
  | anyFailed (i : Nat)
  | winner (i : Nat)
  | allFailed
deriving DecidableEq, Repr

/-- Global state of the when_all machine. -/
structure WaState where
  child : Nat → WaChild
  fired : Nat
  failed : Nat
  sub : WaSub
  resumes : List AggPayload

/-- Initial when_all state (`flow_when_all_state` constructor, lines
121-124: `fired = 0`, `failed = N`; submit about to launch child 0). -/
def waInit (N : Nat) : WaState :=
  { child := fun _ => waChildInit
    fired := 0
    failed := N
    sub := .launching 0
    resumes := [] }

/-- Events of the when_all machine: the submitter's steps and the atomic
steps of each child's `emplace`. -/
inductive WaEvent
  | launch
  | mark
  | submitFinish
  | store (i : Nat)
  | cas (i : Nat)
  | dec (i : Nat)
  | lastResume (i : Nat)
deriving DecidableEq, Repr

/-- One interleaving step of the when_all machine; `none` when the event is
not enabled in the current state.

* `launch` (`launch<I>`, lines 226-257): `fired += epoch`, child becomes
  launched.
* `store i` / `cas i` (lines 157-178): the move into slot `i`, then — only
  when the stored result is an error — the `failed : N -> i` CAS.
* `dec i` (lines 180-185): `fired.fetch_sub(epoch)`, remembering whether
  the pre-value was `successfully_finished = 6`.
* `lastResume i` (lines 186-192): the child that saw 6 loads `failed` and
  resumes the parent with the success delegate or `any_failed(failed)`.
* `mark` (lines 303-308): after all launches, `fired.fetch_or(2)`,
  remembering whether the pre-value was 0.
* `submitFinish` (lines 309-315): if the pre-or value was 0 the submitter
  loads `failed` and resumes the parent the same way. -/
def waStep {V : Type} (N : Nat) (r : Nat → FResult V) (s : WaState) :
    WaEvent → Option WaState
  | .launch =>
    match s.sub with
    | .launching i =>
      if i < N then
        some { s with
                fired := s.fired + 4
                child := Function.update s.child i
                  { waChildInit with phase := .launched }
                sub := .launching (i + 1) }
      else none
    | _ => none
  | .mark =>
    match s.sub with
    | .launching i =>
      if i = N then
        some { s with
                fired := s.fired ||| 2
                sub := .afterMark (s.fired = 0) }
      else none
    | _ => none
  | .submitFinish =>
    match s.sub with
    | .afterMark true =>
      some { s with
              sub := .sdone true
              resumes := s.resumes ++
                [if s.failed = N then .success else .anyFailed s.failed] }
    | .afterMark false => some { s with sub := .sdone false }
    | _ => none
  | .store i =>
    if (s.child i).phase = .launched then
      some { s with
              child := Function.update s.child i
                { phase := .stored
                  sawLast := (s.child i).sawLast
                  pushed := (s.child i).pushed } }
    else none
  | .cas i =>
    if (s.child i).phase = .stored then
      some { s with
              child := Function.update s.child i
                { phase := .casDone
                  sawLast := (s.child i).sawLast
                  pushed := (s.child i).pushed }
              failed := if (r i).isError ∧ s.failed = N then i else s.failed }
    else none
  | .dec i =>
    if (s.child i).phase = .casDone then
      some { s with
              fired := s.fired - 4
              child := Function.update s.child i
                { phase := .decDone
                  sawLast := s.fired = 6
                  pushed := (s.child i).pushed } }
    else none
  | .lastResume i =>
    if (s.child i).phase = .decDone then
      if (s.child i).sawLast then
        some { s with
                child := Function.update s.child i
                  { phase := .finished
                    sawLast := (s.child i).sawLast
                    pushed := true }
                resumes := s.resumes ++
                  [if s.failed = N then .success else .anyFailed s.failed] }
      else
        some { s with
                child := Function.update s.child i
                  { phase := .finished
                    sawLast := (s.child i).sawLast
                    pushed := (s.child i).pushed } }
    else none

/-- The when_all state after an interleaving of events, if every event was
enabled when it ran. -/
def waRun {V : Type} (N : Nat) (r : Nat → FResult V) (evs : List WaEvent) :
    Option WaState :=
  evs.foldlM (waStep N r) (waInit N)

/-- A terminated when_all run: every child's `emplace` has returned and the
submitter has returned from `submit`. -/
def waComplete (N : Nat) (s : WaState) : Prop :=
  (∀ i, i < N → (s.child i).phase = .finished) ∧ ∃ b, s.sub = .sdone b

/-! ## when_any aggregator state machine (claim C3)

`flow_when_any_state` / `flow_when_any_awaitable`
(src/flow/flow_async_aggregator.h lines 535-636 and 832-945).  Parameters:
`N` children, `present i` (whether child `i`'s sub-blueprint `lite_ptr` is
non-null), and `r i` (the result a launched child delivers once).

Differences from when_all: `winner` (initialized to `N`) replaces `failed`;
a child whose slot holds a value CASes `winner : N -> i` and on success
immediately resumes the parent with the winning delegate (lines 608-619);
the last-pending child resumes with `async_all_failed_error` only when it
did not win and no winner was elected (lines 622-633); `launch<I>` skips a
null sub-blueprint by returning -1 without firing (lines 852-857); the
launch loop stops early once a `winner` load shows an elected winner
(lines 882-892); a zero launch count makes `submit` set `launch_failed_msk`
and return -1 (lines 916-920). -/

/-- State of one when_any child.  `won` records a successful
`winner : N -> i` CAS; `sawLast` the `fetch_sub` that observed 6;
`pushedAF` that this child performed the all-failed parent resume. -/
structure WyChild where
  phase : WaPhase
  won : Bool
  sawLast : Bool
  pushedAF : Bool
deriving DecidableEq, Repr

/-- A when_any child before launch. -/
def wyChildInit : WyChild :=
  { phase := .unlaunched, won := false, sawLast := false, pushedAF := false }

/-- The submitter's program counter through
`flow_when_any_awaitable::submit` (lines 882-934).  `launching i`: about to
run `launch<i>`; `readW i`: about to reload `winner` into `keep_launching`;
`doneLaunch`: the launch loop is over; `afterMark`: after
`fired.fetch_or(launch_success_msk)`; `refused`: submit returned -1 because
no child launched; `sdone`: submit returned 0. -/
inductive WySub
  | launching (i : Nat)
  | readW (i : Nat)
  | doneLaunch
  | afterMark (sawZero : Bool)
  | refused
  | sdone (sawZero : Bool) (pushed : Bool)
deriving DecidableEq, Repr

/-- Global state of the when_any machine.  `cnt` is the local `count` of
`submit` (line 885). -/
structure WyState where
  child : Nat → WyChild
  fired : Nat
  winner : Nat
  cnt : Nat
  sub : WySub
  resumes : List AggPayload

/-- Initial when_any state (`flow_when_any_state` constructor, lines
550-555: `fired = 0`, `winner = N`). -/
def wyInit (N : Nat) : WyState :=
  { child := fun _ => wyChildInit
    fired := 0
    winner := N
    cnt := 0
    sub := .launching 0
    resumes := [] }

/-- Events of the when_any machine. -/
inductive WyEvent
  | launch
  | readWinner
  | loopDone
  | refuse
  | mark
  | submitFinish
  | store (i : Nat)
  | cas (i : Nat)
  | dec (i : Nat)
  | lastResume (i : Nat)
deriving DecidableEq, Repr

/-- One interleaving step of the when_any machine.

* `launch` (`launch<I>`, lines 852-873): a null sub-blueprint returns -1
  untouched; otherwise `fired += epoch`, the child runner starts, `count`
  increments.
* `readWinner` (line 889): reload `winner`; launching continues only while
  it is still `N`.
* `loopDone`: the loop index reached `N`.
* `refuse` (lines 916-920): `count == 0` makes submit set
  `launch_failed_msk` and return -1 (no resume; the runner surfaces the
  failure, claim C7).
* `mark` / `submitFinish` (lines 922-931): `fired.fetch_or(2)`; if the
  pre-or value was 0 and a `winner` load still shows `N`, resume the parent
  with `async_all_failed_error`.
* `store i` (lines 595-607): the move into slot `i`.
* `cas i` (lines 608-619): a value slot attempts `winner : N -> i`; the
  unique success resumes the parent with the winning delegate.  (The CAS
  and the resume are adjacent statements of the winning thread; no other
  thread touches `winner` once it is set, so they form one event here.)
* `dec i` (lines 622-626): `fired.fetch_sub(epoch)`, remembering whether
  the pre-value was `successfully_finished = 6`.
* `lastResume i` (lines 628-632): the child that saw 6, did not win, and
  loads `winner = N`, resumes the parent with `async_all_failed_error`. -/
def wyStep {V : Type} (N : Nat) (present : Nat → Bool) (r : Nat → FResult V)
    (s : WyState) : WyEvent → Option WyState
  | .launch =>
    match s.sub with
    | .launching i =>
      if i < N then
        if present i then
          some { s with
                  fired := s.fired + 4
                  child := Function.update s.child i
                    { wyChildInit with phase := .launched }
                  cnt := s.cnt + 1
                  sub := .readW i }
        else
          some { s with sub := .readW i }
      else none
    | _ => none
  | .readWinner =>
    match s.sub with
    | .readW i =>
      some { s with
              sub := if s.winner = N then .launching (i + 1) else .doneLaunch }
    | _ => none
  | .loopDone =>
    match s.sub with
    | .launching i => if i = N then some { s with sub := .doneLaunch } else none
    | _ => none
  | .refuse =>
    match s.sub with
    | .doneLaunch =>
      if s.cnt = 0 then
        some { s with fired := s.fired ||| 1, sub := .refused }
      else none
    | _ => none
  | .mark =>
    match s.sub with
    | .doneLaunch =>
      if s.cnt ≠ 0 then
        some { s with
                fired := s.fired ||| 2
                sub := .afterMark (s.fired = 0) }
      else none
    | _ => none
  | .submitFinish =>
    match s.sub with
    | .afterMark true =>
      if s.winner = N then
        some { s with sub := .sdone true true, resumes := s.resumes ++ [.allFailed] }
      else
        some { s with sub := .sdone true false }
    | .afterMark false => some { s with sub := .sdone false false }
    | _ => none
  | .store i =>
    if (s.child i).phase = .launched then
      some { s with
              child := Function.update s.child i
                { phase := .stored
                  won := (s.child i).won
                  sawLast := (s.child i).sawLast
                  pushedAF := (s.child i).pushedAF } }
    else none
  | .cas i =>
    if (s.child i).phase = .stored then
      if (r i).isValue ∧ s.winner = N then
        some { s with
                child := Function.update s.child i
                  { phase := .casDone
                    won := true
                    sawLast := (s.child i).sawLast
                    pushedAF := (s.child i).pushedAF }
                winner := i
                resumes := s.resumes ++ [.winner i] }
      else
        some { s with
                child := Function.update s.child i
                  { phase := .casDone
                    won := (s.child i).won
                    sawLast := (s.child i).sawLast
                    pushedAF := (s.child i).pushedAF } }
    else none
  | .dec i =>
    if (s.child i).phase = .casDone then
      some { s with
              fired := s.fired - 4
              child := Function.update s.child i
                { phase := .decDone
                  won := (s.child i).won
                  sawLast := s.fired = 6
                  pushedAF := (s.child i).pushedAF } }
    else none
  | .lastResume i =>
    if (s.child i).phase = .decDone then
      if (s.child i).sawLast ∧ ¬(s.child i).won ∧ s.winner = N then
        some { s with
                child := Function.update s.child i
                  { phase := .finished
                    won := (s.child i).won
                    sawLast := (s.child i).sawLast
                    pushedAF := true }
                resumes := s.resumes ++ [.allFailed] }
      else
        some { s with
                child := Function.update s.child i
                  { phase := .finished
                    won := (s.child i).won
                    sawLast := (s.child i).sawLast
                    pushedAF := (s.child i).pushedAF } }
    else none

/-- The when_any state after an interleaving of events, if every event was
enabled when it ran. -/
def wyRun {V : Type} (N : Nat) (present : Nat → Bool) (r : Nat → FResult V)
    (evs : List WyEvent) : Option WyState :=
  evs.foldlM (wyStep N present r) (wyInit N)

/-- A terminated when_any run: every launched child's `emplace` has
returned, unlaunched children stay unlaunched, and the submitter has
returned from `submit` without refusing. -/
def wyComplete (N : Nat) (s : WyState) : Prop :=
  (∀ i, i < N → (s.child i).phase = .finished ∨ (s.child i).phase = .unlaunched) ∧
  ∃ z p, s.sub = .sdone z p

/-! ## Cancel-handler ownership and refcount machine (claim C5)

`flow_runner::ipc::dispatch_async_node` (src/flow/flow_runner.h lines
450-557), `flow_controller` (lines 89-223) and `awaitable_base`
(src/flow/flow_awaitable.h).  One machine instance covers the lifetime of
one awaitable of one async stage of a full runner.

`word` is the controller state word minus its base `4 * epoch0` at stage
entry (the previous stage's unlock left the low bits at `none`, so the base
is a multiple of 4 and every comparison in the source — full-word CAS
against the token, and `&&& msk` tests — is invariant under the shift).
The runner's lock token is therefore the value 3.

`triple` is whether the controller's `{cancel_handler, notify, param}`
vtable currently holds this awaitable's handlers (`true`) or the stubs
(`false`).  `drops` counts invocations of this awaitable's
`notify_cancel_handler_dropped` (src/flow/flow_awaitable.h lines 37-40),
whether through the controller triple or through the runner's local copy.
`rc` is the awaitable's refcount (constructed at 1, awaitable.h line 144).

Actors: the runner thread (`rpc`), the completion task (`comp`, the lambda
of lines 511-539, pending once the next-step continuation fired), an
external `flow_controller::cancel` caller (`canc`), and the async backend
(`back`; `bRetain` says whether the backend holds its own reference).
`subCode` is the derived `submit()` return; `ckind` is the cancel word bit
(1 = hard, 2 = soft). -/

/-- Runner-thread program counter through `dispatch_async_node`. -/
inductive C5Rpc
  | r0
  | r1
  | rLocked
  | rSubmitted
  | rDoneNoLock
  | rDoneSubFail
  | rDoneOk
deriving DecidableEq, Repr

/-- Completion-task actor. -/
inductive C5Comp
  | cInactive
  | cPending
  | cDone
deriving DecidableEq, Repr

/-- External cancel actor. -/
inductive C5Canc
  | cancIdle
  | cancDone
deriving DecidableEq, Repr

/-- Backend actor. -/
inductive C5Back
  | bNone
  | bActive
  | bResumed
  | bDone
deriving DecidableEq, Repr

/-- Global state of the cancel-handler machine. -/
structure C5State where
  rpc : C5Rpc
  word : Nat
  triple : Bool
  drops : Nat
  rc : Int
  st : AwStatus
  nextStep : Nat
  comp : C5Comp
  canc : C5Canc
  back : C5Back
deriving DecidableEq, Repr

/-- Stage entry: awaitable freshly created by the factory (refcount 1,
status idle), controller unlocked with no cancel bits, stub triple. -/
def c5Init : C5State :=
  { rpc := .r0
    word := 0
    triple := false
    drops := 0
    rc := 1
    st := .idle
    nextStep := 0
    comp := .cInactive
    canc := .cancIdle
    back := .bNone }

/-- Events of the cancel-handler machine. -/
inductive C5Event
  | provide
  | lockTry
  | submitTry
  | guardUnlock
  | compRun
  | cancelTry
  | cancelSkip
  | backendResume
  | backendRelease
deriving DecidableEq, Repr

/-- One interleaving step.

* `provide` (`access_delegate::provide_cancel_handler`, awaitable.h lines
  92-99): export the vtable into the runner's locals and retain.
* `lockTry` (`lock_and_set_cancel_handler`, runner.h lines 102-128, called
  at line 481): with clear low bits, CAS in the `locked` bits and install
  the triple (the install happens under the lock: `cancel` spins on the
  locked word and the completion task does not exist yet, so one event).
  Cancelled low bits fail the lock; the runner then drops the handler
  locally and releases the awaitable (lines 483-486).
* `submitTry` (line 542, `submit_async` of awaitable.h lines 75-90): on a
  nonzero inner code the runner, still under the lock, resets the handler
  (`reset_cancel_handler_when_locked` notifies the triple, lines 131-136),
  unlocks (CAS 3 -> 4, necessarily uncontested) and releases the awaitable
  (lines 543-547); on success the backend becomes active (and retains iff
  `bRetain`).
* `guardUnlock` (the `guard` destructor, lines 500-508): CAS 3 -> 4; a
  no-op when the completion task already took the word over.
* `compRun` (the dispatched completion task, lines 516-537): CAS
  `token -> token + epoch` (3 -> 7, keeping the lock); the winner resets
  the handler under the lock and then `fetch_add(1)` to 8.  A loser calls
  `reset_cancel_handler` (lines 144-167): cancel bits make it return
  without touching the triple; otherwise (word 4) it re-locks, notifies
  the installed triple and stores `exp + epoch` = 8.
* `cancelTry` (`flow_controller::cancel`, lines 179-206): cancel bits set
  means return; a locked word spins; otherwise CAS the cancel bit in, then
  invoke the current triple: this awaitable's `cancel` static (awaitable.h
  lines 55-66: waiting-to-done CAS, `do_resume` with a cancel error, which
  fires the next-step continuation and releases) followed by its notify —
  or the stubs, if the triple was already reset.  (After the cancel CAS no
  other actor can touch the triple: the lock paths fail on cancel bits —
  so one event.)
* `cancelSkip`: no external cancel in this run.
* `backendResume` (`resume`, awaitable.h lines 134-141): waiting-to-done
  CAS; the winner's `do_resume` fires the next-step continuation (making
  the completion task pending) and releases.
* `backendRelease` (awaitable.h lines 122-129): the backend's own release
  after its resume call, present iff it retained. -/
def c5Step (subCode : Int) (bRetain : Bool) (ckind : Nat) (s : C5State) :
    C5Event → Option C5State
  | .provide =>
    match s.rpc with
    | .r0 => some { s with rc := s.rc + 1, rpc := .r1 }
    | _ => none
  | .lockTry =>
    match s.rpc with
    | .r1 =>
      if s.word % 4 = 0 then
        some { s with word := s.word ||| 3, triple := true, rpc := .rLocked }
      else
        some { s with drops := s.drops + 1, rc := s.rc - 2, rpc := .rDoneNoLock }
    | _ => none
  | .submitTry =>
    match s.rpc with
    | .rLocked =>
      if subCode ≠ 0 then
        some { s with
                drops := s.drops + 1
                rc := s.rc - 2
                triple := false
                word := 4
                rpc := .rDoneSubFail }
      else
        some { s with
                st := .waiting
                rc := s.rc + (if bRetain then 1 else 0)
                back := .bActive
                rpc := .rSubmitted }
    | _ => none
  | .guardUnlock =>
    match s.rpc with
    | .rSubmitted =>
      if s.word = 3 then some { s with word := 4, rpc := .rDoneOk }
      else some { s with rpc := .rDoneOk }
    | _ => none
  | .compRun =>
    match s.comp with
    | .cPending =>
      if s.word = 3 then
        some { s with
                word := 8
                drops := s.drops + 1
                rc := s.rc - 1
                triple := false
                comp := .cDone }
      else if s.word % 4 ≠ 0 then
        some { s with comp := .cDone }
      else
        some { s with
                word := s.word + 4
                drops := s.drops + 1
                rc := s.rc - 1
                triple := false
                comp := .cDone }
    | _ => none
  | .cancelTry =>
    match s.canc with
    | .cancIdle =>
      if s.word % 4 = 1 ∨ s.word % 4 = 2 then
        some { s with canc := .cancDone }
      else if s.word % 4 = 3 then
        some s
      else
        if s.triple then
          if s.st = .waiting then
            some { s with
                    word := s.word ||| ckind
                    st := .done
                    nextStep := s.nextStep + 1
                    comp := .cPending
                    rc := s.rc - 2
                    drops := s.drops + 1
                    triple := false
                    canc := .cancDone }
          else
            some { s with
                    word := s.word ||| ckind
                    drops := s.drops + 1
                    rc := s.rc - 1
                    triple := false
                    canc := .cancDone }
        else
          some { s with word := s.word ||| ckind, canc := .cancDone }
    | _ => none
  | .cancelSkip =>
    match s.canc with
    | .cancIdle => some { s with canc := .cancDone }
    | _ => none
  | .backendResume =>
    match s.back with
    | .bActive =>
      if s.st = .waiting then
        some { s with
                st := .done
                nextStep := s.nextStep + 1
                comp := .cPending
                rc := s.rc - 1
                back := .bResumed }
      else
        some { s with back := .bResumed }
    | _ => none
  | .backendRelease =>
    match s.back with
    | .bResumed =>
      some { s with rc := s.rc - (if bRetain then 1 else 0), back := .bDone }
    | _ => none

/-- The cancel-handler machine state after an interleaving of events. -/
def c5Run (subCode : Int) (bRetain : Bool) (ckind : Nat) (evs : List C5Event) :
    Option C5State :=
  evs.foldlM (c5Step subCode bRetain ckind) c5Init

/-- A terminated async stage: the runner returned from
`dispatch_async_node`, the cancel caller returned, any pending completion
task ran, and an activated backend finished (resumed and released). -/
def c5Complete (s : C5State) : Prop :=
  (s.rpc = .rDoneNoLock ∨ s.rpc = .rDoneSubFail ∨ s.rpc = .rDoneOk) ∧
  s.canc = .cancDone ∧
  s.comp ≠ .cPending ∧
  (s.back = .bNone ∨ s.back = .bDone)

/-! ## Auxiliary counting functions and inductive invariants

Used by the proofs about the aggregator and cancel-handler machines. -/

/-- A child whose launch has fired but whose `fetch_sub(epoch)` has not yet
happened: exactly the children counted (times `epoch = 4`) in `fired`. -/
def waActivePhase (p : WaPhase) : Bool :=
  match p with
  | .launched => true
  | .stored => true
  | .casDone => true
  | _ => false

/-- The child's `failed` / `winner` CAS attempt is in the past. -/
def waCasPast (p : WaPhase) : Bool :=
  match p with
  | .casDone => true
  | .decDone => true
  | .finished => true
  | _ => false

/-- Whether the submitter is past its `fired.fetch_or(launch_success_msk)`. -/
def WaSub.markedB : WaSub → Bool
  | .launching _ => false
  | _ => true

/-- The submitter holds or already consumed a terminal trigger. -/
def WaSub.trigN : WaSub → Nat
  | .afterMark true => 1
  | .sdone true => 1
  | _ => 0

/-- The submitter has performed the parent resume. -/
def WaSub.pushN : WaSub → Nat
  | .sdone true => 1
  | _ => 0

/-- Number of fired-but-not-decremented children. -/
def waActive (N : Nat) (f : Nat → WaChild) : Nat :=
  ((Finset.range N).filter (fun i => waActivePhase (f i).phase = true)).card

/-- Number of children whose `fetch_sub` observed the terminal value 6. -/
def waSawLast (N : Nat) (f : Nat → WaChild) : Nat :=
  ((Finset.range N).filter (fun i => (f i).sawLast = true)).card

/-- Number of children that performed the parent resume. -/
def waPushedC (N : Nat) (f : Nat → WaChild) : Nat :=
  ((Finset.range N).filter (fun i => (f i).pushed = true)).card

/-- Inductive invariant of the when_all machine. -/
def WaInv {V : Type} (N : Nat) (r : Nat → FResult V) (s : WaState) : Prop :=
  (∀ i, N ≤ i → s.child i = waChildInit) ∧
  (∀ i, i < N → (s.child i).phase = .unlaunched → s.child i = waChildInit) ∧
  (∀ k, s.sub = .launching k →
    k ≤ N ∧ ∀ i, i < N → ((s.child i).phase ≠ .unlaunched ↔ i < k)) ∧
  (s.sub.markedB = true → ∀ i, i < N → (s.child i).phase ≠ .unlaunched) ∧
  (s.fired = 4 * waActive N s.child + (if s.sub.markedB then 2 else 0)) ∧
  (s.failed = N ∨
    (s.failed < N ∧ (r s.failed).isError ∧ waCasPast (s.child s.failed).phase = true)) ∧
  (s.failed = N → ∀ i, i < N → waCasPast (s.child i).phase = true → (r i).isValue) ∧
  (waSawLast N s.child + s.sub.trigN =
    if s.sub.markedB = true ∧ waActive N s.child = 0 then 1 else 0) ∧
  (s.resumes.length = waPushedC N s.child + s.sub.pushN) ∧
  (∀ i, i < N → waActivePhase (s.child i).phase = true →
    (s.child i).sawLast = false ∧ (s.child i).pushed = false) ∧
  (∀ i, i < N → (s.child i).pushed = true → (s.child i).phase = .finished) ∧
  (∀ i, i < N → (s.child i).phase = .finished → (s.child i).pushed = (s.child i).sawLast) ∧
  (∀ p ∈ s.resumes,
    (p = .success ∧ ∀ i, i < N → (r i).isValue) ∨
    (∃ k, p = .anyFailed k ∧ k < N ∧ (r k).isError))

/-- Whether the when_any submitter is past its `fetch_or(launch_success_msk)`. -/
def WySub.markedB : WySub → Bool
  | .afterMark _ => true
  | .sdone _ _ => true
  | _ => false

/-- Whether the when_any submitter set `launch_failed_msk` (refused). -/
def WySub.refusedB : WySub → Bool
  | .refused => true
  | _ => false

/-- The when_any submitter holds or consumed a terminal trigger. -/
def WySub.trigN : WySub → Nat
  | .afterMark true => 1
  | .sdone true _ => 1
  | _ => 0

/-- The when_any submitter performed the all-failed parent resume. -/
def WySub.pushN : WySub → Nat
  | .sdone _ true => 1
  | _ => 0

/-- Number of fired-but-not-decremented when_any children. -/
def wyActive (N : Nat) (f : Nat → WyChild) : Nat :=
  ((Finset.range N).filter (fun i => waActivePhase (f i).phase = true)).card

/-- Number of when_any children whose `fetch_sub` observed 6. -/
def wySawLast (N : Nat) (f : Nat → WyChild) : Nat :=
  ((Finset.range N).filter (fun i => (f i).sawLast = true)).card

/-- Number of elected winners (successful `winner : N -> i` CASes). -/
def wyWonC (N : Nat) (f : Nat → WyChild) : Nat :=
  ((Finset.range N).filter (fun i => (f i).won = true)).card

/-- Number of children that performed the all-failed parent resume. -/
def wyPushedAFC (N : Nat) (f : Nat → WyChild) : Nat :=
  ((Finset.range N).filter (fun i => (f i).pushedAF = true)).card

/-- Number of launched when_any children (the local `count` of submit). -/
def wyLaunched (N : Nat) (f : Nat → WyChild) : Nat :=
  ((Finset.range N).filter (fun i => (f i).phase ≠ .unlaunched)).card

/-- The processed-prefix shape of the when_any launch loop: children
`0..k-1` have been processed and exactly the present ones among them are
launched; an early stop (`k < N`) only happens on an elected winner. -/
def wyPrefix (N : Nat) (present : Nat → Bool) (s : WyState) : Prop :=
  match s.sub with
  | .launching k =>
    k ≤ N ∧ ∀ i, i < N → ((s.child i).phase ≠ .unlaunched ↔ (i < k ∧ present i = true))
  | .readW k =>
    k < N ∧ ∀ i, i < N → ((s.child i).phase ≠ .unlaunched ↔ (i ≤ k ∧ present i = true))
  | _ =>
    ∃ k, k ≤ N ∧
      (∀ i, i < N → ((s.child i).phase ≠ .unlaunched ↔ (i < k ∧ present i = true))) ∧
      (k < N → s.winner ≠ N)

/-- Inductive invariant of the when_any machine. -/
def WyInv {V : Type} (N : Nat) (present : Nat → Bool) (r : Nat → FResult V)
    (s : WyState) : Prop :=
  (∀ i, N ≤ i → s.child i = wyChildInit) ∧
  (∀ i, i < N → (s.child i).phase = .unlaunched → s.child i = wyChildInit) ∧
  wyPrefix N present s ∧
  (s.cnt = wyLaunched N s.child) ∧
  (s.fired = 4 * wyActive N s.child + (if s.sub.markedB then 2 else 0) +
    (if s.sub.refusedB then 1 else 0)) ∧
  ((s.winner = N ∧ (∀ i, i < N → (s.child i).won = false) ∧
      (∀ i, i < N → waCasPast (s.child i).phase = true → (r i).isError)) ∨
    (s.winner < N ∧ (s.child s.winner).won = true ∧ (r s.winner).isValue ∧
      waCasPast (s.child s.winner).phase = true ∧
      (∀ j, j < N → j ≠ s.winner → (s.child j).won = false))) ∧
  (wySawLast N s.child + s.sub.trigN =
    if s.sub.markedB = true ∧ wyActive N s.child = 0 then 1 else 0) ∧
  (s.resumes.length = wyWonC N s.child + wyPushedAFC N s.child + s.sub.pushN) ∧
  (∀ i, i < N → waActivePhase (s.child i).phase = true →
    (s.child i).sawLast = false ∧ (s.child i).pushedAF = false) ∧
  (∀ i, i < N →
    ((s.child i).phase = .unlaunched ∨ (s.child i).phase = .launched ∨
      (s.child i).phase = .stored) → (s.child i).won = false) ∧
  (∀ i, i < N → (s.child i).pushedAF = true →
    (s.child i).sawLast = true ∧ (s.child i).won = false ∧
    (s.child i).phase = .finished ∧ s.winner = N) ∧
  (∀ z p, s.sub = .sdone z p → p = true → (z = true ∧ s.winner = N)) ∧
  (∀ i, i < N → (s.child i).phase = .finished → (s.child i).sawLast = true →
    (s.child i).won = false → s.winner = N → (s.child i).pushedAF = true) ∧
  (∀ z, s.sub = .sdone z false → z = true → s.winner ≠ N) ∧
  (∀ p ∈ s.resumes,
    (∃ k, p = .winner k ∧ k < N ∧ present k = true ∧ (r k).isValue ∧ s.winner = k) ∨
    (p = .allFailed ∧ s.winner = N ∧ s.sub.markedB = true ∧
      wyActive N s.child = 0))

/-- Relations common to the post-submit regions: the backend exists, status
and next-step and completion task are in lockstep, a backend past its
resume call implies a done status, and the refcount ledger: one creation
reference until `do_resume` releases it, one handler reference until the
drop, one backend reference (if retained) until the backend's release. -/
def c5Live (bRetain : Bool) (s : C5State) : Prop :=
  s.back ≠ .bNone ∧
  ((s.st = .waiting ∧ s.nextStep = 0 ∧ s.comp = .cInactive) ∨
    (s.st = .done ∧ s.nextStep = 1 ∧ (s.comp = .cPending ∨ s.comp = .cDone))) ∧
  ((s.back = .bResumed ∨ s.back = .bDone) → s.st = .done) ∧
  (s.drops = 0 ∨ s.drops = 1) ∧
  (s.rc = (if s.st = .done then 0 else 1) + (1 - (s.drops : Int)) +
    (if bRetain ∧ (s.back = .bActive ∨ s.back = .bResumed) then 1 else 0))

/-- Inductive invariant of the cancel-handler machine: per runner phase, the
exact reachable configurations of the state word, triple ownership, drop
count and refcount, together with the global relations between the
awaitable status, the next-step count, the completion task and the
backend. -/
def C5Inv (bRetain : Bool) (ckind : Nat) (s : C5State) : Prop :=
  match s.rpc with
  | .r0 =>
    s.st = .idle ∧ s.nextStep = 0 ∧ s.comp = .cInactive ∧ s.back = .bNone ∧
    s.triple = false ∧ s.drops = 0 ∧ s.rc = 1 ∧
    (s.word = 0 ∨ (s.canc = .cancDone ∧ s.word = ckind))
  | .r1 =>
    s.st = .idle ∧ s.nextStep = 0 ∧ s.comp = .cInactive ∧ s.back = .bNone ∧
    s.triple = false ∧ s.drops = 0 ∧ s.rc = 2 ∧
    (s.word = 0 ∨ (s.canc = .cancDone ∧ s.word = ckind))
  | .rLocked =>
    s.st = .idle ∧ s.nextStep = 0 ∧ s.comp = .cInactive ∧ s.back = .bNone ∧
    s.triple = true ∧ s.drops = 0 ∧ s.rc = 2 ∧ s.word = 3
  | .rDoneNoLock =>
    s.st = .idle ∧ s.nextStep = 0 ∧ s.comp = .cInactive ∧ s.back = .bNone ∧
    s.triple = false ∧ s.drops = 1 ∧ s.rc = 0 ∧
    s.canc = .cancDone ∧ s.word = ckind
  | .rDoneSubFail =>
    s.st = .idle ∧ s.nextStep = 0 ∧ s.comp = .cInactive ∧ s.back = .bNone ∧
    s.triple = false ∧ s.drops = 1 ∧ s.rc = 0 ∧
    (s.word = 4 ∨ (s.canc = .cancDone ∧ s.word = 4 + ckind))
  | .rSubmitted =>
    c5Live bRetain s ∧
    ((s.word = 3 ∧ s.triple = true ∧ s.drops = 0 ∧
        (s.comp = .cInactive ∨ s.comp = .cPending)) ∨
      (s.word = 8 ∧ s.triple = false ∧ s.drops = 1 ∧ s.comp = .cDone) ∨
      (s.word = 8 + ckind ∧ s.triple = false ∧ s.drops = 1 ∧ s.comp = .cDone ∧
        s.canc = .cancDone))
  | .rDoneOk =>
    c5Live bRetain s ∧
    ((s.word = 4 ∧ s.triple = true ∧ s.drops = 0 ∧
        (s.comp = .cInactive ∨ s.comp = .cPending)) ∨
      (s.word = 4 + ckind ∧ s.triple = false ∧ s.drops = 1 ∧ s.canc = .cancDone) ∨
      (s.word = 8 ∧ s.triple = false ∧ s.drops = 1 ∧ s.comp = .cDone) ∨
      (s.word = 8 + ckind ∧ s.triple = false ∧ s.drops = 1 ∧ s.comp = .cDone ∧
        s.canc = .cancDone))

/-- Event list of a concrete single-child when_all run used as a witness
trace: launch the child, mark, return from submit, then the child's
`emplace` steps in order. -/
def waWitnessEvents : List WaEvent :=
  [.launch, .mark, .submitFinish, .store 0, .cas 0, .dec 0, .lastResume 0]

/-- Final state of the witness when_all run: one child whose runner
produces `value 5`. -/
def waWitnessState : WaState :=
  (waRun 1 (fun _ => FResult.value (5 : Int)) waWitnessEvents).getD (waInit 1)

/-- Event list of a concrete two-child when_any run realizing scenario S8:
child 0's sub-blueprint is null (skipped at launch), child 1 launches,
wins the winner CAS and delivers its value. -/
def wyWitnessEvents : List WyEvent :=
  [.launch, .readWinner, .launch, .readWinner, .loopDone, .mark,
   .submitFinish, .store 1, .cas 1, .dec 1, .lastResume 1]

/-- Final state of the witness when_any run (S8): `present = (· = 1)` and
child 1's pipeline `[+100]` on input `(7,1)` produces `value 101`. -/
def wyWitnessState : WyState :=
  (wyRun 2 (fun i => decide (i = 1)) (fun _ => FResult.value (101 : Int))
    wyWitnessEvents).getD (wyInit 2)

/-- Event list of a concrete async-stage run used as a witness trace:
provide, lock, successful submit with a retaining backend, guard unlock,
no external cancel, backend resume and release, completion task. -/
def c5WitnessEvents : List C5Event :=
  [.provide, .lockTry, .submitTry, .guardUnlock, .cancelSkip,
   .backendResume, .backendRelease, .compRun]

/-- Final state of the witness cancel-handler run. -/
def c5WitnessState : C5State :=
  (c5Run 0 true 2 c5WitnessEvents).getD c5Init

/-! ## Theorems -/

/-- `x &&& msk` with `msk = 3` is the residue mod 4. -/
theorem land_three_eq_mod (x : Nat) : x &&& 3 = x % 4 := by
  have h := Nat.and_pow_two_sub_one_eq_mod x 2
  norm_num at h
  exact h

/-- Parity of a bitwise or. -/
theorem or_mod_two (a b : Nat) : (a ||| b) % 2 = 1 ↔ a % 2 = 1 ∨ b % 2 = 1 :=
  Nat.or_mod_two_eq_one

/-- Setting low bits on a word whose low two bits are clear is addition. -/
theorem lor_small (s k : Nat) (hs : s % 4 = 0) (hk : k < 4) : s ||| k = s + k := by
  have e1 : (s ||| k) % 2 = k % 2 := by
    have h := or_mod_two s k
    omega
  have e3 : (s ||| k) / 2 = s / 2 ||| k / 2 := Nat.or_div_two
  have e2 : (s / 2 ||| k / 2) % 2 = (k / 2) % 2 := by
    have h := or_mod_two (s / 2) (k / 2)
    omega
  have e5 : k / 2 / 2 = 0 := by omega
  have e4 : (s / 2 ||| k / 2) / 2 = s / 2 / 2 := by
    rw [Nat.or_div_two, e5, Nat.or_zero]
  have d1 := Nat.div_add_mod (s ||| k) 2
  have d2 := Nat.div_add_mod (s / 2 ||| k / 2) 2
  omega

/-- Counting change of a filtered range under a pointwise update: the count
after the update plus the old indicator equals the count before plus the new
indicator. -/
theorem card_filter_update {α : Type} {N i : Nat} (hi : i < N) (f : Nat → α)
    (v : α) (q : α → Prop) [DecidablePred q] :
    ((Finset.range N).filter (fun j => q (Function.update f i v j))).card +
      (if q (f i) then 1 else 0) =
    ((Finset.range N).filter (fun j => q (f j))).card +
      (if q v then 1 else 0) := by
  set S := (Finset.range N).filter (fun j => q (f j)) with hS
  have hup : (Finset.range N).filter (fun j => q (Function.update f i v j)) =
      if q v then insert i (S.erase i) else S.erase i := by
    by_cases hv : q v
    · rw [if_pos hv]
      ext j
      simp only [hS, Finset.mem_filter, Finset.mem_insert, Finset.mem_erase,
        Finset.mem_range, Function.update_apply]
      by_cases hj : j = i
      · subst hj
        simp [hi, hv]
      · simp [hj]
        try tauto
    · rw [if_neg hv]
      ext j
      simp only [hS, Finset.mem_filter, Finset.mem_erase, Finset.mem_range,
        Function.update_apply]
      by_cases hj : j = i
      · subst hj
        simp [hv]
      · simp [hj]
        try tauto
  rw [hup]
  by_cases hv : q v <;> by_cases hfi : q (f i)
  · have hiS : i ∈ S := by simp [hS, Finset.mem_filter, Finset.mem_range, hi, hfi]
    have hpos : 0 < S.card := Finset.card_pos.mpr ⟨i, hiS⟩
    rw [if_pos hv, if_pos hv, if_pos hfi,
      Finset.card_insert_of_not_mem (Finset.not_mem_erase i S),
      Finset.card_erase_of_mem hiS]
    omega
  · have hiS : i ∉ S := by simp [hS, Finset.mem_filter, hfi]
    rw [if_pos hv, if_pos hv, if_neg hfi, Finset.erase_eq_of_not_mem hiS,
      Finset.card_insert_of_not_mem hiS]
  · have hiS : i ∈ S := by simp [hS, Finset.mem_filter, Finset.mem_range, hi, hfi]
    have hpos : 0 < S.card := Finset.card_pos.mpr ⟨i, hiS⟩
    rw [if_neg hv, if_neg hv, if_pos hfi, Finset.card_erase_of_mem hiS]
    omega
  · have hiS : i ∉ S := by simp [hS, Finset.mem_filter, hfi]
    rw [if_neg hv, if_neg hv, if_neg hfi, Finset.erase_eq_of_not_mem hiS]

/-- Claim C9: `flow_controller::unlock(token)` CASes the state word from
`token` to `token + 1`, not `token + epoch`; the lock can only be acquired
from a state whose low two bits are `none` (00), and the locked encoding is
3, so every valid token has low bits 11; adding 1 therefore clears both lock
bits (leaving neither a cancel bit nor the lock held) and advances the epoch
counter (the word divided by 4) by exactly one, modulo the 62-bit epoch
space. -/
theorem unlock_token_plus_one_epoch :
    (∀ s : Nat, s &&& 3 ≠ 0 → lockAndSetToken s = none) ∧
    (∀ s tok : Nat, s < WSIZE → lockAndSetToken s = some tok →
      tok &&& 3 = 3 ∧ tok = s + 3 ∧
      unlockWord tok tok = (tok + 1) % WSIZE ∧
      ((tok + 1) % WSIZE) &&& 3 = 0 ∧
      ((tok + 1) % WSIZE) / 4 = (tok / 4 + 1) % (WSIZE / 4)) := by
  have hW : WSIZE = 18446744073709551616 := by norm_num [WSIZE]
  constructor
  · intro s h
    simp [lockAndSetToken, h]
  · intro s tok hlt h
    unfold lockAndSetToken at h
    by_cases h0 : s &&& 3 = 0
    · rw [if_pos h0, Option.some_inj] at h
      have hm : s % 4 = 0 := by rw [land_three_eq_mod] at h0; exact h0
      have hor : s ||| 3 = s + 3 := lor_small s 3 hm (by omega)
      have htok : tok = s + 3 := by omega
      subst htok
      rw [hW] at hlt
      refine ⟨?_, rfl, ?_, ?_, ?_⟩
      · rw [land_three_eq_mod]
        omega
      · simp [unlockWord]
      · rw [land_three_eq_mod, hW]
        omega
      · rw [hW]
        omega
    · rw [if_neg h0] at h
      exact absurd h (by simp)

/-- Closed witness for C9: token 11 arises from locking the word 8 (epoch 2,
low bits none); 12 clears the low bits and advances the epoch to 3. -/
theorem unlock_token_plus_one_epoch_witness :
    lockAndSetToken 14 = none ∧
    ((11 : Nat) &&& 3 = 3 ∧ (11 : Nat) = 8 + 3 ∧
      unlockWord 11 11 = (11 + 1) % WSIZE ∧
      ((11 + 1) % WSIZE) &&& 3 = 0 ∧
      ((11 + 1) % WSIZE) / 4 = (11 / 4 + 1) % (WSIZE / 4)) := by
  constructor
  · exact unlock_token_plus_one_epoch.1 14 (by decide)
  · exact unlock_token_plus_one_epoch.2 8 11 (by norm_num [WSIZE]) (by decide)

/-- Every branch of the stage dispatch hands exactly one value onward, so a
started run reaches `ipc<0>` exactly once. -/
theorem runNodes_length {V : Type} (nodes : List (FNode V)) :
    ∀ (sched : Nat → CObs) (t : Nat) (endF : FResult V → FResult V)
      (inp : FResult V), (runNodes sched t nodes endF inp).length = 1 := by
  induction nodes with
  | nil =>
    intro sched t endF inp
    simp [runNodes]
  | cons node rest ih =>
    intro sched t endF inp
    cases hs : sched t with
    | chard => simp [runNodes, hs]
    | csoft => cases node <;> simp [runNodes, hs, ih]
    | cnone =>
      cases node with
      | fcalc f => simp [runNodes, hs, ih]
      | fvia => simp [runNodes, hs, ih]
      | fasync createErr code completion adaptor =>
        cases createErr with
        | some e => simp [runNodes, hs, ih]
        | none =>
          cases hs2 : sched (t + 1) with
          | csoft => simp [runNodes, hs, hs2, ih]
          | chard => simp [runNodes, hs, hs2, ih]
          | cnone =>
            by_cases hc : code = 0 <;> simp [runNodes, hs, hs2, hc, ih]

/-- Claim C1: for every run of a pipeline through a runner — including
cancelled runs (any cancel-observation schedule) and runs with setup
failures (awaitable-creation failures and submission failures, both covered
by the quantification over the stage list) — the receiver's `emplace` is
called exactly once, with either a value or an error.  The hypotheses are
the guards of `flow_runner::operator()` (non-null blueprint, successful
controller allocation) under which a run starts at all. -/
theorem receiver_emplace_exactly_once {V : Type} (bpPresent ctrlAlloc : Bool)
    (h1 : bpPresent = true) (h2 : ctrlAlloc = true) (sched : Nat → CObs)
    (nodes : List (FNode V)) (endF : FResult V → FResult V) (inp : FResult V) :
    ∃ res, runnerInvoke bpPresent ctrlAlloc sched nodes endF inp = [res] := by
  subst h1
  subst h2
  have h := runNodes_length nodes sched 0 endF inp
  rw [List.length_eq_one] at h
  simpa [runnerInvoke] using h

/-- Closed witness for C1: a two-stage pipeline with an async stage whose
submit fails, under a schedule that soft-cancels from tick 3 on. -/
theorem receiver_emplace_exactly_once_witness :
    ∃ res,
      runnerInvoke true true (fun t => if t < 3 then CObs.cnone else CObs.csoft)
        [FNode.fasync none (-1) (FResult.value (0 : Int)) (fun r => r),
          FNode.fcalc (fun r => r)]
        (fun r => r) (FResult.value (5 : Int)) = [res] :=
  receiver_emplace_exactly_once true true rfl rfl _ _ _ _

/-- An error input flows unchanged through passthrough stages to the
receiver when no cancellation is observed. -/
theorem runNodes_error_flow {V : Type} (nodes : List (FNode V)) :
    ∀ (sched : Nat → CObs) (t : Nat) (endF : FResult V → FResult V) (e : Err),
      (∀ u, sched u = CObs.cnone) → (∀ n ∈ nodes, isPassNode n) →
      errPass endF →
      runNodes sched t nodes endF (.error e) = [.error e] := by
  induction nodes with
  | nil =>
    intro sched t endF e _ _ hend
    simp [runNodes, hend e]
  | cons node rest ih =>
    intro sched t endF e hsched hpass hend
    have hn := hpass node (by simp)
    cases node with
    | fcalc f =>
      have hf : f (.error e) = .error e := hn e
      simp only [runNodes, hsched t, hf]
      exact ih sched (t + 1) endF e hsched (fun n hm => hpass n (by simp [hm])) hend
    | fvia =>
      simp only [runNodes, hsched t]
      exact ih sched (t + 1) endF e hsched (fun n hm => hpass n (by simp [hm])) hend
    | fasync createErr code completion adaptor => exact absurd hn (by simp [isPassNode])

/-- A sticky soft-cancel makes every remaining stage re-inject the soft
cancel error, which error-propagating calc stages carry to the end. -/
theorem runNodes_soft_flow {V : Type} (rest : List (FNode V)) :
    ∀ (sched : Nat → CObs) (t : Nat) (node : FNode V)
      (endF : FResult V → FResult V) (inp : FResult V),
      (∀ u, t ≤ u → sched u = CObs.csoft) →
      (∀ f, FNode.fcalc f ∈ node :: rest → errPass f) → errPass endF →
      runNodes sched t (node :: rest) endF inp = [.error (.cancelErr .soft)] := by
  induction rest with
  | nil =>
    intro sched t node endF inp hsched hcalc hend
    have hst : sched t = CObs.csoft := hsched t (Nat.le_refl t)
    cases node with
    | fcalc f =>
      have hf := hcalc f (by simp)
      simp [runNodes, hst, hf (Err.cancelErr CancelKind.soft),
        hend (Err.cancelErr CancelKind.soft)]
    | fvia => simp [runNodes, hst, hend (Err.cancelErr CancelKind.soft)]
    | fasync createErr code completion adaptor =>
      simp [runNodes, hst, hend (Err.cancelErr CancelKind.soft)]
  | cons m rest2 ih =>
    intro sched t node endF inp hsched hcalc hend
    have hst : sched t = CObs.csoft := hsched t (Nat.le_refl t)
    have hsched2 : ∀ u, t + 1 ≤ u → sched u = CObs.csoft :=
      fun u hu => hsched u (by omega)
    have hcalc2 : ∀ f, FNode.fcalc f ∈ m :: rest2 → errPass f :=
      fun f hm => hcalc f (by simp [List.mem_cons] at hm ⊢; tauto)
    cases node with
    | fcalc f =>
      simp only [runNodes, hst]
      exact ih sched (t + 1) m endF _ hsched2 hcalc2 hend
    | fvia =>
      simp only [runNodes, hst]
      exact ih sched (t + 1) m endF _ hsched2 hcalc2 hend
    | fasync createErr code completion adaptor =>
      simp only [runNodes, hst]
      exact ih sched (t + 1) m endF _ hsched2 hcalc2 hend

/-- Claim C6: for every full runner, a hard cancel observed at any stage
dispatch bypasses all intermediate stages and jumps straight to the end
stage with a hard-cancel error, which the receiver observes; a soft cancel
injects a soft-cancel error into each subsequent stage's input (via and
async stages still dispatching), the end stage still runs, and the receiver
observes the cancel error. -/
theorem cancel_semantics_hard_soft {V : Type} :
    (∀ (sched : Nat → CObs) (t : Nat) (node : FNode V) (rest : List (FNode V))
        (endF : FResult V → FResult V) (inp : FResult V),
      sched t = CObs.chard → errPass endF →
      runNodes sched t (node :: rest) endF inp = [.error (.cancelErr .hard)]) ∧
    (∀ (sched : Nat → CObs) (t : Nat) (node : FNode V) (rest : List (FNode V))
        (endF : FResult V → FResult V) (inp : FResult V),
      (∀ u, t ≤ u → sched u = CObs.csoft) →
      (∀ f, FNode.fcalc f ∈ node :: rest → errPass f) → errPass endF →
      runNodes sched t (node :: rest) endF inp = [.error (.cancelErr .soft)]) := by
  constructor
  · intro sched t node rest endF inp hst hend
    simp [runNodes, hst, hend (Err.cancelErr CancelKind.hard)]
  · intro sched t node rest endF inp hsched hcalc hend
    exact runNodes_soft_flow rest sched t node endF inp hsched hcalc hend

/-- Closed witness for C6: hard cancel at tick 0 over a calc stage, and a
constant-soft schedule over a two-stage via pipeline. -/
theorem cancel_semantics_hard_soft_witness :
    runNodes (fun _ => CObs.chard) 0
        [FNode.fcalc (transformWrap (fun x : Int => x + 1))]
        (fun r => r) (FResult.value (5 : Int)) = [.error (.cancelErr .hard)] ∧
    runNodes (fun _ => CObs.csoft) 0 [FNode.fvia, FNode.fvia]
        (fun r => r) (FResult.value (5 : Int)) = [.error (.cancelErr .soft)] := by
  constructor
  · exact cancel_semantics_hard_soft.1 _ 0 _ [] _ _ rfl (fun e => rfl)
  · exact cancel_semantics_hard_soft.2 _ 0 _ [FNode.fvia] _ _ (fun u _ => rfl)
      (by intro f hf; simp at hf) (fun e => rfl)

/-- Claim C7: whenever an awaitable's submit returns nonzero, the receiver
observes an async-submission-failed error delivered downstream of that async
stage (through error-propagating downstream stages, absent cancellation);
and a when_all aggregator whose submit refuses to launch because some
sub-blueprint pointer is null is such an awaitable: its submit returns the
nonzero code -1. -/
theorem submit_fail_surfaces {V : Type} :
    (∀ (sched : Nat → CObs) (t : Nat) (code : Int) (completion : FResult V)
        (adaptor : FResult V → FResult V) (rest : List (FNode V))
        (endF : FResult V → FResult V) (inp : FResult V),
      (∀ u, sched u = CObs.cnone) → code ≠ 0 →
      (∀ n ∈ rest, isPassNode n) → errPass endF →
      runNodes sched t (FNode.fasync none code completion adaptor :: rest) endF
        inp = [.error .submissionFailed]) ∧
    (∀ present : List Bool, false ∈ present → whenAllSubmit present = -1) := by
  constructor
  · intro sched t code completion adaptor rest endF inp hsched hcode hpass hend
    simp only [runNodes, hsched t, hsched (t + 1), if_pos hcode]
    exact runNodes_error_flow rest sched (t + 2) endF .submissionFailed hsched
      hpass hend
  · intro present hmem
    have hall : present.all (fun b => b) = false :=
      List.all_eq_false.mpr ⟨false, hmem, by simp⟩
    simp [whenAllSubmit, hall]

/-- Closed witness for C7: a when_all async stage with one null
sub-blueprint followed by a passthrough calc stage. -/
theorem submit_fail_surfaces_witness :
    runNodes (fun _ => CObs.cnone) 0
        [FNode.fasync none (whenAllSubmit [true, false])
            (FResult.value (0 : Int)) (fun r => r),
          FNode.fcalc (transformWrap (fun x : Int => x * 2))]
        (fun r => r) (FResult.value (9 : Int)) = [.error .submissionFailed] ∧
    whenAllSubmit [true, false] = -1 := by
  have h2 : whenAllSubmit [true, false] = -1 :=
    (@submit_fail_surfaces Int).2 [true, false] (by simp)
  refine ⟨?_, h2⟩
  refine (@submit_fail_surfaces Int).1 _ 0 _ _ _ _ _ _ (fun u => rfl) ?_ ?_ ?_
  · rw [h2]
    decide
  · intro n hn
    simp only [List.mem_cons, List.not_mem_nil, or_false] at hn
    subst hn
    intro e
    rfl
  · intro e
    rfl

/-- Claim C10: invoking `flow_runner::operator()` with a null blueprint
handle, or with a failed lazy controller allocation, returns immediately:
no stage is dispatched and the receiver's `emplace` is invoked zero times;
likewise `flow_fast_runner::operator()` with a null blueprint handle. -/
theorem null_blueprint_or_alloc_failure_no_emplace {V : Type} :
    (∀ (bpPresent ctrlAlloc : Bool) (sched : Nat → CObs)
        (nodes : List (FNode V)) (endF : FResult V → FResult V)
        (inp : FResult V),
      bpPresent = false ∨ ctrlAlloc = false →
      runnerInvoke bpPresent ctrlAlloc sched nodes endF inp = []) ∧
    (∀ (nodes : List (FNode V)) (endF : FResult V → FResult V)
        (inp : FResult V), fastRunnerInvoke false nodes endF inp = []) := by
  constructor
  · intro bpPresent ctrlAlloc sched nodes endF inp h
    rcases h with h | h <;> subst h <;> simp [runnerInvoke]
  · intro nodes endF inp
    simp [fastRunnerInvoke]

/-- Closed witness for C10 at a concrete one-stage pipeline. -/
theorem null_blueprint_or_alloc_failure_no_emplace_witness :
    runnerInvoke false true (fun _ => CObs.cnone)
        [FNode.fcalc (transformWrap (fun x : Int => x + 1))] (fun r => r)
        (FResult.value (1 : Int)) = [] ∧
    runnerInvoke true false (fun _ => CObs.cnone)
        [FNode.fcalc (transformWrap (fun x : Int => x + 1))] (fun r => r)
        (FResult.value (1 : Int)) = [] ∧
    fastRunnerInvoke false
        [FNode.fcalc (transformWrap (fun x : Int => x + 1))] (fun r => r)
        (FResult.value (1 : Int)) = [] :=
  ⟨null_blueprint_or_alloc_failure_no_emplace.1 false true _ _ _ _ (Or.inl rfl),
    null_blueprint_or_alloc_failure_no_emplace.1 true false _ _ _ _ (Or.inr rfl),
    null_blueprint_or_alloc_failure_no_emplace.2 _ _ _⟩

/-- The fast runner only applies the end callable at the end, so pointwise
equal end callables give equal runs. -/
theorem fastRun_congr {V : Type} (nodes : List (FNode V)) :
    ∀ (endF1 endF2 : FResult V → FResult V) (inp : FResult V),
      (∀ res, endF1 res = endF2 res) →
      fastRun nodes endF1 inp = fastRun nodes endF2 inp := by
  induction nodes with
  | nil =>
    intro endF1 endF2 inp h
    simp [fastRun, h inp]
  | cons node rest ih =>
    intro endF1 endF2 inp h
    cases node with
    | fcalc f => simpa [fastRun] using ih _ _ _ h
    | fvia => simpa [fastRun] using ih _ _ _ h
    | fasync createErr code completion adaptor =>
      cases createErr with
      | some e => simpa [fastRun] using ih _ _ _ h
      | none =>
        by_cases hc : code = 0 <;> simp [fastRun, hc] <;> exact ih _ _ _ h

/-- Running a pipeline with one more calc stage before the end is running
the pipeline with that callable composed into the end. -/
theorem fastRun_append_calc {V : Type} (nodes : List (FNode V)) :
    ∀ (g : FResult V → FResult V) (endF : FResult V → FResult V)
      (inp : FResult V),
      fastRun (nodes ++ [FNode.fcalc g]) endF inp =
        fastRun nodes (fun res => endF (g res)) inp := by
  induction nodes with
  | nil =>
    intro g endF inp
    simp [fastRun]
  | cons node rest ih =>
    intro g endF inp
    cases node with
    | fcalc f => simp [fastRun, ih]
    | fvia => simp [fastRun, ih]
    | fasync createErr code completion adaptor =>
      cases createErr with
      | some e => simp [fastRun, ih]
      | none => by_cases hc : code = 0 <;> simp [fastRun, hc, ih]

/-- Zipping two transform wrappers is the transform wrapper of the
composition: both map a value through `f` then `g` and propagate errors. -/
theorem transformWrap_zip {V : Type} (f g : V → V) (res : FResult V) :
    zipF (transformWrap f) (transformWrap g) res =
      transformWrap (fun x => g (f x)) res := by
  cases res <;> rfl

/-- Composing transform wrappers pointwise. -/
theorem transformWrap_comp {V : Type} (f g : V → V) (res : FResult V) :
    transformWrap g (transformWrap f res) =
      transformWrap (fun x => g (f x)) res := by
  cases res <;> rfl

/-- A schedule that never observes a cancel makes the full runner behave as
the fast runner. -/
theorem runNodes_cnone_eq_fastRun {V : Type} (nodes : List (FNode V)) :
    ∀ (t : Nat) (endF : FResult V → FResult V) (inp : FResult V),
      runNodes (fun _ => CObs.cnone) t nodes endF inp = fastRun nodes endF inp := by
  induction nodes with
  | nil =>
    intro t endF inp
    simp [runNodes, fastRun]
  | cons node rest ih =>
    intro t endF inp
    cases node with
    | fcalc f => simp [runNodes, fastRun, ih]
    | fvia => simp [runNodes, fastRun, ih]
    | fasync createErr code completion adaptor =>
      cases createErr with
      | some e => simp [runNodes, fastRun, ih]
      | none => by_cases hc : code = 0 <;> simp [runNodes, fastRun, hc, ih]

/-- Claim C8: for all calc callables `f`, `g` and every input, the composed
blueprint `transform(f) | transform(g)` yields the same observable receiver
value as the single stage `transform(x -> g(f(x)))`: fusion merges adjacent
calc nodes into one zipped callable evaluated left-to-right (`f` first,
then `g`) up to depth `MAX_ZIP_N`, after which a new calc node is created,
with no observable semantic difference — both on the fast runner and on the
full runner under a cancel-free schedule. -/
theorem calc_fusion_equivalence {V : Type} :
    (∀ (bpn : List (BNode V)) (f g : V → V) (endF : FResult V → FResult V)
        (inp : FResult V),
      fastRun
          (execNodes (pipeCalc (pipeCalc bpn (transformWrap f)) (transformWrap g)))
          endF inp =
        fastRun (execNodes (pipeCalc bpn (transformWrap (fun x => g (f x)))))
          endF inp) ∧
    (∀ (bpn : List (BNode V)) (f g : V → V) (endF : FResult V → FResult V)
        (inp : FResult V) (t : Nat),
      runNodes (fun _ => CObs.cnone) t
          (execNodes (pipeCalc (pipeCalc bpn (transformWrap f)) (transformWrap g)))
          endF inp =
        runNodes (fun _ => CObs.cnone) t
          (execNodes (pipeCalc bpn (transformWrap (fun x => g (f x)))))
          endF inp) := by
  have main : ∀ (bpn : List (BNode V)) (f g : V → V)
      (endF : FResult V → FResult V) (inp : FResult V),
      fastRun
          (execNodes (pipeCalc (pipeCalc bpn (transformWrap f)) (transformWrap g)))
          endF inp =
        fastRun (execNodes (pipeCalc bpn (transformWrap (fun x => g (f x)))))
          endF inp := by
    intro bpn f g endF inp
    match bpn with
    | [] =>
      simp only [pipeCalc, MAX_ZIP_N, if_neg (by omega : (1 : Nat) ≠ 2),
        execNodes, List.map, List.reverse_cons, List.reverse_nil,
        List.nil_append]
      simp [fastRun, transformWrap_zip]
    | (FNode.fcalc f0, n) :: rest =>
      by_cases hn : n = MAX_ZIP_N
      · simp only [pipeCalc, if_pos hn,
          if_neg (by norm_num [MAX_ZIP_N] : (1 : Nat) ≠ MAX_ZIP_N),
          execNodes, List.map, List.reverse_cons]
        simp only [fastRun_append_calc]
        exact fastRun_congr _ _ _ inp
          (fun res => by simp [zipF, transformWrap_comp])
      · by_cases hn1 : n + 1 = MAX_ZIP_N
        · simp only [pipeCalc, if_neg hn, if_pos hn1, execNodes, List.map,
            List.reverse_cons]
          simp only [fastRun_append_calc]
          exact fastRun_congr _ _ _ inp
            (fun res => by simp [zipF, transformWrap_comp])
        · simp only [pipeCalc, if_neg hn, if_neg hn1, execNodes, List.map,
            List.reverse_cons]
          simp only [fastRun_append_calc]
          exact fastRun_congr _ _ _ inp
            (fun res => by simp [zipF, transformWrap_comp])
    | (FNode.fvia, n) :: rest =>
      simp only [pipeCalc,
        if_neg (by norm_num [MAX_ZIP_N] : (1 : Nat) ≠ MAX_ZIP_N), execNodes,
        List.map, List.reverse_cons]
      simp only [fastRun_append_calc]
      exact fastRun_congr _ _ _ inp
        (fun res => by simp [zipF, transformWrap_comp])
    | (FNode.fasync ce code completion adaptor, n) :: rest =>
      simp only [pipeCalc,
        if_neg (by norm_num [MAX_ZIP_N] : (1 : Nat) ≠ MAX_ZIP_N), execNodes,
        List.map, List.reverse_cons]
      simp only [fastRun_append_calc]
      exact fastRun_congr _ _ _ inp
        (fun res => by simp [zipF, transformWrap_comp])
  refine ⟨main, ?_⟩
  intro bpn f g endF inp t
  rw [runNodes_cnone_eq_fastRun, runNodes_cnone_eq_fastRun]
  exact main bpn f g endF inp

/-- One-step preservation of the awaitable status machine invariant. -/
theorem awStep_inv (s : AwState) (e : AwEvent)
    (h1 : s.nextStepRuns = if s.status = .done then 1 else 0)
    (h2 : s.cancelEnabled = true → s.status ≠ .idle)
    (h3 : s.succSubmits = if s.cancelEnabled then 1 else 0)
    (h4 : s.doneBy.isSome ↔ s.status = .done) :
    ((awStep s e).nextStepRuns = if (awStep s e).status = .done then 1 else 0) ∧
    ((awStep s e).cancelEnabled = true → (awStep s e).status ≠ .idle) ∧
    ((awStep s e).succSubmits = if (awStep s e).cancelEnabled then 1 else 0) ∧
    ((awStep s e).doneBy.isSome ↔ (awStep s e).status = .done) := by
  obtain ⟨st, ns, ce, ss, db⟩ := s
  simp only at h1 h2 h3 h4
  cases e <;> cases st <;>
      simp_all [awStep, awSubmitAsync, awResume, awCancel] <;>
    split_ifs <;> simp_all

/-- Inductive invariant of the awaitable status machine: the next-step
continuation has run exactly when the status is `done`; the cancel handler
is only reachable after a successful submit, which also rules out `idle`;
at most one submit ever returned 0; and the waiting-to-done winner is
recorded exactly when the status is `done`. -/
theorem awRun_inv (evs : List AwEvent) :
    ((awRun evs).nextStepRuns = if (awRun evs).status = .done then 1 else 0) ∧
    ((awRun evs).cancelEnabled = true → (awRun evs).status ≠ .idle) ∧
    ((awRun evs).succSubmits = if (awRun evs).cancelEnabled then 1 else 0) ∧
    ((awRun evs).doneBy.isSome ↔ (awRun evs).status = .done) := by
  induction evs using List.reverseRecOn with
  | nil => simp [awRun, awInit]
  | append_singleton evs e ih =>
    rw [awRun, List.foldl_append, List.foldl_cons, List.foldl_nil]
    rw [awRun] at ih
    exact awStep_inv _ e ih.1 ih.2.1 ih.2.2.1 ih.2.2.2

/-- Claim C4: the awaitable state machine admits the idle-to-waiting
transition exactly once via `submit_async` (at most one call ever returns
0) and the waiting-to-done transition exactly once, won by either the
completion resume or the controller cancel; the losing party's attempt —
and any event after `done` — is a no-op, a second `submit_async` attempt
(status no longer idle) returns the distinguishable nonzero code -1 without
touching the state, and double-resume is impossible: the next-step
continuation runs at most once per awaitable lifetime, exactly at the
single transition to `done`. -/
theorem awaitable_state_machine_once :
    (∀ (s : AwState) (code : Int), s.status ≠ .idle →
      awSubmitAsync s code = (s, -1)) ∧
    (∀ evs : List AwEvent, (awRun evs).succSubmits ≤ 1) ∧
    (∀ evs : List AwEvent, (awRun evs).nextStepRuns ≤ 1) ∧
    (∀ evs : List AwEvent, (awRun evs).status ≠ .done →
      (awRun evs).nextStepRuns = 0) ∧
    (∀ (evs : List AwEvent) (e : AwEvent), (awRun evs).status = .done →
      awStep (awRun evs) e = awRun evs) ∧
    (∀ (evs : List AwEvent) (e : AwEvent) (p : AwParty),
      (awRun evs).doneBy = some p → (awRun (evs ++ [e])).doneBy = some p) := by
  refine ⟨?_, ?_, ?_, ?_, ?_, ?_⟩
  · intro s code h
    simp [awSubmitAsync, h]
  · intro evs
    have h := (awRun_inv evs).2.2.1
    rw [h]
    split <;> omega
  · intro evs
    have h := (awRun_inv evs).1
    rw [h]
    split <;> omega
  · intro evs h
    have h1 := (awRun_inv evs).1
    rw [h1, if_neg h]
  · intro evs e h
    cases e with
    | submitAsync code =>
      simp [awStep, awSubmitAsync, h]
    | resume =>
      simp [awStep, awResume, h]
    | cancel =>
      simp only [awStep, awCancel, h]
      split <;> simp [h]
  · intro evs e p h
    have hdone : (awRun evs).status = .done := by
      have h4 := (awRun_inv evs).2.2.2
      exact h4.mp (by simp [h])
    have habs : awStep (awRun evs) e = awRun evs := by
      cases e with
      | submitAsync code => simp [awStep, awSubmitAsync, hdone]
      | resume => simp [awStep, awResume, hdone]
      | cancel =>
        simp only [awStep, awCancel, hdone]
        split <;> simp [hdone]
    rw [awRun, List.foldl_append, List.foldl_cons, List.foldl_nil]
    rw [awRun] at habs h
    rw [habs, h]

/-- Closed witness for C4: after a successful submit, a cancel and a losing
resume, the machine is done with one next-step run; a second submit on the
done state returns -1. -/
theorem awaitable_state_machine_once_witness :
    awSubmitAsync (awRun [AwEvent.submitAsync 0, AwEvent.cancel,
        AwEvent.resume]) 0 =
      (awRun [AwEvent.submitAsync 0, AwEvent.cancel, AwEvent.resume], -1) ∧
    (awRun [AwEvent.submitAsync 0, AwEvent.cancel, AwEvent.resume]).doneBy =
      some AwParty.canceller ∧
    (awRun [AwEvent.submitAsync 0, AwEvent.cancel,
        AwEvent.resume]).nextStepRuns ≤ 1 := by
  refine ⟨?_, by decide, awaitable_state_machine_once.2.2.1 _⟩
  exact awaitable_state_machine_once.1 _ 0 (by decide)

/-- Counting lemma instance: active when_all children under a child update. -/
theorem waActive_update {N i : Nat} (hi : i < N) (f : Nat → WaChild)
    (v : WaChild) :
    waActive N (Function.update f i v) +
      (if waActivePhase (f i).phase = true then 1 else 0) =
    waActive N f + (if waActivePhase v.phase = true then 1 else 0) :=
  card_filter_update hi f v (fun c => waActivePhase c.phase = true)

/-- Counting lemma instance: saw-last when_all children under a child
update. -/
theorem waSawLast_update {N i : Nat} (hi : i < N) (f : Nat → WaChild)
    (v : WaChild) :
    waSawLast N (Function.update f i v) +
      (if (f i).sawLast = true then 1 else 0) =
    waSawLast N f + (if v.sawLast = true then 1 else 0) :=
  card_filter_update hi f v (fun c => c.sawLast = true)

/-- Counting lemma instance: pushed when_all children under a child
update. -/
theorem waPushed_update {N i : Nat} (hi : i < N) (f : Nat → WaChild)
    (v : WaChild) :
    waPushedC N (Function.update f i v) +
      (if (f i).pushed = true then 1 else 0) =
    waPushedC N f + (if v.pushed = true then 1 else 0) :=
  card_filter_update hi f v (fun c => c.pushed = true)

/-- Counting instance of `card_filter_update` for when_any active phases. -/
theorem wyActive_update {N i : Nat} (hi : i < N) (f : Nat → WyChild)
    (v : WyChild) :
    wyActive N (Function.update f i v) +
      (if waActivePhase (f i).phase = true then 1 else 0) =
    wyActive N f + (if waActivePhase v.phase = true then 1 else 0) :=
  card_filter_update hi f v (fun c => waActivePhase c.phase = true)

/-- Counting instance of `card_filter_update` for the when_any `sawLast`
flag. -/
theorem wySawLast_update {N i : Nat} (hi : i < N) (f : Nat → WyChild)
    (v : WyChild) :
    wySawLast N (Function.update f i v) +
      (if (f i).sawLast = true then 1 else 0) =
    wySawLast N f + (if v.sawLast = true then 1 else 0) :=
  card_filter_update hi f v (fun c => c.sawLast = true)

/-- Counting instance of `card_filter_update` for the when_any `won` flag. -/
theorem wyWon_update {N i : Nat} (hi : i < N) (f : Nat → WyChild)
    (v : WyChild) :
    wyWonC N (Function.update f i v) +
      (if (f i).won = true then 1 else 0) =
    wyWonC N f + (if v.won = true then 1 else 0) :=
  card_filter_update hi f v (fun c => c.won = true)

/-- Counting instance of `card_filter_update` for the when_any `pushedAF`
flag. -/
theorem wyPushedAF_update {N i : Nat} (hi : i < N) (f : Nat → WyChild)
    (v : WyChild) :
    wyPushedAFC N (Function.update f i v) +
      (if (f i).pushedAF = true then 1 else 0) =
    wyPushedAFC N f + (if v.pushedAF = true then 1 else 0) :=
  card_filter_update hi f v (fun c => c.pushedAF = true)

/-- Counting instance of `card_filter_update` for launched when_any
children. -/
theorem wyLaunched_update {N i : Nat} (hi : i < N) (f : Nat → WyChild)
    (v : WyChild) :
    wyLaunched N (Function.update f i v) +
      (if (f i).phase ≠ .unlaunched then 1 else 0) =
    wyLaunched N f + (if v.phase ≠ .unlaunched then 1 else 0) :=
  card_filter_update hi f v (fun c => c.phase ≠ .unlaunched)

/-- A when_any child that is past launch has a present sub-blueprint, in
every shape of the launch-loop prefix invariant. -/
theorem wyPresent_of_launched (N : Nat) (present : Nat → Bool)
    (s : WyState) (hpre : wyPrefix N present s) (i : Nat) (hi : i < N)
    (hph : (s.child i).phase ≠ .unlaunched) : present i = true := by
  unfold wyPrefix at hpre
  cases hsub : s.sub <;> rw [hsub] at hpre <;> dsimp only at hpre
  case launching k => exact ((hpre.2 i hi).mp hph).2
  case readW k => exact ((hpre.2 i hi).mp hph).2
  all_goals
    obtain ⟨k, _, hp, _⟩ := hpre
    exact ((hp i hi).mp hph).2

/-- Arithmetic core of the when_any trigger-count update at `fetch_sub`,
with the extra `launch_failed_msk` bit carried by a refused submit. -/
theorem wy_trig_arith (mk : Bool) (sl sl2 a a2 fired t rf : Nat)
    (hrf : rf ≤ 1) (hmkrf : mk = true → rf = 0)
    (h5 : fired = 4 * a + (if mk = true then 2 else 0) + rf)
    (h8 : sl + t = if mk = true ∧ a = 0 then 1 else 0)
    (hA : a2 + 1 = a)
    (hS : sl2 = sl + (if fired = 6 then 1 else 0)) :
    sl2 + t = if mk = true ∧ a2 = 0 then 1 else 0 := by
  cases mk <;> simp at h5 h8 hmkrf ⊢ <;> split_ifs at h8 hS ⊢ <;> omega

/-- The when_any launch-loop prefix only depends on the sub-state, the
winner word and the launched-or-not status of each child. -/
theorem wyPrefix_of_eq (N : Nat) (present : Nat → Bool) (s s2 : WyState)
    (hsub : s2.sub = s.sub)
    (hw : s2.winner = s.winner ∨ s2.winner ≠ N)
    (hch : ∀ i, i < N →
      ((s2.child i).phase ≠ .unlaunched ↔ (s.child i).phase ≠ .unlaunched))
    (hpre : wyPrefix N present s) : wyPrefix N present s2 := by
  unfold wyPrefix at hpre ⊢
  rw [hsub]
  cases hs : s.sub <;> rw [hs] at hpre <;> dsimp only at hpre ⊢
  case launching k =>
    exact ⟨hpre.1, fun i hi => (hch i hi).trans (hpre.2 i hi)⟩
  case readW k =>
    exact ⟨hpre.1, fun i hi => (hch i hi).trans (hpre.2 i hi)⟩
  all_goals
    obtain ⟨k, h1, h2, h3⟩ := hpre
    refine ⟨k, h1, fun i hi => (hch i hi).trans (h2 i hi), ?_⟩
    intro hlt
    rcases hw with hw | hw
    · rw [hw]
      exact h3 hlt
    · exact hw

/-- The when_any winner invariant only depends on the `won` flags and the
CAS-past statuses of the children. -/
theorem wy_winner_congr {V : Type} (N : Nat) (r : Nat → FResult V)
    (w : Nat) (f f2 : Nat → WyChild)
    (hwon : ∀ j, (f2 j).won = (f j).won)
    (hcas : ∀ j, waCasPast (f2 j).phase = waCasPast (f j).phase)
    (h : (w = N ∧ (∀ i, i < N → (f i).won = false) ∧
        (∀ i, i < N → waCasPast (f i).phase = true → (r i).isError)) ∨
      (w < N ∧ (f w).won = true ∧ (r w).isValue ∧
        waCasPast (f w).phase = true ∧
        (∀ j, j < N → j ≠ w → (f j).won = false))) :
    (w = N ∧ (∀ i, i < N → (f2 i).won = false) ∧
        (∀ i, i < N → waCasPast (f2 i).phase = true → (r i).isError)) ∨
      (w < N ∧ (f2 w).won = true ∧ (r w).isValue ∧
        waCasPast (f2 w).phase = true ∧
        (∀ j, j < N → j ≠ w → (f2 j).won = false)) := by
  rcases h with ⟨h1, h2, h3⟩ | ⟨h1, h2, h3, h4, h5⟩
  · refine Or.inl ⟨h1, ?_, ?_⟩
    · intro i hi
      rw [hwon i]
      exact h2 i hi
    · intro i hi hc
      rw [hcas i] at hc
      exact h3 i hi hc
  · refine Or.inr ⟨h1, ?_, h3, ?_, ?_⟩
    · rw [hwon w]
      exact h2
    · rw [hcas w]
      exact h4
    · intro j hj hjw
      rw [hwon j]
      exact h5 j hj hjw

/-- When no child is active and all are launched, every child's CAS attempt
is in the past. -/
theorem wa_allCas (N : Nat) (f : Nat → WaChild)
    (hlaunched : ∀ i, i < N → (f i).phase ≠ .unlaunched)
    (ha : waActive N f = 0) :
    ∀ j, j < N → waCasPast (f j).phase = true := by
  intro j hj
  have hempty : (Finset.range N).filter
      (fun i => waActivePhase (f i).phase = true) = ∅ :=
    Finset.card_eq_zero.mp ha
  have hnotactive : ¬(waActivePhase (f j).phase = true) := by
    intro hact
    have : j ∈ (Finset.range N).filter
        (fun i => waActivePhase (f i).phase = true) := by
      simp [Finset.mem_filter, Finset.mem_range, hj, hact]
    rw [hempty] at this
    exact absurd this (Finset.not_mem_empty j)
  have hne := hlaunched j hj
  cases hph : (f j).phase <;>
    simp [hph, waActivePhase, waCasPast] at hne hnotactive ⊢

/-- The payload computed from `failed` at a terminal trigger is correct:
success exactly when every child produced a value, otherwise an any-failed
error naming a failing child. -/
theorem wa_payload_ok {V : Type} (N : Nat) (r : Nat → FResult V) (s : WaState)
    (I6 : s.failed = N ∨
      (s.failed < N ∧ (r s.failed).isError ∧
        waCasPast (s.child s.failed).phase = true))
    (I7 : s.failed = N → ∀ i, i < N → waCasPast (s.child i).phase = true →
      (r i).isValue)
    (hlaunched : ∀ i, i < N → (s.child i).phase ≠ .unlaunched)
    (ha : waActive N s.child = 0) :
    ((if s.failed = N then AggPayload.success else AggPayload.anyFailed s.failed)
        = AggPayload.success ∧ ∀ i, i < N → (r i).isValue) ∨
    (∃ k, (if s.failed = N then AggPayload.success
        else AggPayload.anyFailed s.failed) = AggPayload.anyFailed k ∧
      k < N ∧ (r k).isError) := by
  by_cases hf : s.failed = N
  · left
    refine ⟨by simp [hf], ?_⟩
    intro i hi
    exact I7 hf i hi (wa_allCas N s.child hlaunched ha i hi)
  · right
    rcases I6 with h | ⟨h1, h2, _⟩
    · exact absurd h hf
    · exact ⟨s.failed, by simp [hf], h1, h2⟩

/-- Preservation of the when_all invariant by a `launch` event. -/
theorem waStep_launch_inv {V : Type} (N : Nat) (r : Nat → FResult V)
    (s s2 : WaState) (hstep : waStep N r s .launch = some s2)
    (hinv : WaInv N r s) : WaInv N r s2 := by
  obtain ⟨I1, I2, I3, I4, I5, I6, I7, I8, I9, I10, I11, I12, I13⟩ := hinv
  unfold waStep at hstep
  cases hsub : s.sub with
  | afterMark z =>
    rw [hsub] at hstep
    exact Option.noConfusion hstep
  | sdone b =>
    rw [hsub] at hstep
    exact Option.noConfusion hstep
  | launching i =>
    rw [hsub] at hstep
    dsimp only at hstep
    by_cases hi : i < N
    swap
    · rw [if_neg hi] at hstep
      exact Option.noConfusion hstep
    rw [if_pos hi] at hstep
    injection hstep with hstep
    subst hstep
    obtain ⟨hkN, hpre⟩ := I3 i hsub
    have hchildi : s.child i = waChildInit := by
      apply I2 i hi
      by_contra hph
      have := (hpre i hi).mp hph
      omega
    refine ⟨?_, ?_, ?_, ?_, ?_, ?_, ?_, ?_, ?_, ?_, ?_, ?_, ?_⟩
    · intro j hj
      dsimp only
      rw [Function.update_noteq (by omega)]
      exact I1 j hj
    · intro j hj
      dsimp only
      rw [Function.update_apply]
      by_cases hji : j = i
      · simp [hji, waChildInit, waActivePhase]
      · rw [if_neg hji]
        exact I2 j hj
    · intro k hk
      dsimp only at hk ⊢
      injection hk with hk
      subst hk
      refine ⟨by omega, ?_⟩
      intro j hj
      rw [Function.update_apply]
      by_cases hji : j = i
      · subst hji
        rw [if_pos rfl]
        constructor
        · intro _
          omega
        · intro _
          decide
      · rw [if_neg hji]
        have h := hpre j hj
        constructor
        · intro hx
          have := h.mp hx
          omega
        · intro hx
          exact h.mpr (by omega)
    · intro hmk
      dsimp only at hmk
      simp [WaSub.markedB] at hmk
    · have hACT := waActive_update hi s.child
        { waChildInit with phase := WaPhase.launched }
      rw [hsub] at I5
      simp [WaSub.markedB, waActivePhase, hchildi, waChildInit]
        at hACT I5 ⊢
      omega
    · rcases I6 with h | ⟨h1, h2, h3⟩
      · left
        exact h
      · right
        refine ⟨h1, h2, ?_⟩
        dsimp only
        rw [Function.update_apply]
        by_cases hfi : s.failed = i
        · rw [hfi, hchildi] at h3
          simp [waChildInit, waCasPast] at h3
        · rw [if_neg hfi]
          exact h3
    · intro hf j hj hcas
      dsimp only at hf hcas
      rw [Function.update_apply] at hcas
      by_cases hji : j = i
      · rw [if_pos hji] at hcas
        simp [waCasPast] at hcas
      · rw [if_neg hji] at hcas
        exact I7 hf j hj hcas
    · have hSL := waSawLast_update hi s.child
        { waChildInit with phase := WaPhase.launched }
      rw [hsub] at I8
      simp [WaSub.trigN, WaSub.markedB, waActivePhase,
        hchildi, waChildInit] at hSL I8 ⊢
      omega
    · have hP := waPushed_update hi s.child
        { waChildInit with phase := WaPhase.launched }
      rw [hsub] at I9
      simp [WaSub.pushN, hchildi, waChildInit] at hP I9 ⊢
      omega
    · intro j hj
      dsimp only
      rw [Function.update_apply]
      by_cases hji : j = i
      · simp [hji, waChildInit, waActivePhase]
      · rw [if_neg hji]
        exact I10 j hj
    · intro j hj
      dsimp only
      rw [Function.update_apply]
      by_cases hji : j = i
      · simp [hji, waChildInit, waActivePhase]
      · rw [if_neg hji]
        exact I11 j hj
    · intro j hj
      dsimp only
      rw [Function.update_apply]
      by_cases hji : j = i
      · simp [hji, waChildInit, waActivePhase]
      · rw [if_neg hji]
        exact I12 j hj
    · intro p hp
      dsimp only at hp
      exact I13 p hp

/-- Preservation of the when_all invariant by the `mark` event
(`fired.fetch_or(launch_success_msk)` after the launch loop). -/
theorem waStep_mark_inv {V : Type} (N : Nat) (r : Nat → FResult V)
    (s s2 : WaState) (hstep : waStep N r s .mark = some s2)
    (hinv : WaInv N r s) : WaInv N r s2 := by
  obtain ⟨I1, I2, I3, I4, I5, I6, I7, I8, I9, I10, I11, I12, I13⟩ := hinv
  unfold waStep at hstep
  cases hsub : s.sub with
  | afterMark z =>
    rw [hsub] at hstep
    exact Option.noConfusion hstep
  | sdone b =>
    rw [hsub] at hstep
    exact Option.noConfusion hstep
  | launching i =>
    rw [hsub] at hstep
    dsimp only at hstep
    by_cases hi : i = N
    swap
    · rw [if_neg hi] at hstep
      exact Option.noConfusion hstep
    rw [if_pos hi] at hstep
    injection hstep with hstep
    subst hstep
    obtain ⟨hkN, hpre⟩ := I3 i hsub
    have hall : ∀ j, j < N → (s.child j).phase ≠ .unlaunched := by
      intro j hj
      exact (hpre j hj).mpr (by omega)
    refine ⟨I1, I2, ?_, ?_, ?_, I6, I7, ?_, ?_, I10, I11, I12, I13⟩
    · intro k hk
      dsimp only at hk
      exact WaSub.noConfusion hk
    · intro _ j hj
      exact hall j hj
    · dsimp only
      rw [hsub] at I5
      simp [WaSub.markedB] at I5 ⊢
      have h4 : s.fired % 4 = 0 := by omega
      rw [lor_small s.fired 2 h4 (by omega)]
      omega
    · dsimp only
      rw [hsub] at I5 I8
      by_cases hf : s.fired = 0 <;>
        simp [hf, WaSub.markedB, WaSub.trigN] at I5 I8 ⊢ <;>
        split_ifs <;> omega
    · dsimp only
      rw [hsub] at I9
      simp [WaSub.pushN] at I9 ⊢
      omega

/-- Preservation of the when_all invariant by the `submitFinish` event
(the submitter returns, resuming the parent iff its fetch_or saw zero). -/
theorem waStep_submitFinish_inv {V : Type} (N : Nat) (r : Nat → FResult V)
    (s s2 : WaState) (hstep : waStep N r s .submitFinish = some s2)
    (hinv : WaInv N r s) : WaInv N r s2 := by
  obtain ⟨I1, I2, I3, I4, I5, I6, I7, I8, I9, I10, I11, I12, I13⟩ := hinv
  unfold waStep at hstep
  cases hsub : s.sub with
  | launching i =>
    rw [hsub] at hstep
    exact Option.noConfusion hstep
  | sdone b =>
    rw [hsub] at hstep
    exact Option.noConfusion hstep
  | afterMark z =>
    rw [hsub] at hstep
    cases z with
    | false =>
      dsimp only at hstep
      injection hstep with hstep
      subst hstep
      refine ⟨I1, I2, ?_, ?_, ?_, I6, I7, ?_, ?_, I10, I11, I12, I13⟩
      · intro k hk
        dsimp only at hk
        exact WaSub.noConfusion hk
      · intro _ j hj
        apply I4 _ j hj
        rw [hsub]
        rfl
      · dsimp only
        rw [hsub] at I5
        simpa [WaSub.markedB] using I5
      · dsimp only
        rw [hsub] at I8
        simp [WaSub.markedB, WaSub.trigN] at I8 ⊢
        split_ifs at I8 ⊢ <;> omega
      · dsimp only
        rw [hsub] at I9
        simpa [WaSub.pushN] using I9
    | true =>
      dsimp only at hstep
      injection hstep with hstep
      subst hstep
      have hmk : s.sub.markedB = true := by rw [hsub]; rfl
      have hact0 : waActive N s.child = 0 := by
        rw [hsub] at I8
        simp [WaSub.markedB, WaSub.trigN] at I8
        split_ifs at I8 with h
        exact h
      refine ⟨I1, I2, ?_, ?_, ?_, I6, I7, ?_, ?_, I10, I11, I12, ?_⟩
      · intro k hk
        dsimp only at hk
        exact WaSub.noConfusion hk
      · intro _ j hj
        exact I4 hmk j hj
      · dsimp only
        rw [hsub] at I5
        simpa [WaSub.markedB] using I5
      · dsimp only
        rw [hsub] at I8
        simp [WaSub.markedB, WaSub.trigN] at I8 ⊢
        split_ifs at I8 ⊢ <;> omega
      · dsimp only
        rw [hsub] at I9
        simp [WaSub.pushN] at I9 ⊢
        omega
      · intro p hp
        dsimp only at hp
        rw [List.mem_append] at hp
        rcases hp with hp | hp
        · exact I13 p hp
        · rw [List.mem_singleton] at hp
          subst hp
          exact wa_payload_ok N r s I6 I7 (I4 hmk) hact0

/-- Arithmetic core of the trigger-count update at a `fetch_sub` step: the
decrementing party inherits the terminal trigger exactly when it saw the
word at `successfully_finished = 6`. -/
theorem wa_trig_arith (mk : Bool) (sl sl2 a a2 fired t : Nat)
    (h5 : fired = 4 * a + (if mk = true then 2 else 0))
    (h8 : sl + t = if mk = true ∧ a = 0 then 1 else 0)
    (hA : a2 + 1 = a)
    (hS : sl2 = sl + (if fired = 6 then 1 else 0)) :
    sl2 + t = if mk = true ∧ a2 = 0 then 1 else 0 := by
  cases mk <;> simp at h5 h8 ⊢ <;> split_ifs at h8 hS ⊢ <;> omega

/-- Preservation of the when_all invariant by a `store i` event
(the move of child `i`'s result into its slot). -/
theorem waStep_store_inv {V : Type} (N : Nat) (r : Nat → FResult V)
    (s s2 : WaState) (i : Nat) (hstep : waStep N r s (.store i) = some s2)
    (hinv : WaInv N r s) : WaInv N r s2 := by
  obtain ⟨I1, I2, I3, I4, I5, I6, I7, I8, I9, I10, I11, I12, I13⟩ := hinv
  unfold waStep at hstep
  dsimp only at hstep
  by_cases hph : (s.child i).phase = .launched
  swap
  · rw [if_neg hph] at hstep
    exact Option.noConfusion hstep
  rw [if_pos hph] at hstep
  injection hstep with hstep
  subst hstep
  have hi : i < N := by
    by_contra h
    rw [I1 i (by omega)] at hph
    simp [waChildInit] at hph
  have hACT := waActive_update hi s.child { phase := WaPhase.stored, sawLast := (s.child i).sawLast, pushed := (s.child i).pushed }
  have hSL := waSawLast_update hi s.child { phase := WaPhase.stored, sawLast := (s.child i).sawLast, pushed := (s.child i).pushed }
  have hP := waPushed_update hi s.child { phase := WaPhase.stored, sawLast := (s.child i).sawLast, pushed := (s.child i).pushed }
  simp [waActivePhase, hph] at hACT hSL hP
  have heqA : waActive N
      (Function.update s.child i { phase := WaPhase.stored, sawLast := (s.child i).sawLast, pushed := (s.child i).pushed }) =
      waActive N s.child := by omega
  have heqS : waSawLast N
      (Function.update s.child i { phase := WaPhase.stored, sawLast := (s.child i).sawLast, pushed := (s.child i).pushed }) =
      waSawLast N s.child := by
    cases hsl : (s.child i).sawLast <;> simp [hsl] at hSL <;> omega
  have heqP : waPushedC N
      (Function.update s.child i { phase := WaPhase.stored, sawLast := (s.child i).sawLast, pushed := (s.child i).pushed }) =
      waPushedC N s.child := by
    cases hpu : (s.child i).pushed <;> simp [hpu] at hP <;> omega
  refine ⟨?_, ?_, ?_, ?_, ?_, ?_, ?_, ?_, ?_, ?_, ?_, ?_, I13⟩
  · intro j hj
    dsimp only
    rw [Function.update_noteq (by omega)]
    exact I1 j hj
  · intro j hj
    dsimp only
    rw [Function.update_apply]
    by_cases hji : j = i
    · simp [hji]
    · rw [if_neg hji]
      exact I2 j hj
  · intro k hk
    dsimp only at hk
    obtain ⟨h1, h2⟩ := I3 k hk
    refine ⟨h1, ?_⟩
    intro j hj
    dsimp only
    rw [Function.update_apply]
    by_cases hji : j = i
    · subst hji
      simp only [if_pos rfl]
      constructor
      · intro _
        exact (h2 j hj).mp (by rw [hph]; simp)
      · intro _
        simp
    · rw [if_neg hji]
      exact h2 j hj
  · intro hmk j hj
    dsimp only at hmk ⊢
    rw [Function.update_apply]
    by_cases hji : j = i
    · subst hji
      simp
    · rw [if_neg hji]
      exact I4 hmk j hj
  · dsimp only
    rw [heqA]
    exact I5
  · rcases I6 with h | ⟨h1, h2, h3⟩
    · left
      exact h
    · right
      refine ⟨h1, h2, ?_⟩
      dsimp only
      rw [Function.update_apply]
      by_cases hfi : s.failed = i
      · rw [hfi, hph] at h3
        simp [waCasPast] at h3
      · rw [if_neg hfi]
        exact h3
  · intro hf j hj hcas
    dsimp only at hf hcas
    rw [Function.update_apply] at hcas
    by_cases hji : j = i
    · rw [if_pos hji] at hcas
      simp [waCasPast] at hcas
    · rw [if_neg hji] at hcas
      exact I7 hf j hj hcas
  · dsimp only
    rw [heqA, heqS]
    exact I8
  · dsimp only
    rw [heqP]
    exact I9
  · intro j hj hact
    dsimp only at hact ⊢
    rw [Function.update_apply] at hact ⊢
    by_cases hji : j = i
    · rw [if_pos hji] at hact ⊢
      simpa using I10 i hi (by simp [hph, waActivePhase])
    · rw [if_neg hji] at hact ⊢
      exact I10 j hj hact
  · intro j hj hpu
    dsimp only at hpu ⊢
    rw [Function.update_apply] at hpu ⊢
    by_cases hji : j = i
    · rw [if_pos hji] at hpu
      have h10 := (I10 i hi (by simp [hph, waActivePhase])).2
      simp [h10] at hpu
    · rw [if_neg hji] at hpu ⊢
      exact I11 j hj hpu
  · intro j hj hfin
    dsimp only at hfin ⊢
    rw [Function.update_apply] at hfin ⊢
    by_cases hji : j = i
    · rw [if_pos hji] at hfin
      simp at hfin
    · rw [if_neg hji] at hfin ⊢
      exact I12 j hj hfin

/-- Preservation of the when_all invariant by a `cas i` event
(the `failed : N -> i` CAS performed only for an error result). -/
theorem waStep_cas_inv {V : Type} (N : Nat) (r : Nat → FResult V)
    (s s2 : WaState) (i : Nat) (hstep : waStep N r s (.cas i) = some s2)
    (hinv : WaInv N r s) : WaInv N r s2 := by
  obtain ⟨I1, I2, I3, I4, I5, I6, I7, I8, I9, I10, I11, I12, I13⟩ := hinv
  unfold waStep at hstep
  dsimp only at hstep
  by_cases hph : (s.child i).phase = .stored
  swap
  · rw [if_neg hph] at hstep
    exact Option.noConfusion hstep
  rw [if_pos hph] at hstep
  injection hstep with hstep
  subst hstep
  have hi : i < N := by
    by_contra h
    rw [I1 i (by omega)] at hph
    simp [waChildInit] at hph
  have hACT := waActive_update hi s.child { phase := WaPhase.casDone, sawLast := (s.child i).sawLast, pushed := (s.child i).pushed }
  have hSL := waSawLast_update hi s.child { phase := WaPhase.casDone, sawLast := (s.child i).sawLast, pushed := (s.child i).pushed }
  have hP := waPushed_update hi s.child { phase := WaPhase.casDone, sawLast := (s.child i).sawLast, pushed := (s.child i).pushed }
  simp [waActivePhase, hph] at hACT hSL hP
  have heqA : waActive N
      (Function.update s.child i { phase := WaPhase.casDone, sawLast := (s.child i).sawLast, pushed := (s.child i).pushed }) =
      waActive N s.child := by omega
  have heqS : waSawLast N
      (Function.update s.child i { phase := WaPhase.casDone, sawLast := (s.child i).sawLast, pushed := (s.child i).pushed }) =
      waSawLast N s.child := by
    cases hsl : (s.child i).sawLast <;> simp [hsl] at hSL <;> omega
  have heqP : waPushedC N
      (Function.update s.child i { phase := WaPhase.casDone, sawLast := (s.child i).sawLast, pushed := (s.child i).pushed }) =
      waPushedC N s.child := by
    cases hpu : (s.child i).pushed <;> simp [hpu] at hP <;> omega
  refine ⟨?_, ?_, ?_, ?_, ?_, ?_, ?_, ?_, ?_, ?_, ?_, ?_, I13⟩
  · intro j hj
    dsimp only
    rw [Function.update_noteq (by omega)]
    exact I1 j hj
  · intro j hj
    dsimp only
    rw [Function.update_apply]
    by_cases hji : j = i
    · simp [hji]
    · rw [if_neg hji]
      exact I2 j hj
  · intro k hk
    dsimp only at hk
    obtain ⟨h1, h2⟩ := I3 k hk
    refine ⟨h1, ?_⟩
    intro j hj
    dsimp only
    rw [Function.update_apply]
    by_cases hji : j = i
    · subst hji
      simp only [if_pos rfl]
      constructor
      · intro _
        exact (h2 j hj).mp (by rw [hph]; simp)
      · intro _
        simp
    · rw [if_neg hji]
      exact h2 j hj
  · intro hmk j hj
    dsimp only at hmk ⊢
    rw [Function.update_apply]
    by_cases hji : j = i
    · subst hji
      simp
    · rw [if_neg hji]
      exact I4 hmk j hj
  · dsimp only
    rw [heqA]
    exact I5
  · dsimp only
    by_cases hc : (r i).isError ∧ s.failed = N
    · rw [if_pos hc]
      right
      refine ⟨hi, hc.1, ?_⟩
      rw [Function.update_apply, if_pos rfl]
      simp [waCasPast]
    · rw [if_neg hc]
      rcases I6 with h | ⟨h1, h2, h3⟩
      · left
        exact h
      · right
        refine ⟨h1, h2, ?_⟩
        rw [Function.update_apply]
        by_cases hfi : s.failed = i
        · rw [if_pos hfi]
          simp [waCasPast]
        · rw [if_neg hfi]
          exact h3
  · intro hf j hj hcas
    dsimp only at hf hcas
    by_cases hc : (r i).isError ∧ s.failed = N
    · rw [if_pos hc] at hf
      omega
    · rw [if_neg hc] at hf
      have hiv : (r i).isValue := by
        rcases (show ¬(r i).isError ∨ ¬s.failed = N from by tauto) with h | h
        · cases hri : r i <;> simp [hri, FResult.isError, FResult.isValue] at h ⊢
        · exact absurd hf h
      rw [Function.update_apply] at hcas
      by_cases hji : j = i
      · subst hji
        exact hiv
      · rw [if_neg hji] at hcas
        exact I7 hf j hj hcas
  · dsimp only
    rw [heqA, heqS]
    exact I8
  · dsimp only
    rw [heqP]
    exact I9
  · intro j hj hact
    dsimp only at hact ⊢
    rw [Function.update_apply] at hact ⊢
    by_cases hji : j = i
    · rw [if_pos hji] at hact ⊢
      simpa using I10 i hi (by simp [hph, waActivePhase])
    · rw [if_neg hji] at hact ⊢
      exact I10 j hj hact
  · intro j hj hpu
    dsimp only at hpu ⊢
    rw [Function.update_apply] at hpu ⊢
    by_cases hji : j = i
    · rw [if_pos hji] at hpu
      have h10 := (I10 i hi (by simp [hph, waActivePhase])).2
      simp [h10] at hpu
    · rw [if_neg hji] at hpu ⊢
      exact I11 j hj hpu
  · intro j hj hfin
    dsimp only at hfin ⊢
    rw [Function.update_apply] at hfin ⊢
    by_cases hji : j = i
    · rw [if_pos hji] at hfin
      simp at hfin
    · rw [if_neg hji] at hfin ⊢
      exact I12 j hj hfin

/-- Preservation of the when_all invariant by a `dec i` event
(child `i`'s `fired.fetch_sub(epoch)`, remembering whether it saw 6). -/
theorem waStep_dec_inv {V : Type} (N : Nat) (r : Nat → FResult V)
    (s s2 : WaState) (i : Nat) (hstep : waStep N r s (.dec i) = some s2)
    (hinv : WaInv N r s) : WaInv N r s2 := by
  obtain ⟨I1, I2, I3, I4, I5, I6, I7, I8, I9, I10, I11, I12, I13⟩ := hinv
  unfold waStep at hstep
  dsimp only at hstep
  by_cases hph : (s.child i).phase = .casDone
  swap
  · rw [if_neg hph] at hstep
    exact Option.noConfusion hstep
  rw [if_pos hph] at hstep
  injection hstep with hstep
  subst hstep
  have hi : i < N := by
    by_contra h
    rw [I1 i (by omega)] at hph
    simp [waChildInit] at hph
  have h10 := I10 i hi (by simp [hph, waActivePhase])
  have hACT := waActive_update hi s.child
    { phase := WaPhase.decDone, sawLast := decide (s.fired = 6),
      pushed := (s.child i).pushed }
  have hSL := waSawLast_update hi s.child
    { phase := WaPhase.decDone, sawLast := decide (s.fired = 6),
      pushed := (s.child i).pushed }
  have hP := waPushed_update hi s.child
    { phase := WaPhase.decDone, sawLast := decide (s.fired = 6),
      pushed := (s.child i).pushed }
  simp [waActivePhase, hph, h10.1] at hACT hSL hP
  refine ⟨?_, ?_, ?_, ?_, ?_, ?_, ?_, ?_, ?_, ?_, ?_, ?_, I13⟩
  · intro j hj
    dsimp only
    rw [Function.update_noteq (by omega)]
    exact I1 j hj
  · intro j hj
    dsimp only
    rw [Function.update_apply]
    by_cases hji : j = i
    · simp [hji]
    · rw [if_neg hji]
      exact I2 j hj
  · intro k hk
    dsimp only at hk
    obtain ⟨h1, h2⟩ := I3 k hk
    refine ⟨h1, ?_⟩
    intro j hj
    dsimp only
    rw [Function.update_apply]
    by_cases hji : j = i
    · subst hji
      simp only [if_pos rfl]
      constructor
      · intro _
        exact (h2 j hj).mp (by rw [hph]; simp)
      · intro _
        simp
    · rw [if_neg hji]
      exact h2 j hj
  · intro hmk j hj
    dsimp only at hmk ⊢
    rw [Function.update_apply]
    by_cases hji : j = i
    · subst hji
      simp
    · rw [if_neg hji]
      exact I4 hmk j hj
  · dsimp only
    cases hmk : s.sub.markedB <;> simp [hmk] at I5 ⊢ <;> omega
  · rcases I6 with h | ⟨h1, h2, h3⟩
    · left
      exact h
    · right
      refine ⟨h1, h2, ?_⟩
      dsimp only
      rw [Function.update_apply]
      by_cases hfi : s.failed = i
      · rw [if_pos hfi]
        simp [waCasPast]
      · rw [if_neg hfi]
        exact h3
  · intro hf j hj hcas
    dsimp only at hf hcas
    rw [Function.update_apply] at hcas
    by_cases hji : j = i
    · rw [hji]
      exact I7 hf i hi (by simp [hph, waCasPast])
    · rw [if_neg hji] at hcas
      exact I7 hf j hj hcas
  · dsimp only
    apply wa_trig_arith s.sub.markedB (waSawLast N s.child) _ (waActive N s.child)
      _ s.fired s.sub.trigN I5 I8 (by omega)
    omega
  · dsimp only
    omega
  · intro j hj hact
    dsimp only at hact ⊢
    rw [Function.update_apply] at hact ⊢
    by_cases hji : j = i
    · rw [if_pos hji] at hact
      simp [waActivePhase] at hact
    · rw [if_neg hji] at hact ⊢
      exact I10 j hj hact
  · intro j hj hpu
    dsimp only at hpu ⊢
    rw [Function.update_apply] at hpu ⊢
    by_cases hji : j = i
    · rw [if_pos hji] at hpu
      simp [h10.2] at hpu
    · rw [if_neg hji] at hpu ⊢
      exact I11 j hj hpu
  · intro j hj hfin
    dsimp only at hfin ⊢
    rw [Function.update_apply] at hfin ⊢
    by_cases hji : j = i
    · rw [if_pos hji] at hfin
      simp at hfin
    · rw [if_neg hji] at hfin ⊢
      exact I12 j hj hfin

/-- Preservation of the when_all invariant by a `lastResume i` event (the
decrementing child that saw 6 loads `failed` and resumes the parent; a
child that did not see 6 merely returns). -/
theorem waStep_lastResume_inv {V : Type} (N : Nat) (r : Nat → FResult V)
    (s s2 : WaState) (i : Nat) (hstep : waStep N r s (.lastResume i) = some s2)
    (hinv : WaInv N r s) : WaInv N r s2 := by
  obtain ⟨I1, I2, I3, I4, I5, I6, I7, I8, I9, I10, I11, I12, I13⟩ := hinv
  unfold waStep at hstep
  dsimp only at hstep
  by_cases hph : (s.child i).phase = .decDone
  swap
  · rw [if_neg hph] at hstep
    exact Option.noConfusion hstep
  rw [if_pos hph] at hstep
  have hi : i < N := by
    by_contra h
    rw [I1 i (by omega)] at hph
    simp [waChildInit] at hph
  have hpush : (s.child i).pushed = false := by
    cases hpu : (s.child i).pushed
    · rfl
    · have := I11 i hi hpu
      rw [hph] at this
      exact absurd this (by simp)
  cases hslb : (s.child i).sawLast with
  | true =>
    rw [hslb] at hstep
    rw [if_pos rfl] at hstep
    injection hstep with hstep
    subst hstep
    have hmem : i ∈ (Finset.range N).filter
        (fun j => (s.child j).sawLast = true) := by
      simp [Finset.mem_filter, Finset.mem_range, hi, hslb]
    have hpos : 0 < waSawLast N s.child := Finset.card_pos.mpr ⟨i, hmem⟩
    have hmkact : s.sub.markedB = true ∧ waActive N s.child = 0 := by
      by_cases h : s.sub.markedB = true ∧ waActive N s.child = 0
      · exact h
      · rw [if_neg h] at I8
        omega
    have hACT := waActive_update hi s.child
      { phase := WaPhase.finished, sawLast := true, pushed := true }
    have hSL := waSawLast_update hi s.child
      { phase := WaPhase.finished, sawLast := true, pushed := true }
    have hP := waPushed_update hi s.child
      { phase := WaPhase.finished, sawLast := true, pushed := true }
    simp [waActivePhase, hph, hpush, hslb] at hACT hSL hP
    refine ⟨?_, ?_, ?_, ?_, ?_, ?_, ?_, ?_, ?_, ?_, ?_, ?_, ?_⟩
    · intro j hj
      dsimp only
      rw [Function.update_noteq (by omega)]
      exact I1 j hj
    · intro j hj
      dsimp only
      rw [Function.update_apply]
      by_cases hji : j = i
      · simp [hji]
      · rw [if_neg hji]
        exact I2 j hj
    · intro k hk
      dsimp only at hk
      obtain ⟨h1, h2⟩ := I3 k hk
      refine ⟨h1, ?_⟩
      intro j hj
      dsimp only
      rw [Function.update_apply]
      by_cases hji : j = i
      · subst hji
        simp only [if_pos rfl]
        constructor
        · intro _
          exact (h2 j hj).mp (by rw [hph]; simp)
        · intro _
          simp
      · rw [if_neg hji]
        exact h2 j hj
    · intro hmk j hj
      dsimp only at hmk ⊢
      rw [Function.update_apply]
      by_cases hji : j = i
      · subst hji
        simp
      · rw [if_neg hji]
        exact I4 hmk j hj
    · dsimp only
      cases hmk : s.sub.markedB <;> simp [hmk] at I5 ⊢ <;> omega
    · rcases I6 with h | ⟨h1, h2, h3⟩
      · left
        exact h
      · right
        refine ⟨h1, h2, ?_⟩
        dsimp only
        rw [Function.update_apply]
        by_cases hfi : s.failed = i
        · rw [if_pos hfi]
          simp [waCasPast]
        · rw [if_neg hfi]
          exact h3
    · intro hf j hj hcas
      dsimp only at hf hcas
      rw [Function.update_apply] at hcas
      by_cases hji : j = i
      · rw [hji]
        exact I7 hf i hi (by simp [hph, waCasPast])
      · rw [if_neg hji] at hcas
        exact I7 hf j hj hcas
    · dsimp only
      have hA0 : waActive N (Function.update s.child i
          { phase := WaPhase.finished, sawLast := true, pushed := true }) = 0 := by omega
      rw [if_pos ⟨hmkact.1, hA0⟩]
      rw [if_pos hmkact] at I8
      omega
    · dsimp only
      simp only [List.length_append, List.length_singleton]
      omega
    · intro j hj hact
      dsimp only at hact ⊢
      rw [Function.update_apply] at hact ⊢
      by_cases hji : j = i
      · rw [if_pos hji] at hact
        simp [waActivePhase] at hact
      · rw [if_neg hji] at hact ⊢
        exact I10 j hj hact
    · intro j hj hpu
      dsimp only at hpu ⊢
      rw [Function.update_apply] at hpu ⊢
      by_cases hji : j = i
      · rw [if_pos hji]
      · rw [if_neg hji] at hpu ⊢
        exact I11 j hj hpu
    · intro j hj hfin
      dsimp only at hfin ⊢
      rw [Function.update_apply] at hfin ⊢
      by_cases hji : j = i
      · rw [if_pos hji]
      · rw [if_neg hji] at hfin ⊢
        exact I12 j hj hfin
    · intro p hp
      dsimp only at hp
      rw [List.mem_append] at hp
      rcases hp with hp | hp
      · exact I13 p hp
      · rw [List.mem_singleton] at hp
        subst hp
        exact wa_payload_ok N r s I6 I7 (I4 hmkact.1) hmkact.2
  | false =>
    rw [hslb] at hstep
    rw [if_neg (by simp)] at hstep
    injection hstep with hstep
    subst hstep
    have hACT := waActive_update hi s.child
      { phase := WaPhase.finished, sawLast := false,
        pushed := (s.child i).pushed }
    have hSL := waSawLast_update hi s.child
      { phase := WaPhase.finished, sawLast := false,
        pushed := (s.child i).pushed }
    have hP := waPushed_update hi s.child
      { phase := WaPhase.finished, sawLast := false,
        pushed := (s.child i).pushed }
    simp [waActivePhase, hph, hslb] at hACT hSL hP
    have heqA : waActive N (Function.update s.child i
        { phase := WaPhase.finished, sawLast := false,
          pushed := (s.child i).pushed }) = waActive N s.child := by omega
    have heqS : waSawLast N (Function.update s.child i
        { phase := WaPhase.finished, sawLast := false,
          pushed := (s.child i).pushed }) = waSawLast N s.child := by
      omega
    have heqP : waPushedC N (Function.update s.child i
        { phase := WaPhase.finished, sawLast := false,
          pushed := (s.child i).pushed }) = waPushedC N s.child := by
      omega
    refine ⟨?_, ?_, ?_, ?_, ?_, ?_, ?_, ?_, ?_, ?_, ?_, ?_, I13⟩
    · intro j hj
      dsimp only
      rw [Function.update_noteq (by omega)]
      exact I1 j hj
    · intro j hj
      dsimp only
      rw [Function.update_apply]
      by_cases hji : j = i
      · simp [hji]
      · rw [if_neg hji]
        exact I2 j hj
    · intro k hk
      dsimp only at hk
      obtain ⟨h1, h2⟩ := I3 k hk
      refine ⟨h1, ?_⟩
      intro j hj
      dsimp only
      rw [Function.update_apply]
      by_cases hji : j = i
      · subst hji
        simp only [if_pos rfl]
        constructor
        · intro _
          exact (h2 j hj).mp (by rw [hph]; simp)
        · intro _
          simp
      · rw [if_neg hji]
        exact h2 j hj
    · intro hmk j hj
      dsimp only at hmk ⊢
      rw [Function.update_apply]
      by_cases hji : j = i
      · subst hji
        simp
      · rw [if_neg hji]
        exact I4 hmk j hj
    · dsimp only
      rw [heqA]
      exact I5
    · rcases I6 with h | ⟨h1, h2, h3⟩
      · left
        exact h
      · right
        refine ⟨h1, h2, ?_⟩
        dsimp only
        rw [Function.update_apply]
        by_cases hfi : s.failed = i
        · rw [if_pos hfi]
          simp [waCasPast]
        · rw [if_neg hfi]
          exact h3
    · intro hf j hj hcas
      dsimp only at hf hcas
      rw [Function.update_apply] at hcas
      by_cases hji : j = i
      · rw [hji]
        exact I7 hf i hi (by simp [hph, waCasPast])
      · rw [if_neg hji] at hcas
        exact I7 hf j hj hcas
    · dsimp only
      rw [heqA, heqS]
      exact I8
    · dsimp only
      rw [heqP]
      exact I9
    · intro j hj hact
      dsimp only at hact ⊢
      rw [Function.update_apply] at hact ⊢
      by_cases hji : j = i
      · rw [if_pos hji] at hact
        simp [waActivePhase] at hact
      · rw [if_neg hji] at hact ⊢
        exact I10 j hj hact
    · intro j hj hpu
      dsimp only at hpu ⊢
      rw [Function.update_apply] at hpu ⊢
      by_cases hji : j = i
      · rw [if_pos hji] at hpu
        simp [hpush] at hpu
      · rw [if_neg hji] at hpu ⊢
        exact I11 j hj hpu
    · intro j hj hfin
      dsimp only at hfin ⊢
      rw [Function.update_apply] at hfin ⊢
      by_cases hji : j = i
      · rw [if_pos hji]
        simp [hpush, hslb]
      · rw [if_neg hji] at hfin ⊢
        exact I12 j hj hfin

/-- A result is not simultaneously a value and an error. -/
theorem fresult_not_both {V : Type} (fr : FResult V)
    (hv : fr.isValue) (he : fr.isError) : False := by
  cases fr <;> simp [FResult.isValue, FResult.isError] at hv he

/-- Preservation of the when_all invariant by any single event. -/
theorem waStep_inv_all {V : Type} (N : Nat) (r : Nat → FResult V)
    (s s2 : WaState) (e : WaEvent) (hstep : waStep N r s e = some s2)
    (hinv : WaInv N r s) : WaInv N r s2 := by
  cases e with
  | launch => exact waStep_launch_inv N r s s2 hstep hinv
  | mark => exact waStep_mark_inv N r s s2 hstep hinv
  | submitFinish => exact waStep_submitFinish_inv N r s s2 hstep hinv
  | store i => exact waStep_store_inv N r s s2 i hstep hinv
  | cas i => exact waStep_cas_inv N r s s2 i hstep hinv
  | dec i => exact waStep_dec_inv N r s s2 i hstep hinv
  | lastResume i => exact waStep_lastResume_inv N r s s2 i hstep hinv

/-- The when_all invariant holds in the initial state. -/
theorem waInit_inv {V : Type} (N : Nat) (r : Nat → FResult V) :
    WaInv N r (waInit N) := by
  unfold WaInv waInit
  dsimp only
  refine ⟨fun i _ => rfl, fun i _ _ => rfl, ?_, ?_, ?_, Or.inl rfl, ?_, ?_, ?_,
    ?_, ?_, ?_, ?_⟩
  · intro k hk
    injection hk with hk
    subst hk
    refine ⟨Nat.zero_le N, ?_⟩
    intro i hi
    simp [waChildInit]
  · intro hmk
    simp [WaSub.markedB] at hmk
  · simp [WaSub.markedB, waActive, waChildInit, waActivePhase]
  · intro hf i hi hcas
    simp [waChildInit, waCasPast] at hcas
  · simp [WaSub.markedB, WaSub.trigN, waSawLast, waChildInit]
  · simp [WaSub.pushN, waPushedC, waChildInit]
  · intro i hi hact
    simp [waChildInit, waActivePhase] at hact
  · intro i hi hpu
    simp [waChildInit] at hpu
  · intro i hi hfin
    simp [waChildInit] at hfin
  · intro p hp
    simp at hp

/-- Every reachable when_all state satisfies the invariant. -/
theorem waRun_inv {V : Type} (N : Nat) (r : Nat → FResult V)
    (evs : List WaEvent) (s : WaState) (h : waRun N r evs = some s) :
    WaInv N r s := by
  induction evs using List.reverseRecOn generalizing s with
  | nil =>
    unfold waRun at h
    simp at h
    rw [← h]
    exact waInit_inv N r
  | append_singleton l e ih =>
    unfold waRun at h ih
    rw [List.foldlM_append] at h
    cases hfold : List.foldlM (waStep N r) (waInit N) l with
    | none =>
      rw [hfold] at h
      simp at h
    | some m =>
      rw [hfold] at h
      simp [List.foldlM] at h
      exact waStep_inv_all N r m s e h (ih m hfold)

/-- Claim C2: however the `emplace` callbacks of the `N` child pipelines
interleave with the submitter (any event sequence accepted by the when_all
machine), once the run has terminated (`waComplete`: every child `emplace`
returned and `submit` returned) the aggregator has resumed its parent
exactly once; the resume carries the success payload if and only if every
child produced a value, and if some child produced an error the single
resume carries `async_any_failed_error(k)` for a failing child index `k`. -/
theorem when_all_resumes_once_iff_all_succeed {V : Type} (N : Nat)
    (r : Nat → FResult V) (evs : List WaEvent) (s : WaState)
    (hrun : waRun N r evs = some s) (hdone : waComplete N s) :
    s.resumes.length = 1 ∧
    (s.resumes = [AggPayload.success] ↔ ∀ i, i < N → (r i).isValue) ∧
    ((∃ i, i < N ∧ (r i).isError) →
      ∃ k, k < N ∧ (r k).isError ∧ s.resumes = [AggPayload.anyFailed k]) := by
  obtain ⟨I1, I2, I3, I4, I5, I6, I7, I8, I9, I10, I11, I12, I13⟩ :=
    waRun_inv N r evs s hrun
  obtain ⟨hfin, b, hsub⟩ := hdone
  have hact0 : waActive N s.child = 0 := by
    unfold waActive
    rw [Finset.card_eq_zero]
    apply Finset.filter_false_of_mem
    intro j hj
    rw [Finset.mem_range] at hj
    rw [hfin j hj]
    simp [waActivePhase]
  have hpc : waPushedC N s.child = waSawLast N s.child := by
    unfold waPushedC waSawLast
    apply congrArg
    apply Finset.filter_congr
    intro j hj
    rw [Finset.mem_range] at hj
    rw [I12 j hj (hfin j hj)]
  have hlen : s.resumes.length = 1 := by
    rw [hsub] at I8 I9
    rw [if_pos ⟨rfl, hact0⟩] at I8
    cases b <;> simp [WaSub.trigN, WaSub.pushN] at I8 I9 <;> omega
  obtain ⟨p, hp⟩ := List.length_eq_one.mp hlen
  have hpok := I13 p (by rw [hp]; simp)
  refine ⟨hlen, ⟨?_, ?_⟩, ?_⟩
  · intro hres i hi
    rw [hp] at hres
    injection hres with h1 _
    rcases hpok with ⟨_, hall⟩ | ⟨k, hpk, _, _⟩
    · exact hall i hi
    · rw [h1] at hpk
      exact AggPayload.noConfusion hpk
  · intro hall
    rcases hpok with ⟨hps, _⟩ | ⟨k, hpk, hk, herr⟩
    · rw [hp, hps]
    · exact absurd (fresult_not_both (r k) (hall k hk) herr) (fun h => h)
  · intro hex
    rcases hpok with ⟨_, hall⟩ | ⟨k, hpk, hk, herr⟩
    · obtain ⟨i, hi, hierr⟩ := hex
      exact absurd (fresult_not_both (r i) (hall i hi) hierr) (fun h => h)
    · refine ⟨k, hk, herr, ?_⟩
      rw [hp, hpk]

/-- The C2 hypotheses are satisfiable: the concrete one-child witness run
reaches completion and resumes exactly once with the success payload. -/
theorem when_all_resumes_once_iff_all_succeed_witness :
    waWitnessState.resumes.length = 1 ∧
    waWitnessState.resumes = [AggPayload.success] := by
  have h := when_all_resumes_once_iff_all_succeed 1
    (fun _ => FResult.value (5 : Int)) waWitnessEvents waWitnessState rfl
    ⟨by
      intro i hi
      have h0 : i = 0 := by omega
      subst h0
      rfl, ⟨false, rfl⟩⟩
  refine ⟨h.1, h.2.1.mpr ?_⟩
  intro i hi
  exact trivial

/-- Preservation of the when_any invariant by a `launch` event
(`launch<I>`: a present sub-blueprint fires and runs, a null one is
skipped with -1). -/
theorem wyStep_launch_inv {V : Type} (N : Nat) (present : Nat → Bool)
    (r : Nat → FResult V) (s s2 : WyState)
    (hstep : wyStep N present r s .launch = some s2)
    (hinv : WyInv N present r s) : WyInv N present r s2 := by
  obtain ⟨J1, J2, J3, J4, J5, J6, J7, J8, J9, J10, J11, J12, J13, J14, J15⟩ :=
    hinv
  unfold wyStep at hstep
  cases hsub : s.sub with
  | readW k =>
    rw [hsub] at hstep
    exact Option.noConfusion hstep
  | doneLaunch =>
    rw [hsub] at hstep
    exact Option.noConfusion hstep
  | afterMark z =>
    rw [hsub] at hstep
    exact Option.noConfusion hstep
  | refused =>
    rw [hsub] at hstep
    exact Option.noConfusion hstep
  | sdone z p =>
    rw [hsub] at hstep
    exact Option.noConfusion hstep
  | launching i =>
    rw [hsub] at hstep
    dsimp only at hstep
    by_cases hi : i < N
    swap
    · rw [if_neg hi] at hstep
      exact Option.noConfusion hstep
    rw [if_pos hi] at hstep
    unfold wyPrefix at J3
    rw [hsub] at J3
    dsimp only at J3
    obtain ⟨hkN, hpre⟩ := J3
    have hchildi : s.child i = wyChildInit := by
      apply J2 i hi
      by_contra hph
      have := (hpre i hi).mp hph
      omega
    by_cases hpres : present i = true
    · rw [if_pos hpres] at hstep
      injection hstep with hstep
      subst hstep
      have hACT := wyActive_update hi s.child
        { wyChildInit with phase := WaPhase.launched }
      have hSL := wySawLast_update hi s.child
        { wyChildInit with phase := WaPhase.launched }
      have hW := wyWon_update hi s.child
        { wyChildInit with phase := WaPhase.launched }
      have hPAF := wyPushedAF_update hi s.child
        { wyChildInit with phase := WaPhase.launched }
      have hL := wyLaunched_update hi s.child
        { wyChildInit with phase := WaPhase.launched }
      simp [waActivePhase, hchildi, wyChildInit] at hACT hSL hW hPAF hL
      refine ⟨?_, ?_, ?_, ?_, ?_, ?_, ?_, ?_, ?_, ?_, ?_, ?_, ?_, ?_, ?_⟩
      · intro j hj
        dsimp only
        rw [Function.update_noteq (by omega)]
        exact J1 j hj
      · intro j hj
        dsimp only
        rw [Function.update_apply]
        by_cases hji : j = i
        · simp [hji, wyChildInit, waActivePhase]
        · rw [if_neg hji]
          exact J2 j hj
      · unfold wyPrefix
        dsimp only
        refine ⟨hi, ?_⟩
        intro j hj
        rw [Function.update_apply]
        by_cases hji : j = i
        · subst hji
          simp only [if_pos rfl]
          constructor
          · intro _
            exact ⟨le_refl j, hpres⟩
          · intro _
            simp [wyChildInit]
        · rw [if_neg hji]
          have h := hpre j hj
          constructor
          · intro hx
            obtain ⟨h1, h2⟩ := h.mp hx
            exact ⟨by omega, h2⟩
          · intro ⟨h1, h2⟩
            exact h.mpr ⟨by omega, h2⟩
      · dsimp only
        simp only [wyChildInit]
        omega
      · dsimp only
        rw [hsub] at J5
        simp [WySub.markedB, WySub.refusedB, wyChildInit] at J5 ⊢
        omega
      · dsimp only
        rcases J6 with ⟨h1, h2, h3⟩ | ⟨h1, h2, h3, h4, h5⟩
        · refine Or.inl ⟨h1, ?_, ?_⟩
          · intro j hj
            rw [Function.update_apply]
            by_cases hji : j = i
            · rw [if_pos hji]
              rfl
            · rw [if_neg hji]
              exact h2 j hj
          · intro j hj hc
            rw [Function.update_apply] at hc
            by_cases hji : j = i
            · rw [if_pos hji] at hc
              simp [waCasPast] at hc
            · rw [if_neg hji] at hc
              exact h3 j hj hc
        · have hwi : s.winner ≠ i := by
            intro he
            rw [he, hchildi] at h2
            simp [wyChildInit] at h2
          refine Or.inr ⟨h1, ?_, h3, ?_, ?_⟩
          · rw [Function.update_apply, if_neg hwi]
            exact h2
          · rw [Function.update_apply, if_neg hwi]
            exact h4
          · intro j hj hjw
            rw [Function.update_apply]
            by_cases hji : j = i
            · rw [if_pos hji]
              rfl
            · rw [if_neg hji]
              exact h5 j hj hjw
      · dsimp only
        rw [hsub] at J7
        simp [WySub.markedB, WySub.trigN, wyChildInit] at J7 ⊢
        omega
      · dsimp only
        rw [hsub] at J8
        simp [WySub.pushN, wyChildInit] at J8 ⊢
        omega
      · intro j hj hact
        dsimp only at hact ⊢
        rw [Function.update_apply] at hact ⊢
        by_cases hji : j = i
        · rw [if_pos hji]
          exact ⟨rfl, rfl⟩
        · rw [if_neg hji] at hact ⊢
          exact J9 j hj hact
      · intro j hj hph
        dsimp only at hph ⊢
        rw [Function.update_apply] at hph ⊢
        by_cases hji : j = i
        · rw [if_pos hji]
          rfl
        · rw [if_neg hji] at hph ⊢
          exact J10 j hj hph
      · intro j hj hpaf
        dsimp only at hpaf ⊢
        rw [Function.update_apply] at hpaf
        by_cases hji : j = i
        · rw [if_pos hji] at hpaf
          exact Bool.noConfusion hpaf
        · rw [if_neg hji] at hpaf
          obtain ⟨a1, a2, a3, a4⟩ := J11 j hj hpaf
          rw [Function.update_apply, if_neg hji]
          exact ⟨a1, a2, a3, a4⟩
      · intro z p heq
        dsimp only at heq
        exact WySub.noConfusion heq
      · intro j hj hfin hsl hwon hwN
        dsimp only at hfin hsl hwon hwN ⊢
        rw [Function.update_apply] at hfin hsl hwon ⊢
        by_cases hji : j = i
        · rw [if_pos hji] at hfin
          exact WaPhase.noConfusion hfin
        · rw [if_neg hji] at hfin hsl hwon ⊢
          exact J13 j hj hfin hsl hwon hwN
      · intro z heq
        dsimp only at heq
        exact WySub.noConfusion heq
      · intro p hp
        dsimp only at hp ⊢
        rcases J15 p hp with ⟨k, h1, h2, h3, h4, h5⟩ | ⟨h1, h2, h3, h4⟩
        · exact Or.inl ⟨k, h1, h2, h3, h4, h5⟩
        · rw [hsub] at h3
          exact Bool.noConfusion h3
    · rw [if_neg hpres] at hstep
      injection hstep with hstep
      subst hstep
      refine ⟨J1, J2, ?_, J4, ?_, J6, ?_, ?_, J9, J10, ?_, ?_, J13, ?_, ?_⟩
      · unfold wyPrefix
        dsimp only
        refine ⟨hi, ?_⟩
        intro j hj
        have h := hpre j hj
        constructor
        · intro hx
          obtain ⟨h1, h2⟩ := h.mp hx
          exact ⟨by omega, h2⟩
        · intro ⟨h1, h2⟩
          refine h.mpr ⟨?_, h2⟩
          rcases Nat.lt_or_ge j i with hlt | hge
          · exact hlt
          · have hjeq : j = i := by omega
            rw [hjeq] at h2
            exact absurd h2 hpres
      · dsimp only
        rw [hsub] at J5
        simpa [WySub.markedB, WySub.refusedB] using J5
      · dsimp only
        rw [hsub] at J7
        simpa [WySub.markedB, WySub.trigN] using J7
      · dsimp only
        rw [hsub] at J8
        simpa [WySub.pushN] using J8
      · intro j hj hpaf
        exact J11 j hj hpaf
      · intro z p heq
        dsimp only at heq
        exact WySub.noConfusion heq
      · intro z heq
        dsimp only at heq
        exact WySub.noConfusion heq
      · intro p hp
        dsimp only at hp ⊢
        rcases J15 p hp with ⟨k, h1, h2, h3, h4, h5⟩ | ⟨h1, h2, h3, h4⟩
        · exact Or.inl ⟨k, h1, h2, h3, h4, h5⟩
        · rw [hsub] at h3
          exact Bool.noConfusion h3

/-- Preservation of the when_any invariant by a `readWinner` event (the
launch loop reloads `winner` and continues only while it is `N`). -/
theorem wyStep_readWinner_inv {V : Type} (N : Nat) (present : Nat → Bool)
    (r : Nat → FResult V) (s s2 : WyState)
    (hstep : wyStep N present r s .readWinner = some s2)
    (hinv : WyInv N present r s) : WyInv N present r s2 := by
  obtain ⟨J1, J2, J3, J4, J5, J6, J7, J8, J9, J10, J11, J12, J13, J14, J15⟩ :=
    hinv
  unfold wyStep at hstep
  cases hsub : s.sub with
  | launching k =>
    rw [hsub] at hstep
    exact Option.noConfusion hstep
  | doneLaunch =>
    rw [hsub] at hstep
    exact Option.noConfusion hstep
  | afterMark z =>
    rw [hsub] at hstep
    exact Option.noConfusion hstep
  | refused =>
    rw [hsub] at hstep
    exact Option.noConfusion hstep
  | sdone z p =>
    rw [hsub] at hstep
    exact Option.noConfusion hstep
  | readW i =>
    rw [hsub] at hstep
    dsimp only at hstep
    unfold wyPrefix at J3
    rw [hsub] at J3
    dsimp only at J3
    obtain ⟨hiN, hpre⟩ := J3
    by_cases hw : s.winner = N
    · rw [if_pos hw] at hstep
      injection hstep with hstep
      subst hstep
      refine ⟨J1, J2, ?_, J4, ?_, J6, ?_, ?_, J9, J10, J11, ?_, J13, ?_, ?_⟩
      · unfold wyPrefix
        dsimp only
        refine ⟨by omega, ?_⟩
        intro j hj
        have h := hpre j hj
        constructor
        · intro hx
          obtain ⟨h1, h2⟩ := h.mp hx
          exact ⟨by omega, h2⟩
        · intro ⟨h1, h2⟩
          exact h.mpr ⟨by omega, h2⟩
      · dsimp only
        rw [hsub] at J5
        simpa [WySub.markedB, WySub.refusedB] using J5
      · dsimp only
        rw [hsub] at J7
        simpa [WySub.markedB, WySub.trigN] using J7
      · dsimp only
        rw [hsub] at J8
        simpa [WySub.pushN] using J8
      · intro z p heq
        dsimp only at heq
        exact WySub.noConfusion heq
      · intro z heq
        dsimp only at heq
        exact WySub.noConfusion heq
      · intro p hp
        dsimp only at hp ⊢
        rcases J15 p hp with ⟨k, h1, h2, h3, h4, h5⟩ | ⟨h1, h2, h3, h4⟩
        · exact Or.inl ⟨k, h1, h2, h3, h4, h5⟩
        · rw [hsub] at h3
          exact Bool.noConfusion h3
    · rw [if_neg hw] at hstep
      injection hstep with hstep
      subst hstep
      refine ⟨J1, J2, ?_, J4, ?_, J6, ?_, ?_, J9, J10, J11, ?_, J13, ?_, ?_⟩
      · unfold wyPrefix
        dsimp only
        refine ⟨i + 1, by omega, ?_, fun _ => hw⟩
        intro j hj
        have h := hpre j hj
        constructor
        · intro hx
          obtain ⟨h1, h2⟩ := h.mp hx
          exact ⟨by omega, h2⟩
        · intro ⟨h1, h2⟩
          exact h.mpr ⟨by omega, h2⟩
      · dsimp only
        rw [hsub] at J5
        simpa [WySub.markedB, WySub.refusedB] using J5
      · dsimp only
        rw [hsub] at J7
        simpa [WySub.markedB, WySub.trigN] using J7
      · dsimp only
        rw [hsub] at J8
        simpa [WySub.pushN] using J8
      · intro z p heq
        dsimp only at heq
        exact WySub.noConfusion heq
      · intro z heq
        dsimp only at heq
        exact WySub.noConfusion heq
      · intro p hp
        dsimp only at hp ⊢
        rcases J15 p hp with ⟨k, h1, h2, h3, h4, h5⟩ | ⟨h1, h2, h3, h4⟩
        · exact Or.inl ⟨k, h1, h2, h3, h4, h5⟩
        · rw [hsub] at h3
          exact Bool.noConfusion h3

/-- Preservation of the when_any invariant by a `loopDone` event (the
launch loop index reached `N`). -/
theorem wyStep_loopDone_inv {V : Type} (N : Nat) (present : Nat → Bool)
    (r : Nat → FResult V) (s s2 : WyState)
    (hstep : wyStep N present r s .loopDone = some s2)
    (hinv : WyInv N present r s) : WyInv N present r s2 := by
  obtain ⟨J1, J2, J3, J4, J5, J6, J7, J8, J9, J10, J11, J12, J13, J14, J15⟩ :=
    hinv
  unfold wyStep at hstep
  cases hsub : s.sub with
  | readW k =>
    rw [hsub] at hstep
    exact Option.noConfusion hstep
  | doneLaunch =>
    rw [hsub] at hstep
    exact Option.noConfusion hstep
  | afterMark z =>
    rw [hsub] at hstep
    exact Option.noConfusion hstep
  | refused =>
    rw [hsub] at hstep
    exact Option.noConfusion hstep
  | sdone z p =>
    rw [hsub] at hstep
    exact Option.noConfusion hstep
  | launching i =>
    rw [hsub] at hstep
    dsimp only at hstep
    by_cases hiN : i = N
    swap
    · rw [if_neg hiN] at hstep
      exact Option.noConfusion hstep
    rw [if_pos hiN] at hstep
    injection hstep with hstep
    subst hstep
    subst hiN
    unfold wyPrefix at J3
    rw [hsub] at J3
    dsimp only at J3
    obtain ⟨hkN, hpre⟩ := J3
    refine ⟨J1, J2, ?_, J4, ?_, J6, ?_, ?_, J9, J10, J11, ?_, J13, ?_, ?_⟩
    · unfold wyPrefix
      dsimp only
      exact ⟨i, le_refl i, hpre, fun h => absurd h (lt_irrefl i)⟩
    · dsimp only
      rw [hsub] at J5
      simpa [WySub.markedB, WySub.refusedB] using J5
    · dsimp only
      rw [hsub] at J7
      simpa [WySub.markedB, WySub.trigN] using J7
    · dsimp only
      rw [hsub] at J8
      simpa [WySub.pushN] using J8
    · intro z p heq
      dsimp only at heq
      exact WySub.noConfusion heq
    · intro z heq
      dsimp only at heq
      exact WySub.noConfusion heq
    · intro p hp
      dsimp only at hp ⊢
      rcases J15 p hp with ⟨k, h1, h2, h3, h4, h5⟩ | ⟨h1, h2, h3, h4⟩
      · exact Or.inl ⟨k, h1, h2, h3, h4, h5⟩
      · rw [hsub] at h3
        exact Bool.noConfusion h3

/-- Preservation of the when_any invariant by a `refuse` event (zero
launched children: submit sets `launch_failed_msk` and returns -1). -/
theorem wyStep_refuse_inv {V : Type} (N : Nat) (present : Nat → Bool)
    (r : Nat → FResult V) (s s2 : WyState)
    (hstep : wyStep N present r s .refuse = some s2)
    (hinv : WyInv N present r s) : WyInv N present r s2 := by
  obtain ⟨J1, J2, J3, J4, J5, J6, J7, J8, J9, J10, J11, J12, J13, J14, J15⟩ :=
    hinv
  unfold wyStep at hstep
  cases hsub : s.sub with
  | launching k =>
    rw [hsub] at hstep
    exact Option.noConfusion hstep
  | readW k =>
    rw [hsub] at hstep
    exact Option.noConfusion hstep
  | afterMark z =>
    rw [hsub] at hstep
    exact Option.noConfusion hstep
  | refused =>
    rw [hsub] at hstep
    exact Option.noConfusion hstep
  | sdone z p =>
    rw [hsub] at hstep
    exact Option.noConfusion hstep
  | doneLaunch =>
    rw [hsub] at hstep
    dsimp only at hstep
    by_cases hcnt : s.cnt = 0
    swap
    · rw [if_neg hcnt] at hstep
      exact Option.noConfusion hstep
    rw [if_pos hcnt] at hstep
    injection hstep with hstep
    subst hstep
    unfold wyPrefix at J3
    rw [hsub] at J3
    dsimp only at J3
    obtain ⟨k, hk1, hk2, hk3⟩ := J3
    refine ⟨J1, J2, ?_, J4, ?_, J6, ?_, ?_, J9, J10, J11, ?_, J13, ?_, ?_⟩
    · unfold wyPrefix
      dsimp only
      exact ⟨k, hk1, hk2, hk3⟩
    · dsimp only
      rw [hsub] at J5
      simp [WySub.markedB, WySub.refusedB] at J5 ⊢
      have h4 : s.fired % 4 = 0 := by omega
      rw [lor_small s.fired 1 h4 (by omega)]
      omega
    · dsimp only
      rw [hsub] at J7
      simpa [WySub.markedB, WySub.trigN] using J7
    · dsimp only
      rw [hsub] at J8
      simpa [WySub.pushN] using J8
    · intro z p heq
      dsimp only at heq
      exact WySub.noConfusion heq
    · intro z heq
      dsimp only at heq
      exact WySub.noConfusion heq
    · intro p hp
      dsimp only at hp ⊢
      rcases J15 p hp with ⟨k2, h1, h2, h3, h4, h5⟩ | ⟨h1, h2, h3, h4⟩
      · exact Or.inl ⟨k2, h1, h2, h3, h4, h5⟩
      · rw [hsub] at h3
        exact Bool.noConfusion h3

/-- Preservation of the when_any invariant by a `mark` event
(`fired.fetch_or(launch_success_msk)` after a nonzero launch count). -/
theorem wyStep_mark_inv {V : Type} (N : Nat) (present : Nat → Bool)
    (r : Nat → FResult V) (s s2 : WyState)
    (hstep : wyStep N present r s .mark = some s2)
    (hinv : WyInv N present r s) : WyInv N present r s2 := by
  obtain ⟨J1, J2, J3, J4, J5, J6, J7, J8, J9, J10, J11, J12, J13, J14, J15⟩ :=
    hinv
  unfold wyStep at hstep
  cases hsub : s.sub with
  | launching k =>
    rw [hsub] at hstep
    exact Option.noConfusion hstep
  | readW k =>
    rw [hsub] at hstep
    exact Option.noConfusion hstep
  | afterMark z =>
    rw [hsub] at hstep
    exact Option.noConfusion hstep
  | refused =>
    rw [hsub] at hstep
    exact Option.noConfusion hstep
  | sdone z p =>
    rw [hsub] at hstep
    exact Option.noConfusion hstep
  | doneLaunch =>
    rw [hsub] at hstep
    dsimp only at hstep
    by_cases hcnt : s.cnt ≠ 0
    swap
    · rw [if_neg hcnt] at hstep
      exact Option.noConfusion hstep
    rw [if_pos hcnt] at hstep
    injection hstep with hstep
    subst hstep
    unfold wyPrefix at J3
    rw [hsub] at J3
    dsimp only at J3
    obtain ⟨k, hk1, hk2, hk3⟩ := J3
    refine ⟨J1, J2, ?_, J4, ?_, J6, ?_, ?_, J9, J10, J11, ?_, J13, ?_, ?_⟩
    · unfold wyPrefix
      dsimp only
      exact ⟨k, hk1, hk2, hk3⟩
    · dsimp only
      rw [hsub] at J5
      simp [WySub.markedB, WySub.refusedB] at J5 ⊢
      have h4 : s.fired % 4 = 0 := by omega
      rw [lor_small s.fired 2 h4 (by omega)]
      omega
    · dsimp only
      rw [hsub] at J5 J7
      by_cases hf : s.fired = 0 <;>
        simp [hf, WySub.markedB, WySub.refusedB, WySub.trigN] at J5 J7 ⊢ <;>
        split_ifs <;> omega
    · dsimp only
      rw [hsub] at J8
      simpa [WySub.pushN] using J8
    · intro z p heq
      dsimp only at heq
      exact WySub.noConfusion heq
    · intro z heq
      dsimp only at heq
      exact WySub.noConfusion heq
    · intro p hp
      dsimp only at hp ⊢
      rcases J15 p hp with ⟨k2, h1, h2, h3, h4, h5⟩ | ⟨h1, h2, h3, h4⟩
      · exact Or.inl ⟨k2, h1, h2, h3, h4, h5⟩
      · rw [hsub] at h3
        exact Bool.noConfusion h3

/-- Preservation of the when_any invariant by a `submitFinish` event (the
submitter returns; if its fetch_or saw zero and `winner` is still `N` it
resumes the parent with `async_all_failed_error`). -/
theorem wyStep_submitFinish_inv {V : Type} (N : Nat) (present : Nat → Bool)
    (r : Nat → FResult V) (s s2 : WyState)
    (hstep : wyStep N present r s .submitFinish = some s2)
    (hinv : WyInv N present r s) : WyInv N present r s2 := by
  obtain ⟨J1, J2, J3, J4, J5, J6, J7, J8, J9, J10, J11, J12, J13, J14, J15⟩ :=
    hinv
  unfold wyStep at hstep
  cases hsub : s.sub with
  | launching k =>
    rw [hsub] at hstep
    exact Option.noConfusion hstep
  | readW k =>
    rw [hsub] at hstep
    exact Option.noConfusion hstep
  | doneLaunch =>
    rw [hsub] at hstep
    exact Option.noConfusion hstep
  | refused =>
    rw [hsub] at hstep
    exact Option.noConfusion hstep
  | sdone z p =>
    rw [hsub] at hstep
    exact Option.noConfusion hstep
  | afterMark z =>
    rw [hsub] at hstep
    unfold wyPrefix at J3
    rw [hsub] at J3
    dsimp only at J3
    obtain ⟨k, hk1, hk2, hk3⟩ := J3
    cases z with
    | false =>
      dsimp only at hstep
      injection hstep with hstep
      subst hstep
      refine ⟨J1, J2, ?_, J4, ?_, J6, ?_, ?_, J9, J10, J11, ?_, J13, ?_, ?_⟩
      · unfold wyPrefix
        dsimp only
        exact ⟨k, hk1, hk2, hk3⟩
      · dsimp only
        rw [hsub] at J5
        simpa [WySub.markedB, WySub.refusedB] using J5
      · dsimp only
        rw [hsub] at J7
        simp [WySub.markedB, WySub.trigN] at J7 ⊢
        split_ifs at J7 ⊢ <;> omega
      · dsimp only
        rw [hsub] at J8
        simpa [WySub.pushN] using J8
      · intro z2 p2 heq hp2
        dsimp only at heq
        injection heq with h1 h2
        rw [← h2] at hp2
        exact Bool.noConfusion hp2
      · intro z2 heq hz2
        dsimp only at heq
        injection heq with h1 h2
        rw [← h1] at hz2
        exact Bool.noConfusion hz2
      · intro p hp
        dsimp only at hp ⊢
        rcases J15 p hp with ⟨k2, h1, h2, h3, h4, h5⟩ | ⟨h1, h2, h3, h4⟩
        · exact Or.inl ⟨k2, h1, h2, h3, h4, h5⟩
        · exact Or.inr ⟨h1, h2, rfl, h4⟩
    | true =>
      dsimp only at hstep
      have hact0 : wyActive N s.child = 0 := by
        rw [hsub] at J7
        simp [WySub.markedB, WySub.trigN] at J7
        split_ifs at J7 with h
        exact h
      by_cases hw : s.winner = N
      · rw [if_pos hw] at hstep
        injection hstep with hstep
        subst hstep
        refine ⟨J1, J2, ?_, J4, ?_, J6, ?_, ?_, J9, J10, J11, ?_, J13, ?_, ?_⟩
        · unfold wyPrefix
          dsimp only
          exact ⟨k, hk1, hk2, hk3⟩
        · dsimp only
          rw [hsub] at J5
          simpa [WySub.markedB, WySub.refusedB] using J5
        · dsimp only
          rw [hsub] at J7
          simp [WySub.markedB, WySub.trigN] at J7 ⊢
          split_ifs at J7 ⊢ <;> omega
        · dsimp only
          rw [hsub] at J8
          simp [WySub.pushN] at J8 ⊢
          omega
        · intro z2 p2 heq hp2
          dsimp only at heq
          injection heq with h1 h2
          exact ⟨h1.symm, hw⟩
        · intro z2 heq hz2
          dsimp only at heq
          injection heq with h1 h2
          exact Bool.noConfusion h2
        · intro p hp
          dsimp only at hp ⊢
          rw [List.mem_append] at hp
          rcases hp with hp | hp
          · rcases J15 p hp with ⟨k2, h1, h2, h3, h4, h5⟩ | ⟨h1, h2, h3, h4⟩
            · exact Or.inl ⟨k2, h1, h2, h3, h4, h5⟩
            · exact Or.inr ⟨h1, h2, rfl, h4⟩
          · rw [List.mem_singleton] at hp
            subst hp
            exact Or.inr ⟨rfl, hw, rfl, hact0⟩
      · rw [if_neg hw] at hstep
        injection hstep with hstep
        subst hstep
        refine ⟨J1, J2, ?_, J4, ?_, J6, ?_, ?_, J9, J10, J11, ?_, J13, ?_, ?_⟩
        · unfold wyPrefix
          dsimp only
          exact ⟨k, hk1, hk2, hk3⟩
        · dsimp only
          rw [hsub] at J5
          simpa [WySub.markedB, WySub.refusedB] using J5
        · dsimp only
          rw [hsub] at J7
          simp [WySub.markedB, WySub.trigN] at J7 ⊢
          split_ifs at J7 ⊢ <;> omega
        · dsimp only
          rw [hsub] at J8
          simpa [WySub.pushN] using J8
        · intro z2 p2 heq hp2
          dsimp only at heq
          injection heq with h1 h2
          rw [← h2] at hp2
          exact Bool.noConfusion hp2
        · intro z2 heq hz2
          dsimp only at heq
          exact hw
        · intro p hp
          dsimp only at hp ⊢
          rcases J15 p hp with ⟨k2, h1, h2, h3, h4, h5⟩ | ⟨h1, h2, h3, h4⟩
          · exact Or.inl ⟨k2, h1, h2, h3, h4, h5⟩
          · exact Or.inr ⟨h1, h2, rfl, h4⟩

/-- Preservation of the when_any invariant by a `store i` event
(the move of child `i`'s result into its slot). -/
theorem wyStep_store_inv {V : Type} (N : Nat) (present : Nat → Bool)
    (r : Nat → FResult V) (s s2 : WyState) (i : Nat)
    (hstep : wyStep N present r s (.store i) = some s2)
    (hinv : WyInv N present r s) : WyInv N present r s2 := by
  obtain ⟨J1, J2, J3, J4, J5, J6, J7, J8, J9, J10, J11, J12, J13, J14, J15⟩ :=
    hinv
  unfold wyStep at hstep
  dsimp only at hstep
  by_cases hph : (s.child i).phase = .launched
  swap
  · rw [if_neg hph] at hstep
    exact Option.noConfusion hstep
  rw [if_pos hph] at hstep
  injection hstep with hstep
  subst hstep
  have hi : i < N := by
    by_contra h
    rw [J1 i (by omega)] at hph
    simp [wyChildInit] at hph
  have hACT := wyActive_update hi s.child
    { phase := WaPhase.stored, won := (s.child i).won,
      sawLast := (s.child i).sawLast, pushedAF := (s.child i).pushedAF }
  have hSL := wySawLast_update hi s.child
    { phase := WaPhase.stored, won := (s.child i).won,
      sawLast := (s.child i).sawLast, pushedAF := (s.child i).pushedAF }
  have hW := wyWon_update hi s.child
    { phase := WaPhase.stored, won := (s.child i).won,
      sawLast := (s.child i).sawLast, pushedAF := (s.child i).pushedAF }
  have hPAF := wyPushedAF_update hi s.child
    { phase := WaPhase.stored, won := (s.child i).won,
      sawLast := (s.child i).sawLast, pushedAF := (s.child i).pushedAF }
  have hL := wyLaunched_update hi s.child
    { phase := WaPhase.stored, won := (s.child i).won,
      sawLast := (s.child i).sawLast, pushedAF := (s.child i).pushedAF }
  simp [waActivePhase, hph] at hACT hSL hW hPAF hL
  have heqA : wyActive N (Function.update s.child i
      { phase := WaPhase.stored, won := (s.child i).won,
        sawLast := (s.child i).sawLast, pushedAF := (s.child i).pushedAF }) =
      wyActive N s.child := by omega
  have heqS : wySawLast N (Function.update s.child i
      { phase := WaPhase.stored, won := (s.child i).won,
        sawLast := (s.child i).sawLast, pushedAF := (s.child i).pushedAF }) =
      wySawLast N s.child := by omega
  have heqW : wyWonC N (Function.update s.child i
      { phase := WaPhase.stored, won := (s.child i).won,
        sawLast := (s.child i).sawLast, pushedAF := (s.child i).pushedAF }) =
      wyWonC N s.child := by omega
  have heqPAF : wyPushedAFC N (Function.update s.child i
      { phase := WaPhase.stored, won := (s.child i).won,
        sawLast := (s.child i).sawLast, pushedAF := (s.child i).pushedAF }) =
      wyPushedAFC N s.child := by omega
  have heqL : wyLaunched N (Function.update s.child i
      { phase := WaPhase.stored, won := (s.child i).won,
        sawLast := (s.child i).sawLast, pushedAF := (s.child i).pushedAF }) =
      wyLaunched N s.child := by omega
  refine ⟨?_, ?_, ?_, ?_, ?_, ?_, ?_, ?_, ?_, ?_, ?_, ?_, ?_, ?_, ?_⟩
  · intro j hj
    dsimp only
    rw [Function.update_noteq (by omega)]
    exact J1 j hj
  · intro j hj
    dsimp only
    rw [Function.update_apply]
    by_cases hji : j = i
    · simp [hji]
    · rw [if_neg hji]
      exact J2 j hj
  · apply wyPrefix_of_eq N present s
    · rfl
    · exact Or.inl rfl
    · intro j hj
      dsimp only
      rw [Function.update_apply]
      by_cases hji : j = i
      · subst hji
        rw [if_pos rfl, hph]
        simp
      · rw [if_neg hji]
    · exact J3
  · dsimp only
    rw [heqL]
    exact J4
  · dsimp only
    rw [heqA]
    exact J5
  · dsimp only
    apply wy_winner_congr N r s.winner s.child
    · intro j
      rw [Function.update_apply]
      by_cases hji : j = i
      · subst hji
        rw [if_pos rfl]
      · rw [if_neg hji]
    · intro j
      rw [Function.update_apply]
      by_cases hji : j = i
      · subst hji
        rw [if_pos rfl, hph]
        simp [waCasPast]
      · rw [if_neg hji]
    · exact J6
  · dsimp only
    rw [heqA, heqS]
    exact J7
  · dsimp only
    rw [heqW, heqPAF]
    exact J8
  · intro j hj hact
    dsimp only at hact ⊢
    rw [Function.update_apply] at hact ⊢
    by_cases hji : j = i
    · rw [if_pos hji] at hact ⊢
      simpa using J9 i hi (by simp [hph, waActivePhase])
    · rw [if_neg hji] at hact ⊢
      exact J9 j hj hact
  · intro j hj hph2
    dsimp only at hph2 ⊢
    rw [Function.update_apply] at hph2 ⊢
    by_cases hji : j = i
    · rw [if_pos hji]
      exact J10 i hi (Or.inr (Or.inl hph))
    · rw [if_neg hji] at hph2 ⊢
      exact J10 j hj hph2
  · intro j hj hpaf
    dsimp only at hpaf ⊢
    rw [Function.update_apply] at hpaf
    by_cases hji : j = i
    · rw [if_pos hji] at hpaf
      simp at hpaf
      obtain ⟨_, _, hfin, _⟩ := J11 i hi hpaf
      rw [hph] at hfin
      exact WaPhase.noConfusion hfin
    · rw [if_neg hji] at hpaf
      obtain ⟨a1, a2, a3, a4⟩ := J11 j hj hpaf
      rw [Function.update_apply, if_neg hji]
      exact ⟨a1, a2, a3, a4⟩
  · intro z p heq hp
    dsimp only at heq ⊢
    exact J12 z p heq hp
  · intro j hj hfin hsl hwon hwN
    dsimp only at hfin hsl hwon hwN ⊢
    rw [Function.update_apply] at hfin hsl hwon ⊢
    by_cases hji : j = i
    · rw [if_pos hji] at hfin
      simp at hfin
    · rw [if_neg hji] at hfin hsl hwon ⊢
      exact J13 j hj hfin hsl hwon hwN
  · intro z heq hz
    dsimp only at heq ⊢
    exact J14 z heq hz
  · intro p hp
    dsimp only at hp ⊢
    rcases J15 p hp with ⟨k, h1, h2, h3, h4, h5⟩ | ⟨h1, h2, h3, h4⟩
    · exact Or.inl ⟨k, h1, h2, h3, h4, h5⟩
    · exact Or.inr ⟨h1, h2, h3, heqA.trans h4⟩

/-- Preservation of the when_any invariant by a `cas i` event (a value
slot attempts the `winner : N -> i` CAS; the unique success resumes the
parent with the winning delegate). -/
theorem wyStep_cas_inv {V : Type} (N : Nat) (present : Nat → Bool)
    (r : Nat → FResult V) (s s2 : WyState) (i : Nat)
    (hstep : wyStep N present r s (.cas i) = some s2)
    (hinv : WyInv N present r s) : WyInv N present r s2 := by
  obtain ⟨J1, J2, J3, J4, J5, J6, J7, J8, J9, J10, J11, J12, J13, J14, J15⟩ :=
    hinv
  unfold wyStep at hstep
  dsimp only at hstep
  by_cases hph : (s.child i).phase = .stored
  swap
  · rw [if_neg hph] at hstep
    exact Option.noConfusion hstep
  rw [if_pos hph] at hstep
  have hi : i < N := by
    by_contra h
    rw [J1 i (by omega)] at hph
    simp [wyChildInit] at hph
  have hwonfi : (s.child i).won = false := J10 i hi (Or.inr (Or.inr hph))
  have hact1 : 0 < wyActive N s.child := by
    apply Finset.card_pos.mpr
    refine ⟨i, ?_⟩
    simp [Finset.mem_filter, Finset.mem_range, hi, hph, waActivePhase]
  have hnopaf : ∀ j, j < N → (s.child j).pushedAF = false := by
    intro j hj
    cases hpafj : (s.child j).pushedAF
    · rfl
    · obtain ⟨hslj, _, _, _⟩ := J11 j hj hpafj
      have hpos : 0 < wySawLast N s.child := by
        apply Finset.card_pos.mpr
        exact ⟨j, by simp [Finset.mem_filter, Finset.mem_range, hj, hslj]⟩
      rw [show (if s.sub.markedB = true ∧ wyActive N s.child = 0 then 1 else 0)
          = 0 from by
        rw [if_neg]
        intro hcon
        omega] at J7
      omega
  by_cases hc : (r i).isValue ∧ s.winner = N
  · rw [if_pos hc] at hstep
    injection hstep with hstep
    subst hstep
    have hACT := wyActive_update hi s.child
      { phase := WaPhase.casDone, won := true,
        sawLast := (s.child i).sawLast, pushedAF := (s.child i).pushedAF }
    have hSL := wySawLast_update hi s.child
      { phase := WaPhase.casDone, won := true,
        sawLast := (s.child i).sawLast, pushedAF := (s.child i).pushedAF }
    have hW := wyWon_update hi s.child
      { phase := WaPhase.casDone, won := true,
        sawLast := (s.child i).sawLast, pushedAF := (s.child i).pushedAF }
    have hPAF := wyPushedAF_update hi s.child
      { phase := WaPhase.casDone, won := true,
        sawLast := (s.child i).sawLast, pushedAF := (s.child i).pushedAF }
    have hL := wyLaunched_update hi s.child
      { phase := WaPhase.casDone, won := true,
        sawLast := (s.child i).sawLast, pushedAF := (s.child i).pushedAF }
    simp [waActivePhase, hph, hwonfi] at hACT hSL hW hPAF hL
    have heqA : wyActive N (Function.update s.child i
        { phase := WaPhase.casDone, won := true,
          sawLast := (s.child i).sawLast, pushedAF := (s.child i).pushedAF }) =
        wyActive N s.child := by omega
    have heqS : wySawLast N (Function.update s.child i
        { phase := WaPhase.casDone, won := true,
          sawLast := (s.child i).sawLast, pushedAF := (s.child i).pushedAF }) =
        wySawLast N s.child := by omega
    have heqW : wyWonC N (Function.update s.child i
        { phase := WaPhase.casDone, won := true,
          sawLast := (s.child i).sawLast, pushedAF := (s.child i).pushedAF }) =
        wyWonC N s.child + 1 := by omega
    have heqPAF : wyPushedAFC N (Function.update s.child i
        { phase := WaPhase.casDone, won := true,
          sawLast := (s.child i).sawLast, pushedAF := (s.child i).pushedAF }) =
        wyPushedAFC N s.child := by omega
    have heqL : wyLaunched N (Function.update s.child i
        { phase := WaPhase.casDone, won := true,
          sawLast := (s.child i).sawLast, pushedAF := (s.child i).pushedAF }) =
        wyLaunched N s.child := by omega
    refine ⟨?_, ?_, ?_, ?_, ?_, ?_, ?_, ?_, ?_, ?_, ?_, ?_, ?_, ?_, ?_⟩
    · intro j hj
      dsimp only
      rw [Function.update_noteq (by omega)]
      exact J1 j hj
    · intro j hj
      dsimp only
      rw [Function.update_apply]
      by_cases hji : j = i
      · simp [hji]
      · rw [if_neg hji]
        exact J2 j hj
    · apply wyPrefix_of_eq N present s
      · rfl
      · refine Or.inr ?_
        intro h
        dsimp only at h
        omega
      · intro j hj
        dsimp only
        rw [Function.update_apply]
        by_cases hji : j = i
        · subst hji
          rw [if_pos rfl, hph]
          simp
        · rw [if_neg hji]
      · exact J3
    · dsimp only
      rw [heqL]
      exact J4
    · dsimp only
      rw [heqA]
      exact J5
    · dsimp only
      rcases J6 with ⟨hwN, hnw, herr⟩ | ⟨h1, h2, h3, h4, h5⟩
      · refine Or.inr ⟨hi, ?_, hc.1, ?_, ?_⟩
        · rw [Function.update_apply, if_pos rfl]
        · rw [Function.update_apply, if_pos rfl]
          simp [waCasPast]
        · intro j hj hji
          rw [Function.update_apply, if_neg hji]
          exact hnw j hj
      · exact absurd hc.2 (by omega)
    · dsimp only
      rw [heqA, heqS]
      exact J7
    · dsimp only
      rw [heqW, heqPAF]
      simp only [List.length_append, List.length_singleton]
      omega
    · intro j hj hact
      dsimp only at hact ⊢
      rw [Function.update_apply] at hact ⊢
      by_cases hji : j = i
      · rw [if_pos hji] at hact ⊢
        simpa using J9 i hi (by simp [hph, waActivePhase])
      · rw [if_neg hji] at hact ⊢
        exact J9 j hj hact
    · intro j hj hph2
      dsimp only at hph2 ⊢
      rw [Function.update_apply] at hph2 ⊢
      by_cases hji : j = i
      · rw [if_pos hji] at hph2
        rcases hph2 with h | h | h <;> simp at h
      · rw [if_neg hji] at hph2 ⊢
        exact J10 j hj hph2
    · intro j hj hpaf
      dsimp only at hpaf ⊢
      rw [Function.update_apply] at hpaf
      by_cases hji : j = i
      · rw [if_pos hji] at hpaf
        simp [hnopaf i hi] at hpaf
      · rw [if_neg hji] at hpaf
        rw [hnopaf j hj] at hpaf
        exact Bool.noConfusion hpaf
    · intro z p heq hp
      dsimp only at heq ⊢
      exfalso
      have hz := (J12 z p heq hp).1
      rw [heq, hz] at J7
      simp [WySub.markedB, WySub.trigN] at J7
      split_ifs at J7 with h
      omega
    · intro j hj hfin hsl hwon hwN
      dsimp only at hwN
      omega
    · intro z heq hz
      dsimp only
      omega
    · intro p hp
      dsimp only at hp ⊢
      rw [List.mem_append] at hp
      rcases hp with hp | hp
      · exfalso
        rcases J15 p hp with ⟨k, h1, h2, h3, h4, h5⟩ | ⟨h1, h2, h3, h4⟩
        · rw [hc.2] at h5
          omega
        · omega
      · rw [List.mem_singleton] at hp
        subst hp
        refine Or.inl ⟨i, rfl, hi, ?_, hc.1, rfl⟩
        exact wyPresent_of_launched N present s J3 i hi (by rw [hph]; simp)
  · rw [if_neg hc] at hstep
    injection hstep with hstep
    subst hstep
    have hACT := wyActive_update hi s.child
      { phase := WaPhase.casDone, won := (s.child i).won,
        sawLast := (s.child i).sawLast, pushedAF := (s.child i).pushedAF }
    have hSL := wySawLast_update hi s.child
      { phase := WaPhase.casDone, won := (s.child i).won,
        sawLast := (s.child i).sawLast, pushedAF := (s.child i).pushedAF }
    have hW := wyWon_update hi s.child
      { phase := WaPhase.casDone, won := (s.child i).won,
        sawLast := (s.child i).sawLast, pushedAF := (s.child i).pushedAF }
    have hPAF := wyPushedAF_update hi s.child
      { phase := WaPhase.casDone, won := (s.child i).won,
        sawLast := (s.child i).sawLast, pushedAF := (s.child i).pushedAF }
    have hL := wyLaunched_update hi s.child
      { phase := WaPhase.casDone, won := (s.child i).won,
        sawLast := (s.child i).sawLast, pushedAF := (s.child i).pushedAF }
    simp [waActivePhase, hph] at hACT hSL hW hPAF hL
    have heqA : wyActive N (Function.update s.child i
        { phase := WaPhase.casDone, won := (s.child i).won,
          sawLast := (s.child i).sawLast, pushedAF := (s.child i).pushedAF }) =
        wyActive N s.child := by omega
    have heqS : wySawLast N (Function.update s.child i
        { phase := WaPhase.casDone, won := (s.child i).won,
          sawLast := (s.child i).sawLast, pushedAF := (s.child i).pushedAF }) =
        wySawLast N s.child := by omega
    have heqW : wyWonC N (Function.update s.child i
        { phase := WaPhase.casDone, won := (s.child i).won,
          sawLast := (s.child i).sawLast, pushedAF := (s.child i).pushedAF }) =
        wyWonC N s.child := by omega
    have heqPAF : wyPushedAFC N (Function.update s.child i
        { phase := WaPhase.casDone, won := (s.child i).won,
          sawLast := (s.child i).sawLast, pushedAF := (s.child i).pushedAF }) =
        wyPushedAFC N s.child := by omega
    have heqL : wyLaunched N (Function.update s.child i
        { phase := WaPhase.casDone, won := (s.child i).won,
          sawLast := (s.child i).sawLast, pushedAF := (s.child i).pushedAF }) =
        wyLaunched N s.child := by omega
    refine ⟨?_, ?_, ?_, ?_, ?_, ?_, ?_, ?_, ?_, ?_, ?_, ?_, ?_, ?_, ?_⟩
    · intro j hj
      dsimp only
      rw [Function.update_noteq (by omega)]
      exact J1 j hj
    · intro j hj
      dsimp only
      rw [Function.update_apply]
      by_cases hji : j = i
      · simp [hji]
      · rw [if_neg hji]
        exact J2 j hj
    · apply wyPrefix_of_eq N present s
      · rfl
      · exact Or.inl rfl
      · intro j hj
        dsimp only
        rw [Function.update_apply]
        by_cases hji : j = i
        · subst hji
          rw [if_pos rfl, hph]
          simp
        · rw [if_neg hji]
      · exact J3
    · dsimp only
      rw [heqL]
      exact J4
    · dsimp only
      rw [heqA]
      exact J5
    · dsimp only
      rcases J6 with ⟨hwN, hnw, herr⟩ | ⟨h1, h2, h3, h4, h5⟩
      · refine Or.inl ⟨hwN, ?_, ?_⟩
        · intro j hj
          rw [Function.update_apply]
          by_cases hji : j = i
          · subst hji
            rw [if_pos rfl]
            exact hwonfi
          · rw [if_neg hji]
            exact hnw j hj
        · intro j hj hcp
          rw [Function.update_apply] at hcp
          by_cases hji : j = i
          · subst hji
            have hnv : ¬(r j).isValue := by
              intro hv
              exact hc ⟨hv, hwN⟩
            cases hr : r j <;> simp [hr, FResult.isValue, FResult.isError] at hnv ⊢
          · rw [if_neg hji] at hcp
            exact herr j hj hcp
      · have hwi : s.winner ≠ i := by
          intro he
          rw [he] at h2
          rw [hwonfi] at h2
          exact Bool.noConfusion h2
        refine Or.inr ⟨h1, ?_, h3, ?_, ?_⟩
        · rw [Function.update_apply, if_neg hwi]
          exact h2
        · rw [Function.update_apply, if_neg hwi]
          exact h4
        · intro j hj hjw
          rw [Function.update_apply]
          by_cases hji : j = i
          · subst hji
            rw [if_pos rfl]
            exact hwonfi
          · rw [if_neg hji]
            exact h5 j hj hjw
    · dsimp only
      rw [heqA, heqS]
      exact J7
    · dsimp only
      rw [heqW, heqPAF]
      exact J8
    · intro j hj hact
      dsimp only at hact ⊢
      rw [Function.update_apply] at hact ⊢
      by_cases hji : j = i
      · rw [if_pos hji] at hact ⊢
        simpa using J9 i hi (by simp [hph, waActivePhase])
      · rw [if_neg hji] at hact ⊢
        exact J9 j hj hact
    · intro j hj hph2
      dsimp only at hph2 ⊢
      rw [Function.update_apply] at hph2 ⊢
      by_cases hji : j = i
      · rw [if_pos hji] at hph2
        rcases hph2 with h | h | h <;> simp at h
      · rw [if_neg hji] at hph2 ⊢
        exact J10 j hj hph2
    · intro j hj hpaf
      dsimp only at hpaf ⊢
      rw [Function.update_apply] at hpaf
      by_cases hji : j = i
      · rw [if_pos hji] at hpaf
        simp [hnopaf i hi] at hpaf
      · rw [if_neg hji] at hpaf
        rw [hnopaf j hj] at hpaf
        exact Bool.noConfusion hpaf
    · intro z p heq hp
      dsimp only at heq ⊢
      exact J12 z p heq hp
    · intro j hj hfin hsl hwon hwN
      dsimp only at hfin hsl hwon hwN ⊢
      rw [Function.update_apply] at hfin hsl hwon ⊢
      by_cases hji : j = i
      · rw [if_pos hji] at hfin
        simp at hfin
      · rw [if_neg hji] at hfin hsl hwon ⊢
        exact J13 j hj hfin hsl hwon hwN
    · intro z heq hz
      dsimp only at heq ⊢
      exact J14 z heq hz
    · intro p hp
      dsimp only at hp ⊢
      rcases J15 p hp with ⟨k, h1, h2, h3, h4, h5⟩ | ⟨h1, h2, h3, h4⟩
      · exact Or.inl ⟨k, h1, h2, h3, h4, h5⟩
      · exact Or.inr ⟨h1, h2, h3, heqA.trans h4⟩

/-- Preservation of the when_any invariant by a `dec i` event
(child `i`'s `fired.fetch_sub(epoch)`, remembering whether it saw 6). -/
theorem wyStep_dec_inv {V : Type} (N : Nat) (present : Nat → Bool)
    (r : Nat → FResult V) (s s2 : WyState) (i : Nat)
    (hstep : wyStep N present r s (.dec i) = some s2)
    (hinv : WyInv N present r s) : WyInv N present r s2 := by
  obtain ⟨J1, J2, J3, J4, J5, J6, J7, J8, J9, J10, J11, J12, J13, J14, J15⟩ :=
    hinv
  unfold wyStep at hstep
  dsimp only at hstep
  by_cases hph : (s.child i).phase = .casDone
  swap
  · rw [if_neg hph] at hstep
    exact Option.noConfusion hstep
  rw [if_pos hph] at hstep
  injection hstep with hstep
  subst hstep
  have hi : i < N := by
    by_contra h
    rw [J1 i (by omega)] at hph
    simp [wyChildInit] at hph
  have h9 := J9 i hi (by simp [hph, waActivePhase])
  have hact1 : 0 < wyActive N s.child := by
    apply Finset.card_pos.mpr
    exact ⟨i, by simp [Finset.mem_filter, Finset.mem_range, hi, hph, waActivePhase]⟩
  have hACT := wyActive_update hi s.child
    { phase := WaPhase.decDone, won := (s.child i).won,
      sawLast := decide (s.fired = 6), pushedAF := (s.child i).pushedAF }
  have hSL := wySawLast_update hi s.child
    { phase := WaPhase.decDone, won := (s.child i).won,
      sawLast := decide (s.fired = 6), pushedAF := (s.child i).pushedAF }
  have hW := wyWon_update hi s.child
    { phase := WaPhase.decDone, won := (s.child i).won,
      sawLast := decide (s.fired = 6), pushedAF := (s.child i).pushedAF }
  have hPAF := wyPushedAF_update hi s.child
    { phase := WaPhase.decDone, won := (s.child i).won,
      sawLast := decide (s.fired = 6), pushedAF := (s.child i).pushedAF }
  have hL := wyLaunched_update hi s.child
    { phase := WaPhase.decDone, won := (s.child i).won,
      sawLast := decide (s.fired = 6), pushedAF := (s.child i).pushedAF }
  simp [waActivePhase, hph, h9.1] at hACT hSL hW hPAF hL
  have heqW : wyWonC N (Function.update s.child i
      { phase := WaPhase.decDone, won := (s.child i).won,
        sawLast := decide (s.fired = 6), pushedAF := (s.child i).pushedAF }) =
      wyWonC N s.child := by omega
  have heqPAF : wyPushedAFC N (Function.update s.child i
      { phase := WaPhase.decDone, won := (s.child i).won,
        sawLast := decide (s.fired = 6), pushedAF := (s.child i).pushedAF }) =
      wyPushedAFC N s.child := by omega
  have heqL : wyLaunched N (Function.update s.child i
      { phase := WaPhase.decDone, won := (s.child i).won,
        sawLast := decide (s.fired = 6), pushedAF := (s.child i).pushedAF }) =
      wyLaunched N s.child := by omega
  refine ⟨?_, ?_, ?_, ?_, ?_, ?_, ?_, ?_, ?_, ?_, ?_, ?_, ?_, ?_, ?_⟩
  · intro j hj
    dsimp only
    rw [Function.update_noteq (by omega)]
    exact J1 j hj
  · intro j hj
    dsimp only
    rw [Function.update_apply]
    by_cases hji : j = i
    · simp [hji]
    · rw [if_neg hji]
      exact J2 j hj
  · apply wyPrefix_of_eq N present s
    · rfl
    · exact Or.inl rfl
    · intro j hj
      dsimp only
      rw [Function.update_apply]
      by_cases hji : j = i
      · subst hji
        rw [if_pos rfl, hph]
        simp
      · rw [if_neg hji]
    · exact J3
  · dsimp only
    rw [heqL]
    exact J4
  · dsimp only
    cases hmk : s.sub.markedB <;> simp [hmk] at J5 ⊢ <;> omega
  · dsimp only
    apply wy_winner_congr N r s.winner s.child
    · intro j
      rw [Function.update_apply]
      by_cases hji : j = i
      · subst hji
        rw [if_pos rfl]
      · rw [if_neg hji]
    · intro j
      rw [Function.update_apply]
      by_cases hji : j = i
      · subst hji
        rw [if_pos rfl, hph]
        simp [waCasPast]
      · rw [if_neg hji]
    · exact J6
  · dsimp only
    apply wy_trig_arith s.sub.markedB (wySawLast N s.child) _
      (wyActive N s.child) _ s.fired s.sub.trigN
      (if s.sub.refusedB = true then 1 else 0)
    · split_ifs <;> omega
    · intro hmk
      cases hs2 : s.sub <;> simp [hs2, WySub.markedB, WySub.refusedB] at hmk ⊢
    · exact J5
    · exact J7
    · omega
    · omega
  · dsimp only
    rw [heqW, heqPAF]
    exact J8
  · intro j hj hact
    dsimp only at hact ⊢
    rw [Function.update_apply] at hact ⊢
    by_cases hji : j = i
    · rw [if_pos hji] at hact
      simp [waActivePhase] at hact
    · rw [if_neg hji] at hact ⊢
      exact J9 j hj hact
  · intro j hj hph2
    dsimp only at hph2 ⊢
    rw [Function.update_apply] at hph2 ⊢
    by_cases hji : j = i
    · rw [if_pos hji] at hph2
      rcases hph2 with h | h | h <;> simp at h
    · rw [if_neg hji] at hph2 ⊢
      exact J10 j hj hph2
  · intro j hj hpaf
    dsimp only at hpaf ⊢
    rw [Function.update_apply] at hpaf
    by_cases hji : j = i
    · rw [if_pos hji] at hpaf
      simp [h9.2] at hpaf
    · rw [if_neg hji] at hpaf
      obtain ⟨a1, a2, a3, a4⟩ := J11 j hj hpaf
      rw [Function.update_apply, if_neg hji]
      exact ⟨a1, a2, a3, a4⟩
  · intro z p heq hp
    dsimp only at heq ⊢
    exact J12 z p heq hp
  · intro j hj hfin hsl hwon hwN
    dsimp only at hfin hsl hwon hwN ⊢
    rw [Function.update_apply] at hfin hsl hwon ⊢
    by_cases hji : j = i
    · rw [if_pos hji] at hfin
      simp at hfin
    · rw [if_neg hji] at hfin hsl hwon ⊢
      exact J13 j hj hfin hsl hwon hwN
  · intro z heq hz
    dsimp only at heq ⊢
    exact J14 z heq hz
  · intro p hp
    dsimp only at hp ⊢
    rcases J15 p hp with ⟨k, h1, h2, h3, h4, h5⟩ | ⟨h1, h2, h3, h4⟩
    · exact Or.inl ⟨k, h1, h2, h3, h4, h5⟩
    · exfalso
      omega

/-- Preservation of the when_any invariant by a `lastResume i` event (the
decrementing child that saw 6 resumes the parent with
`async_all_failed_error` only if it did not win and no winner is
elected). -/
theorem wyStep_lastResume_inv {V : Type} (N : Nat) (present : Nat → Bool)
    (r : Nat → FResult V) (s s2 : WyState) (i : Nat)
    (hstep : wyStep N present r s (.lastResume i) = some s2)
    (hinv : WyInv N present r s) : WyInv N present r s2 := by
  obtain ⟨J1, J2, J3, J4, J5, J6, J7, J8, J9, J10, J11, J12, J13, J14, J15⟩ :=
    hinv
  unfold wyStep at hstep
  dsimp only at hstep
  by_cases hph : (s.child i).phase = .decDone
  swap
  · rw [if_neg hph] at hstep
    exact Option.noConfusion hstep
  rw [if_pos hph] at hstep
  have hi : i < N := by
    by_contra h
    rw [J1 i (by omega)] at hph
    simp [wyChildInit] at hph
  have hpaf0 : (s.child i).pushedAF = false := by
    cases hpafi : (s.child i).pushedAF
    · rfl
    · obtain ⟨_, _, hfin, _⟩ := J11 i hi hpafi
      rw [hph] at hfin
      exact WaPhase.noConfusion hfin
  by_cases hcond : (s.child i).sawLast ∧ ¬(s.child i).won ∧ s.winner = N
  · rw [if_pos hcond] at hstep
    injection hstep with hstep
    subst hstep
    obtain ⟨hsl, hnw, hw⟩ := hcond
    have hwon : (s.child i).won = false := by
      cases h : (s.child i).won
      · rfl
      · exact absurd h hnw
    have hpos : 0 < wySawLast N s.child := by
      apply Finset.card_pos.mpr
      exact ⟨i, by simp [Finset.mem_filter, Finset.mem_range, hi, hsl]⟩
    have hmkact : s.sub.markedB = true ∧ wyActive N s.child = 0 := by
      by_cases h : s.sub.markedB = true ∧ wyActive N s.child = 0
      · exact h
      · rw [if_neg h] at J7
        omega
    have hACT := wyActive_update hi s.child
      { phase := WaPhase.finished, won := (s.child i).won,
        sawLast := (s.child i).sawLast, pushedAF := true }
    have hSL := wySawLast_update hi s.child
      { phase := WaPhase.finished, won := (s.child i).won,
        sawLast := (s.child i).sawLast, pushedAF := true }
    have hW := wyWon_update hi s.child
      { phase := WaPhase.finished, won := (s.child i).won,
        sawLast := (s.child i).sawLast, pushedAF := true }
    have hPAF := wyPushedAF_update hi s.child
      { phase := WaPhase.finished, won := (s.child i).won,
        sawLast := (s.child i).sawLast, pushedAF := true }
    have hL := wyLaunched_update hi s.child
      { phase := WaPhase.finished, won := (s.child i).won,
        sawLast := (s.child i).sawLast, pushedAF := true }
    simp [waActivePhase, hph, hpaf0] at hACT hSL hW hPAF hL
    have heqA : wyActive N (Function.update s.child i
        { phase := WaPhase.finished, won := (s.child i).won,
          sawLast := (s.child i).sawLast, pushedAF := true }) =
        wyActive N s.child := by omega
    have heqS : wySawLast N (Function.update s.child i
        { phase := WaPhase.finished, won := (s.child i).won,
          sawLast := (s.child i).sawLast, pushedAF := true }) =
        wySawLast N s.child := by omega
    have heqW : wyWonC N (Function.update s.child i
        { phase := WaPhase.finished, won := (s.child i).won,
          sawLast := (s.child i).sawLast, pushedAF := true }) =
        wyWonC N s.child := by omega
    have heqPAF : wyPushedAFC N (Function.update s.child i
        { phase := WaPhase.finished, won := (s.child i).won,
          sawLast := (s.child i).sawLast, pushedAF := true }) =
        wyPushedAFC N s.child + 1 := by omega
    have heqL : wyLaunched N (Function.update s.child i
        { phase := WaPhase.finished, won := (s.child i).won,
          sawLast := (s.child i).sawLast, pushedAF := true }) =
        wyLaunched N s.child := by omega
    refine ⟨?_, ?_, ?_, ?_, ?_, ?_, ?_, ?_, ?_, ?_, ?_, ?_, ?_, ?_, ?_⟩
    · intro j hj
      dsimp only
      rw [Function.update_noteq (by omega)]
      exact J1 j hj
    · intro j hj
      dsimp only
      rw [Function.update_apply]
      by_cases hji : j = i
      · simp [hji]
      · rw [if_neg hji]
        exact J2 j hj
    · apply wyPrefix_of_eq N present s
      · rfl
      · exact Or.inl rfl
      · intro j hj
        dsimp only
        rw [Function.update_apply]
        by_cases hji : j = i
        · subst hji
          rw [if_pos rfl, hph]
          simp
        · rw [if_neg hji]
      · exact J3
    · dsimp only
      rw [heqL]
      exact J4
    · dsimp only
      rw [heqA]
      exact J5
    · dsimp only
      apply wy_winner_congr N r s.winner s.child
      · intro j
        rw [Function.update_apply]
        by_cases hji : j = i
        · subst hji
          rw [if_pos rfl]
        · rw [if_neg hji]
      · intro j
        rw [Function.update_apply]
        by_cases hji : j = i
        · subst hji
          rw [if_pos rfl, hph]
          simp [waCasPast]
        · rw [if_neg hji]
      · exact J6
    · dsimp only
      rw [heqA, heqS]
      exact J7
    · dsimp only
      rw [heqW, heqPAF]
      simp only [List.length_append, List.length_singleton]
      omega
    · intro j hj hact
      dsimp only at hact ⊢
      rw [Function.update_apply] at hact ⊢
      by_cases hji : j = i
      · rw [if_pos hji] at hact
        simp [waActivePhase] at hact
      · rw [if_neg hji] at hact ⊢
        exact J9 j hj hact
    · intro j hj hph2
      dsimp only at hph2 ⊢
      rw [Function.update_apply] at hph2 ⊢
      by_cases hji : j = i
      · rw [if_pos hji] at hph2
        rcases hph2 with h | h | h <;> simp at h
      · rw [if_neg hji] at hph2 ⊢
        exact J10 j hj hph2
    · intro j hj hpaf
      dsimp only at hpaf ⊢
      rw [Function.update_apply] at hpaf ⊢
      by_cases hji : j = i
      · rw [if_pos hji] at hpaf ⊢
        refine ⟨hji ▸ hsl, hji ▸ hwon, rfl, hw⟩
      · rw [if_neg hji] at hpaf ⊢
        obtain ⟨a1, a2, a3, a4⟩ := J11 j hj hpaf
        exact ⟨a1, a2, a3, a4⟩
    · intro z p heq hp
      dsimp only at heq ⊢
      exact J12 z p heq hp
    · intro j hj hfin hsl2 hwon2 hwN
      dsimp only at hfin hsl2 hwon2 hwN ⊢
      rw [Function.update_apply] at hfin hsl2 hwon2 ⊢
      by_cases hji : j = i
      · rw [if_pos hji]
      · rw [if_neg hji] at hfin hsl2 hwon2 ⊢
        exact J13 j hj hfin hsl2 hwon2 hwN
    · intro z heq hz
      dsimp only at heq ⊢
      exact J14 z heq hz
    · intro p hp
      dsimp only at hp ⊢
      rw [List.mem_append] at hp
      rcases hp with hp | hp
      · rcases J15 p hp with ⟨k, h1, h2, h3, h4, h5⟩ | ⟨h1, h2, h3, h4⟩
        · exfalso
          rw [hw] at h5
          omega
        · exact Or.inr ⟨h1, h2, h3, heqA.trans h4⟩
      · rw [List.mem_singleton] at hp
        subst hp
        exact Or.inr ⟨rfl, hw, hmkact.1, heqA.trans hmkact.2⟩
  · rw [if_neg hcond] at hstep
    injection hstep with hstep
    subst hstep
    have hACT := wyActive_update hi s.child
      { phase := WaPhase.finished, won := (s.child i).won,
        sawLast := (s.child i).sawLast, pushedAF := (s.child i).pushedAF }
    have hSL := wySawLast_update hi s.child
      { phase := WaPhase.finished, won := (s.child i).won,
        sawLast := (s.child i).sawLast, pushedAF := (s.child i).pushedAF }
    have hW := wyWon_update hi s.child
      { phase := WaPhase.finished, won := (s.child i).won,
        sawLast := (s.child i).sawLast, pushedAF := (s.child i).pushedAF }
    have hPAF := wyPushedAF_update hi s.child
      { phase := WaPhase.finished, won := (s.child i).won,
        sawLast := (s.child i).sawLast, pushedAF := (s.child i).pushedAF }
    have hL := wyLaunched_update hi s.child
      { phase := WaPhase.finished, won := (s.child i).won,
        sawLast := (s.child i).sawLast, pushedAF := (s.child i).pushedAF }
    simp [waActivePhase, hph] at hACT hSL hW hPAF hL
    have heqA : wyActive N (Function.update s.child i
        { phase := WaPhase.finished, won := (s.child i).won,
          sawLast := (s.child i).sawLast, pushedAF := (s.child i).pushedAF }) =
        wyActive N s.child := by omega
    have heqS : wySawLast N (Function.update s.child i
        { phase := WaPhase.finished, won := (s.child i).won,
          sawLast := (s.child i).sawLast, pushedAF := (s.child i).pushedAF }) =
        wySawLast N s.child := by omega
    have heqW : wyWonC N (Function.update s.child i
        { phase := WaPhase.finished, won := (s.child i).won,
          sawLast := (s.child i).sawLast, pushedAF := (s.child i).pushedAF }) =
        wyWonC N s.child := by omega
    have heqPAF : wyPushedAFC N (Function.update s.child i
        { phase := WaPhase.finished, won := (s.child i).won,
          sawLast := (s.child i).sawLast, pushedAF := (s.child i).pushedAF }) =
        wyPushedAFC N s.child := by omega
    have heqL : wyLaunched N (Function.update s.child i
        { phase := WaPhase.finished, won := (s.child i).won,
          sawLast := (s.child i).sawLast, pushedAF := (s.child i).pushedAF }) =
        wyLaunched N s.child := by omega
    refine ⟨?_, ?_, ?_, ?_, ?_, ?_, ?_, ?_, ?_, ?_, ?_, ?_, ?_, ?_, ?_⟩
    · intro j hj
      dsimp only
      rw [Function.update_noteq (by omega)]
      exact J1 j hj
    · intro j hj
      dsimp only
      rw [Function.update_apply]
      by_cases hji : j = i
      · simp [hji]
      · rw [if_neg hji]
        exact J2 j hj
    · apply wyPrefix_of_eq N present s
      · rfl
      · exact Or.inl rfl
      · intro j hj
        dsimp only
        rw [Function.update_apply]
        by_cases hji : j = i
        · subst hji
          rw [if_pos rfl, hph]
          simp
        · rw [if_neg hji]
      · exact J3
    · dsimp only
      rw [heqL]
      exact J4
    · dsimp only
      rw [heqA]
      exact J5
    · dsimp only
      apply wy_winner_congr N r s.winner s.child
      · intro j
        rw [Function.update_apply]
        by_cases hji : j = i
        · subst hji
          rw [if_pos rfl]
        · rw [if_neg hji]
      · intro j
        rw [Function.update_apply]
        by_cases hji : j = i
        · subst hji
          rw [if_pos rfl, hph]
          simp [waCasPast]
        · rw [if_neg hji]
      · exact J6
    · dsimp only
      rw [heqA, heqS]
      exact J7
    · dsimp only
      rw [heqW, heqPAF]
      exact J8
    · intro j hj hact
      dsimp only at hact ⊢
      rw [Function.update_apply] at hact ⊢
      by_cases hji : j = i
      · rw [if_pos hji] at hact
        simp [waActivePhase] at hact
      · rw [if_neg hji] at hact ⊢
        exact J9 j hj hact
    · intro j hj hph2
      dsimp only at hph2 ⊢
      rw [Function.update_apply] at hph2 ⊢
      by_cases hji : j = i
      · rw [if_pos hji] at hph2
        rcases hph2 with h | h | h <;> simp at h
      · rw [if_neg hji] at hph2 ⊢
        exact J10 j hj hph2
    · intro j hj hpaf
      dsimp only at hpaf ⊢
      rw [Function.update_apply] at hpaf
      by_cases hji : j = i
      · rw [if_pos hji] at hpaf
        simp [hpaf0] at hpaf
      · rw [if_neg hji] at hpaf
        obtain ⟨a1, a2, a3, a4⟩ := J11 j hj hpaf
        rw [Function.update_apply, if_neg hji]
        exact ⟨a1, a2, a3, a4⟩
    · intro z p heq hp
      dsimp only at heq ⊢
      exact J12 z p heq hp
    · intro j hj hfin hsl2 hwon2 hwN
      dsimp only at hfin hsl2 hwon2 hwN ⊢
      rw [Function.update_apply] at hfin hsl2 hwon2 ⊢
      by_cases hji : j = i
      · rw [if_pos hji] at hsl2 hwon2
        simp at hsl2 hwon2
        exact absurd ⟨hsl2, by simp [hwon2], hwN⟩ hcond
      · rw [if_neg hji] at hfin hsl2 hwon2 ⊢
        exact J13 j hj hfin hsl2 hwon2 hwN
    · intro z heq hz
      dsimp only at heq ⊢
      exact J14 z heq hz
    · intro p hp
      dsimp only at hp ⊢
      rcases J15 p hp with ⟨k, h1, h2, h3, h4, h5⟩ | ⟨h1, h2, h3, h4⟩
      · exact Or.inl ⟨k, h1, h2, h3, h4, h5⟩
      · exact Or.inr ⟨h1, h2, h3, heqA.trans h4⟩

/-- Preservation of the when_any invariant by any single event. -/
theorem wyStep_inv_all {V : Type} (N : Nat) (present : Nat → Bool)
    (r : Nat → FResult V) (s s2 : WyState) (e : WyEvent)
    (hstep : wyStep N present r s e = some s2)
    (hinv : WyInv N present r s) : WyInv N present r s2 := by
  cases e with
  | launch => exact wyStep_launch_inv N present r s s2 hstep hinv
  | readWinner => exact wyStep_readWinner_inv N present r s s2 hstep hinv
  | loopDone => exact wyStep_loopDone_inv N present r s s2 hstep hinv
  | refuse => exact wyStep_refuse_inv N present r s s2 hstep hinv
  | mark => exact wyStep_mark_inv N present r s s2 hstep hinv
  | submitFinish => exact wyStep_submitFinish_inv N present r s s2 hstep hinv
  | store i => exact wyStep_store_inv N present r s s2 i hstep hinv
  | cas i => exact wyStep_cas_inv N present r s s2 i hstep hinv
  | dec i => exact wyStep_dec_inv N present r s s2 i hstep hinv
  | lastResume i => exact wyStep_lastResume_inv N present r s s2 i hstep hinv

/-- The when_any invariant holds in the initial state. -/
theorem wyInit_inv {V : Type} (N : Nat) (present : Nat → Bool)
    (r : Nat → FResult V) : WyInv N present r (wyInit N) := by
  unfold WyInv wyInit
  dsimp only
  refine ⟨fun i _ => rfl, fun i _ _ => rfl, ?_, ?_, ?_, ?_, ?_, ?_, ?_, ?_,
    ?_, ?_, ?_, ?_, ?_⟩
  · unfold wyPrefix
    dsimp only
    refine ⟨Nat.zero_le N, ?_⟩
    intro i hi
    simp [wyChildInit]
  · simp [wyLaunched, wyChildInit]
  · simp [WySub.markedB, WySub.refusedB, wyActive, wyChildInit, waActivePhase]
  · refine Or.inl ⟨rfl, fun i _ => rfl, ?_⟩
    intro i hi hcp
    simp [wyChildInit, waCasPast] at hcp
  · simp [WySub.markedB, WySub.trigN, wySawLast, wyChildInit]
  · simp [WySub.pushN, wyWonC, wyPushedAFC, wyChildInit]
  · intro i hi hact
    simp [wyChildInit, waActivePhase] at hact
  · intro i hi _
    rfl
  · intro i hi hpaf
    simp [wyChildInit] at hpaf
  · intro z p heq
    exact WySub.noConfusion heq
  · intro i hi hfin
    simp [wyChildInit] at hfin
  · intro z heq
    exact WySub.noConfusion heq
  · intro p hp
    simp at hp

/-- Every reachable when_any state satisfies the invariant. -/
theorem wyRun_inv {V : Type} (N : Nat) (present : Nat → Bool)
    (r : Nat → FResult V) (evs : List WyEvent) (s : WyState)
    (h : wyRun N present r evs = some s) : WyInv N present r s := by
  induction evs using List.reverseRecOn generalizing s with
  | nil =>
    unfold wyRun at h
    simp at h
    rw [← h]
    exact wyInit_inv N present r
  | append_singleton l e ih =>
    unfold wyRun at h ih
    rw [List.foldlM_append] at h
    cases hfold : List.foldlM (wyStep N present r) (wyInit N) l with
    | none =>
      rw [hfold] at h
      simp at h
    | some m =>
      rw [hfold] at h
      simp [List.foldlM] at h
      exact wyStep_inv_all N present r m s e h (ih m hfold)

/-- Claim C3: however the child `emplace` callbacks interleave with the
submitter, a terminated when_any run has resumed its parent exactly once;
a winner resume names a present child that produced a value (the child
elected by the `winner : N -> i` CAS), the all-failed resume happens only
when every present child produced an error, and if some present child
produced a value the single resume is a winner resume.  A null
sub-blueprint is skipped at launch (`present i = false`), so it can
neither win nor block the others. -/
theorem when_any_resumes_once_winner_or_all_failed {V : Type} (N : Nat)
    (present : Nat → Bool) (r : Nat → FResult V) (evs : List WyEvent)
    (s : WyState) (hrun : wyRun N present r evs = some s)
    (hdone : wyComplete N s) :
    s.resumes.length = 1 ∧
    (∀ k, s.resumes = [AggPayload.winner k] →
      k < N ∧ present k = true ∧ (r k).isValue) ∧
    (s.resumes = [AggPayload.allFailed] →
      ∀ i, i < N → present i = true → (r i).isError) ∧
    ((∃ i, i < N ∧ present i = true ∧ (r i).isValue) →
      ∃ k, k < N ∧ present k = true ∧ (r k).isValue ∧
        s.resumes = [AggPayload.winner k]) := by
  obtain ⟨J1, J2, J3, J4, J5, J6, J7, J8, J9, J10, J11, J12, J13, J14, J15⟩ :=
    wyRun_inv N present r evs s hrun
  obtain ⟨hfin, z, p, hsub⟩ := hdone
  have hact0 : wyActive N s.child = 0 := by
    unfold wyActive
    rw [Finset.card_eq_zero]
    apply Finset.filter_false_of_mem
    intro j hj
    rw [Finset.mem_range] at hj
    rcases hfin j hj with hf | hu
    · simp [hf, waActivePhase]
    · simp [hu, waActivePhase]
  have hlen : s.resumes.length = 1 := by
    rcases J6 with ⟨hwN, hnw, herr⟩ | ⟨h1, h2, h3, h4, h5⟩
    · have hwon0 : wyWonC N s.child = 0 := by
        unfold wyWonC
        rw [Finset.card_eq_zero]
        apply Finset.filter_false_of_mem
        intro j hj
        rw [Finset.mem_range] at hj
        simp [hnw j hj]
      have hbool : ∀ j, j < N → (s.child j).pushedAF = (s.child j).sawLast := by
        intro j hj
        rcases hfin j hj with hf | hu
        · cases hslj : (s.child j).sawLast
          · cases hpafj : (s.child j).pushedAF
            · rfl
            · have := (J11 j hj hpafj).1
              rw [hslj] at this
              exact Bool.noConfusion this
          · exact J13 j hj hf hslj (hnw j hj) hwN
        · rw [J2 j hj hu]
          rfl
      have hpafc : wyPushedAFC N s.child = wySawLast N s.child := by
        unfold wyPushedAFC wySawLast
        apply congrArg
        apply Finset.filter_congr
        intro j hj
        rw [Finset.mem_range] at hj
        rw [hbool j hj]
      have hpz : p = z := by
        cases p
        · cases z
          · rfl
          · exact absurd hwN (J14 true (by rw [hsub]) rfl)
        · have := (J12 z true (by rw [hsub]) rfl).1
          rw [this]
      rw [hsub] at J7 J8
      subst hpz
      cases p <;>
        simp [WySub.markedB, WySub.trigN, WySub.pushN, hact0] at J7 J8 <;>
        omega
    · have hwon1 : wyWonC N s.child = 1 := by
        unfold wyWonC
        rw [show (Finset.range N).filter (fun j => (s.child j).won = true)
            = {s.winner} from ?_]
        · exact Finset.card_singleton s.winner
        · ext j
          simp only [Finset.mem_filter, Finset.mem_range, Finset.mem_singleton]
          constructor
          · intro hj
            by_contra hne
            rw [h5 j hj.1 hne] at hj
            exact Bool.noConfusion hj.2
          · intro hj
            subst hj
            exact ⟨h1, h2⟩
      have hpafc0 : wyPushedAFC N s.child = 0 := by
        unfold wyPushedAFC
        rw [Finset.card_eq_zero]
        apply Finset.filter_false_of_mem
        intro j hj
        rw [Finset.mem_range] at hj
        intro hpafj
        have := (J11 j hj hpafj).2.2.2
        omega
      have hp0 : p = false := by
        cases p
        · rfl
        · have := (J12 z true (by rw [hsub]) rfl).2
          omega
      rw [hsub] at J8
      subst hp0
      simp [WySub.pushN] at J8
      omega
  obtain ⟨q, hq⟩ := List.length_eq_one.mp hlen
  have hqok := J15 q (by rw [hq]; simp)
  have hcon3 : s.resumes = [AggPayload.allFailed] →
      ∀ i, i < N → present i = true → (r i).isError := by
    intro hres i hi hpi
    rw [hq] at hres
    injection hres with hres _
    rw [hres] at hqok
    rcases hqok with ⟨k, hk1, _⟩ | ⟨_, hwN, _, _⟩
    · exact AggPayload.noConfusion hk1
    · rcases J6 with ⟨_, _, herr⟩ | ⟨h1, _⟩
      swap
      · omega
      unfold wyPrefix at J3
      rw [hsub] at J3
      dsimp only at J3
      obtain ⟨k, hkN, hpre, hkw⟩ := J3
      have hkeq : k = N := by
        by_contra hne
        exact (hkw (by omega)) hwN
      have hnl : (s.child i).phase ≠ .unlaunched :=
        (hpre i hi).mpr ⟨by omega, hpi⟩
      rcases hfin i hi with hf | hu
      · exact herr i hi (by rw [hf]; rfl)
      · exact absurd hu hnl
  refine ⟨hlen, ?_, hcon3, ?_⟩
  · intro k hres
    rw [hq] at hres
    injection hres with hres _
    rw [hres] at hqok
    rcases hqok with ⟨k2, hk1, hk2, hk3, hk4, _⟩ | ⟨hk1, _⟩
    · injection hk1 with hkk
      subst hkk
      exact ⟨hk2, hk3, hk4⟩
    · exact AggPayload.noConfusion hk1
  · intro hex
    obtain ⟨i, hi, hpi, hvi⟩ := hex
    rcases hqok with ⟨k, hk1, hk2, hk3, hk4, _⟩ | ⟨hk1, _⟩
    · refine ⟨k, hk2, hk3, hk4, ?_⟩
      rw [hq, hk1]
    · exfalso
      have herr := hcon3 (by rw [hq, hk1]) i hi hpi
      exact fresult_not_both (r i) hvi herr

/-- The C3 hypotheses are satisfiable by scenario S8: a when_any with a
null child 0 and a valid child 1 (`[+100]` on `(7,1)`, hence `value 101`)
completes with the single winner resume of child 1. -/
theorem when_any_resumes_once_winner_or_all_failed_witness :
    wyWitnessState.resumes.length = 1 ∧
    wyWitnessState.resumes = [AggPayload.winner 1] := by
  have h := when_any_resumes_once_winner_or_all_failed 2
    (fun i => decide (i = 1)) (fun _ => FResult.value (101 : Int))
    wyWitnessEvents wyWitnessState rfl
    ⟨by
      intro i hi
      rcases (by omega : i = 0 ∨ i = 1) with h0 | h1
      · subst h0
        exact Or.inr rfl
      · subst h1
        exact Or.inl rfl, false, false, rfl⟩
  refine ⟨h.1, ?_⟩
  obtain ⟨k, hk, hpk, _, hres⟩ := h.2.2.2 ⟨1, by omega, by decide, trivial⟩
  rcases (by omega : k = 0 ∨ k = 1) with h0 | h1
  · subst h0
    exact absurd hpk (by decide)
  · subst h1
    exact hres

/-- Preservation of the cancel-handler invariant by `provide`
(`provide_cancel_handler` retains and exports the vtable). -/
theorem c5Step_provide_inv (subCode : Int) (bRetain : Bool) (ckind : Nat)
    (s s2 : C5State)
    (hstep : c5Step subCode bRetain ckind s .provide = some s2)
    (hinv : C5Inv bRetain ckind s) : C5Inv bRetain ckind s2 := by
  unfold c5Step at hstep
  unfold C5Inv at hinv ⊢
  cases hr : s.rpc <;> rw [hr] at hstep hinv <;>
    try exact Option.noConfusion hstep
  injection hstep with hstep
  subst hstep
  dsimp only at hinv ⊢
  obtain ⟨h1, h2, h3, h4, h5, h6, h7, h8⟩ := hinv
  exact ⟨h1, h2, h3, h4, h5, h6, by omega, h8⟩

/-- Preservation of the cancel-handler invariant by `lockTry`
(`lock_and_set_cancel_handler`: install under the lock, or fail on cancel
bits and drop locally). -/
theorem c5Step_lockTry_inv (subCode : Int) (bRetain : Bool) (ckind : Nat)
    (hck : ckind = 1 ∨ ckind = 2) (s s2 : C5State)
    (hstep : c5Step subCode bRetain ckind s .lockTry = some s2)
    (hinv : C5Inv bRetain ckind s) : C5Inv bRetain ckind s2 := by
  unfold c5Step at hstep
  unfold C5Inv at hinv ⊢
  cases hr : s.rpc <;> rw [hr] at hstep hinv <;>
    try exact Option.noConfusion hstep
  dsimp only at hstep hinv
  obtain ⟨h1, h2, h3, h4, h5, h6, h7, h8⟩ := hinv
  by_cases hw : s.word % 4 = 0
  · rw [if_pos hw] at hstep
    injection hstep with hstep
    subst hstep
    have hw0 : s.word = 0 := by
      rcases h8 with h | ⟨_, h⟩
      · exact h
      · omega
    dsimp only
    refine ⟨h1, h2, h3, h4, rfl, h6, h7, ?_⟩
    rw [hw0]
    decide
  · rw [if_neg hw] at hstep
    injection hstep with hstep
    subst hstep
    have hwc : s.canc = .cancDone ∧ s.word = ckind := by
      rcases h8 with h | h
      · rw [h] at hw
        omega
      · exact h
    dsimp only
    exact ⟨h1, h2, h3, h4, h5, by omega, by omega, hwc.1, hwc.2⟩

/-- Preservation of the cancel-handler invariant by `submitTry` (the
`submit()` call under the lock: reset-unlock-release on failure, backend
activation on success). -/
theorem c5Step_submitTry_inv (subCode : Int) (bRetain : Bool) (ckind : Nat)
    (s s2 : C5State)
    (hstep : c5Step subCode bRetain ckind s .submitTry = some s2)
    (hinv : C5Inv bRetain ckind s) : C5Inv bRetain ckind s2 := by
  unfold c5Step at hstep
  unfold C5Inv at hinv ⊢
  cases hr : s.rpc <;> rw [hr] at hstep hinv <;>
    try exact Option.noConfusion hstep
  dsimp only at hstep hinv
  obtain ⟨h1, h2, h3, h4, h5, h6, h7, h8⟩ := hinv
  by_cases hsc : subCode ≠ 0
  · rw [if_pos hsc] at hstep
    injection hstep with hstep
    subst hstep
    dsimp only
    exact ⟨h1, h2, h3, h4, rfl, by omega, by omega, Or.inl rfl⟩
  · rw [if_neg hsc] at hstep
    injection hstep with hstep
    subst hstep
    dsimp only
    unfold c5Live
    dsimp only
    refine ⟨⟨?_, ?_, ?_, ?_, ?_⟩, ?_⟩
    · intro h
      exact C5Back.noConfusion h
    · exact Or.inl ⟨rfl, h2, h3⟩
    · intro h
      rcases h with h | h <;> exact C5Back.noConfusion h
    · exact Or.inl h6
    · cases bRetain <;> simp <;> omega
    · exact Or.inl ⟨h8, h5, h6, Or.inl h3⟩

/-- Preservation of the cancel-handler invariant by `guardUnlock` (the
guard destructor: CAS 3 -> 4, a no-op if the completion task already owns
the word). -/
theorem c5Step_guardUnlock_inv (subCode : Int) (bRetain : Bool) (ckind : Nat)
    (hck : ckind = 1 ∨ ckind = 2) (s s2 : C5State)
    (hstep : c5Step subCode bRetain ckind s .guardUnlock = some s2)
    (hinv : C5Inv bRetain ckind s) : C5Inv bRetain ckind s2 := by
  unfold c5Step at hstep
  unfold C5Inv at hinv ⊢
  cases hr : s.rpc <;> rw [hr] at hstep hinv <;>
    try exact Option.noConfusion hstep
  dsimp only at hstep hinv
  obtain ⟨hlive, hcfg⟩ := hinv
  by_cases hw3 : s.word = 3
  · rw [if_pos hw3] at hstep
    injection hstep with hstep
    subst hstep
    dsimp only
    refine ⟨hlive, ?_⟩
    rcases hcfg with ⟨c1, c2, c3, c4⟩ | ⟨c1, _⟩ | ⟨c1, _⟩
    · exact Or.inl ⟨rfl, c2, c3, c4⟩
    · omega
    · omega
  · rw [if_neg hw3] at hstep
    injection hstep with hstep
    subst hstep
    dsimp only
    refine ⟨hlive, ?_⟩
    rcases hcfg with ⟨c1, _⟩ | ⟨c1, c2, c3, c4⟩ | ⟨c1, c2, c3, c4, c5⟩
    · exact absurd c1 hw3
    · exact Or.inr (Or.inr (Or.inl ⟨c1, c2, c3, c4⟩))
    · exact Or.inr (Or.inr (Or.inr ⟨c1, c2, c3, c4, c5⟩))

/-- Preservation of the cancel-handler invariant by `compRun` (the
completion task: CAS `token -> token + epoch` wins the drop; a loser's
`reset_cancel_handler` backs off on cancel bits or notifies at word 4). -/
theorem c5Step_compRun_inv (subCode : Int) (bRetain : Bool) (ckind : Nat)
    (hck : ckind = 1 ∨ ckind = 2) (s s2 : C5State)
    (hstep : c5Step subCode bRetain ckind s .compRun = some s2)
    (hinv : C5Inv bRetain ckind s) : C5Inv bRetain ckind s2 := by
  unfold c5Step at hstep
  dsimp only at hstep
  unfold C5Inv at hinv ⊢
  cases hc : s.comp <;> rw [hc] at hstep <;>
    try exact Option.noConfusion hstep
  cases hr : s.rpc <;> rw [hr] at hinv
  case cPending.r0 =>
    rw [hinv.2.2.1] at hc
    exact C5Comp.noConfusion hc
  case cPending.r1 =>
    rw [hinv.2.2.1] at hc
    exact C5Comp.noConfusion hc
  case cPending.rLocked =>
    rw [hinv.2.2.1] at hc
    exact C5Comp.noConfusion hc
  case cPending.rDoneNoLock =>
    rw [hinv.2.2.1] at hc
    exact C5Comp.noConfusion hc
  case cPending.rDoneSubFail =>
    rw [hinv.2.2.1] at hc
    exact C5Comp.noConfusion hc
  case cPending.rSubmitted =>
    dsimp only at hinv
    obtain ⟨⟨l1, l2, l3, l4, l5⟩, hcfg⟩ := hinv
    have hdone : s.st = .done ∧ s.nextStep = 1 := by
      rcases l2 with ⟨_, _, hcomp⟩ | ⟨ha, hb, _⟩
      · rw [hc] at hcomp
        exact C5Comp.noConfusion hcomp
      · exact ⟨ha, hb⟩
    rcases hcfg with ⟨c1, c2, c3, c4⟩ | ⟨_, _, _, c4⟩ | ⟨_, _, _, c4, _⟩
    swap
    · rw [c4] at hc
      exact C5Comp.noConfusion hc
    swap
    · rw [c4] at hc
      exact C5Comp.noConfusion hc
    rw [if_pos c1] at hstep
    injection hstep with hstep
    subst hstep
    dsimp only
    rw [hr]
    dsimp only
    unfold c5Live
    dsimp only
    refine ⟨⟨l1, Or.inr ⟨hdone.1, hdone.2, Or.inr rfl⟩, fun h => l3 h, ?_, ?_⟩,
      ?_⟩
    · exact Or.inr (by omega)
    · simp [hdone.1] at l5 ⊢
      omega
    · exact Or.inr (Or.inl ⟨rfl, rfl, by omega, rfl⟩)
  case cPending.rDoneOk =>
    dsimp only at hinv
    obtain ⟨⟨l1, l2, l3, l4, l5⟩, hcfg⟩ := hinv
    have hdone : s.st = .done ∧ s.nextStep = 1 := by
      rcases l2 with ⟨_, _, hcomp⟩ | ⟨ha, hb, _⟩
      · rw [hc] at hcomp
        exact C5Comp.noConfusion hcomp
      · exact ⟨ha, hb⟩
    rcases hcfg with ⟨c1, c2, c3, c4⟩ | ⟨c1, c2, c3, c4⟩ |
      ⟨_, _, _, c4⟩ | ⟨_, _, _, c4, _⟩
    · rw [if_neg (by omega)] at hstep
      rw [if_neg (by omega)] at hstep
      injection hstep with hstep
      subst hstep
      dsimp only
      rw [hr]
      dsimp only
      unfold c5Live
      dsimp only
      refine ⟨⟨l1, Or.inr ⟨hdone.1, hdone.2, Or.inr rfl⟩, fun h => l3 h, ?_, ?_⟩,
        ?_⟩
      · exact Or.inr (by omega)
      · simp [hdone.1] at l5 ⊢
        omega
      · exact Or.inr (Or.inr (Or.inl ⟨by omega, rfl, by omega, rfl⟩))
    · rw [if_neg (by omega)] at hstep
      rw [if_pos (by omega)] at hstep
      injection hstep with hstep
      subst hstep
      dsimp only
      rw [hr]
      dsimp only
      unfold c5Live
      dsimp only
      exact ⟨⟨l1, Or.inr ⟨hdone.1, hdone.2, Or.inr rfl⟩, fun h => l3 h, l4,
        l5⟩, Or.inr (Or.inl ⟨c1, c2, c3, c4⟩)⟩
    · rw [c4] at hc
      exact C5Comp.noConfusion hc
    · rw [c4] at hc
      exact C5Comp.noConfusion hc

/-- Preservation of the cancel-handler invariant by `cancelTry`
(`flow_controller::cancel`: back off on cancel bits, spin on the lock,
else CAS the cancel bit in and invoke the installed triple or the
stubs). -/
theorem c5Step_cancelTry_inv (subCode : Int) (bRetain : Bool) (ckind : Nat)
    (hck : ckind = 1 ∨ ckind = 2) (s s2 : C5State)
    (hstep : c5Step subCode bRetain ckind s .cancelTry = some s2)
    (hinv : C5Inv bRetain ckind s) : C5Inv bRetain ckind s2 := by
  unfold c5Step at hstep
  dsimp only at hstep
  unfold C5Inv at hinv ⊢
  cases hcn : s.canc <;> rw [hcn] at hstep <;>
    try exact Option.noConfusion hstep
  cases hr : s.rpc <;> rw [hr] at hinv
  case cancIdle.r0 =>
    obtain ⟨h1, h2, h3, h4, h5, h6, h7, h8⟩ := hinv
    have hw0 : s.word = 0 := by
      rcases h8 with h | ⟨hc2, _⟩
      · exact h
      · rw [hcn] at hc2
        exact C5Canc.noConfusion hc2
    rw [hw0, h5] at hstep
    rw [if_neg (by omega), if_neg (by omega), if_neg (by simp)] at hstep
    injection hstep with hstep
    subst hstep
    dsimp only
    rw [hr]
    dsimp only
    refine ⟨h1, h2, h3, h4, rfl, h6, h7, Or.inr ⟨rfl, ?_⟩⟩
    simp
  case cancIdle.r1 =>
    obtain ⟨h1, h2, h3, h4, h5, h6, h7, h8⟩ := hinv
    have hw0 : s.word = 0 := by
      rcases h8 with h | ⟨hc2, _⟩
      · exact h
      · rw [hcn] at hc2
        exact C5Canc.noConfusion hc2
    rw [hw0, h5] at hstep
    rw [if_neg (by omega), if_neg (by omega), if_neg (by simp)] at hstep
    injection hstep with hstep
    subst hstep
    dsimp only
    rw [hr]
    dsimp only
    refine ⟨h1, h2, h3, h4, rfl, h6, h7, Or.inr ⟨rfl, ?_⟩⟩
    simp
  case cancIdle.rLocked =>
    obtain ⟨h1, h2, h3, h4, h5, h6, h7, h8⟩ := hinv
    rw [h8] at hstep
    rw [if_neg (show ¬((3 : Nat) % 4 = 1 ∨ (3 : Nat) % 4 = 2) from by decide),
      if_pos (show (3 : Nat) % 4 = 3 from by decide)] at hstep
    injection hstep with hstep
    subst hstep
    rw [hr]
    dsimp only
    exact ⟨h1, h2, h3, h4, h5, h6, h7, h8⟩
  case cancIdle.rDoneNoLock =>
    rw [hinv.2.2.2.2.2.2.2.1] at hcn
    exact C5Canc.noConfusion hcn
  case cancIdle.rDoneSubFail =>
    obtain ⟨h1, h2, h3, h4, h5, h6, h7, h8⟩ := hinv
    have hw4 : s.word = 4 := by
      rcases h8 with h | ⟨hc2, _⟩
      · exact h
      · rw [hcn] at hc2
        exact C5Canc.noConfusion hc2
    rw [hw4, h5] at hstep
    rw [if_neg (by omega), if_neg (by omega), if_neg (by simp)] at hstep
    injection hstep with hstep
    subst hstep
    dsimp only
    rw [hr]
    dsimp only
    refine ⟨h1, h2, h3, h4, rfl, h6, h7, Or.inr ⟨rfl, ?_⟩⟩
    exact lor_small 4 ckind (by norm_num) (by omega)
  case cancIdle.rSubmitted =>
    obtain ⟨hlive, hcfg⟩ := hinv
    rcases hcfg with ⟨c1, c2, c3, c4⟩ | ⟨c1, c2, c3, c4⟩ | ⟨_, _, _, _, c5⟩
    · rw [c1] at hstep
      rw [if_neg (show ¬((3 : Nat) % 4 = 1 ∨ (3 : Nat) % 4 = 2) from by decide),
        if_pos (show (3 : Nat) % 4 = 3 from by decide)] at hstep
      injection hstep with hstep
      subst hstep
      rw [hr]
      dsimp only
      exact ⟨hlive, Or.inl ⟨c1, c2, c3, c4⟩⟩
    · rw [c1, c2] at hstep
      rw [if_neg (by omega), if_neg (by omega), if_neg (by simp)] at hstep
      injection hstep with hstep
      subst hstep
      dsimp only
      rw [hr]
      dsimp only
      refine ⟨hlive, Or.inr (Or.inr ⟨?_, rfl, c3, c4, rfl⟩)⟩
      exact lor_small 8 ckind (by norm_num) (by omega)
    · rw [c5] at hcn
      exact C5Canc.noConfusion hcn
  case cancIdle.rDoneOk =>
    obtain ⟨⟨l1, l2, l3, l4, l5⟩, hcfg⟩ := hinv
    rcases hcfg with ⟨c1, c2, c3, c4⟩ | ⟨_, _, _, c4⟩ |
      ⟨c1, c2, c3, c4⟩ | ⟨_, _, _, _, c5⟩
    · rw [c1, c2] at hstep
      rw [if_neg (by omega), if_neg (by omega), if_pos rfl] at hstep
      by_cases hst : s.st = .waiting
      · rw [if_pos hst] at hstep
        injection hstep with hstep
        subst hstep
        dsimp only
        rw [hr]
        dsimp only
        have hl2 : s.nextStep = 0 ∧ s.comp = .cInactive := by
          rcases l2 with ⟨_, ha, hb⟩ | ⟨ha, _, _⟩
          · exact ⟨ha, hb⟩
          · rw [hst] at ha
            exact AwStatus.noConfusion ha
        unfold c5Live
        dsimp only
        refine ⟨⟨l1, Or.inr ⟨rfl, by omega, Or.inl rfl⟩, fun _ => rfl,
          Or.inr (by omega), ?_⟩, ?_⟩
        · simp [hst] at l5
          simp at l5 ⊢
          omega
        · refine Or.inr (Or.inl ⟨?_, rfl, by omega, rfl⟩)
          exact lor_small 4 ckind (by norm_num) (by omega)
      · rw [if_neg hst] at hstep
        injection hstep with hstep
        subst hstep
        dsimp only
        rw [hr]
        dsimp only
        have hl2 : s.st = .done ∧ s.nextStep = 1 ∧
            (s.comp = .cPending ∨ s.comp = .cDone) := by
          rcases l2 with ⟨ha, _, _⟩ | h
          · exact absurd ha hst
          · exact h
        unfold c5Live
        dsimp only
        refine ⟨⟨l1, Or.inr hl2, fun h => l3 h, Or.inr (by omega), ?_⟩, ?_⟩
        · simp [hl2.1] at l5 ⊢
          omega
        · refine Or.inr (Or.inl ⟨?_, rfl, by omega, rfl⟩)
          exact lor_small 4 ckind (by norm_num) (by omega)
    · rw [c4] at hcn
      exact C5Canc.noConfusion hcn
    · rw [c1, c2] at hstep
      rw [if_neg (by omega), if_neg (by omega), if_neg (by simp)] at hstep
      injection hstep with hstep
      subst hstep
      dsimp only
      rw [hr]
      dsimp only
      refine ⟨⟨l1, l2, fun h => l3 h, l4, l5⟩,
        Or.inr (Or.inr (Or.inr ⟨?_, rfl, c3, c4, rfl⟩))⟩
      exact lor_small 8 ckind (by norm_num) (by omega)
    · rw [c5] at hcn
      exact C5Canc.noConfusion hcn

/-- Preservation of the cancel-handler invariant by `cancelSkip` (no
external cancel arrives during this run). -/
theorem c5Step_cancelSkip_inv (subCode : Int) (bRetain : Bool) (ckind : Nat)
    (s s2 : C5State)
    (hstep : c5Step subCode bRetain ckind s .cancelSkip = some s2)
    (hinv : C5Inv bRetain ckind s) : C5Inv bRetain ckind s2 := by
  unfold c5Step at hstep
  dsimp only at hstep
  unfold C5Inv at hinv ⊢
  cases hcn : s.canc <;> rw [hcn] at hstep <;>
    try exact Option.noConfusion hstep
  injection hstep with hstep
  subst hstep
  cases hr : s.rpc <;> rw [hr] at hinv <;> dsimp only at hinv ⊢
  case cancIdle.r0 =>
    obtain ⟨h1, h2, h3, h4, h5, h6, h7, h8⟩ := hinv
    refine ⟨h1, h2, h3, h4, h5, h6, h7, Or.inl ?_⟩
    rcases h8 with h | ⟨hc2, _⟩
    · exact h
    · rw [hcn] at hc2
      exact C5Canc.noConfusion hc2
  case cancIdle.r1 =>
    obtain ⟨h1, h2, h3, h4, h5, h6, h7, h8⟩ := hinv
    refine ⟨h1, h2, h3, h4, h5, h6, h7, Or.inl ?_⟩
    rcases h8 with h | ⟨hc2, _⟩
    · exact h
    · rw [hcn] at hc2
      exact C5Canc.noConfusion hc2
  case cancIdle.rLocked =>
    exact hinv
  case cancIdle.rDoneNoLock =>
    rw [hinv.2.2.2.2.2.2.2.1] at hcn
    exact C5Canc.noConfusion hcn
  case cancIdle.rDoneSubFail =>
    obtain ⟨h1, h2, h3, h4, h5, h6, h7, h8⟩ := hinv
    refine ⟨h1, h2, h3, h4, h5, h6, h7, Or.inl ?_⟩
    rcases h8 with h | ⟨hc2, _⟩
    · exact h
    · rw [hcn] at hc2
      exact C5Canc.noConfusion hc2
  case cancIdle.rSubmitted =>
    obtain ⟨hlive, hcfg⟩ := hinv
    refine ⟨hlive, ?_⟩
    rcases hcfg with h | h | ⟨_, _, _, _, c5⟩
    · exact Or.inl h
    · exact Or.inr (Or.inl h)
    · rw [c5] at hcn
      exact C5Canc.noConfusion hcn
  case cancIdle.rDoneOk =>
    obtain ⟨hlive, hcfg⟩ := hinv
    refine ⟨hlive, ?_⟩
    rcases hcfg with h | ⟨_, _, _, c4⟩ | h | ⟨_, _, _, _, c5⟩
    · exact Or.inl h
    · rw [c4] at hcn
      exact C5Canc.noConfusion hcn
    · exact Or.inr (Or.inr (Or.inl h))
    · rw [c5] at hcn
      exact C5Canc.noConfusion hcn

/-- Preservation of the cancel-handler invariant by `backendResume` (the
backend's `resume`: winner of the waiting-to-done CAS does `do_resume`,
firing the next step and releasing the creation reference). -/
theorem c5Step_backendResume_inv (subCode : Int) (bRetain : Bool)
    (ckind : Nat) (s s2 : C5State)
    (hstep : c5Step subCode bRetain ckind s .backendResume = some s2)
    (hinv : C5Inv bRetain ckind s) : C5Inv bRetain ckind s2 := by
  unfold c5Step at hstep
  dsimp only at hstep
  unfold C5Inv at hinv ⊢
  cases hb : s.back <;> rw [hb] at hstep <;>
    try exact Option.noConfusion hstep
  cases hr : s.rpc <;> rw [hr] at hinv
  case bActive.r0 =>
    rw [hinv.2.2.2.1] at hb
    exact C5Back.noConfusion hb
  case bActive.r1 =>
    rw [hinv.2.2.2.1] at hb
    exact C5Back.noConfusion hb
  case bActive.rLocked =>
    rw [hinv.2.2.2.1] at hb
    exact C5Back.noConfusion hb
  case bActive.rDoneNoLock =>
    rw [hinv.2.2.2.1] at hb
    exact C5Back.noConfusion hb
  case bActive.rDoneSubFail =>
    rw [hinv.2.2.2.1] at hb
    exact C5Back.noConfusion hb
  case bActive.rSubmitted =>
    obtain ⟨⟨l1, l2, l3, l4, l5⟩, hcfg⟩ := hinv
    by_cases hst : s.st = .waiting
    · rw [if_pos hst] at hstep
      injection hstep with hstep
      subst hstep
      dsimp only
      rw [hr]
      dsimp only
      unfold c5Live
      dsimp only
      have hl2 : s.nextStep = 0 ∧ s.comp = .cInactive := by
        rcases l2 with ⟨_, ha, hb2⟩ | ⟨ha, _, _⟩
        · exact ⟨ha, hb2⟩
        · rw [hst] at ha
          exact AwStatus.noConfusion ha
      refine ⟨⟨fun h => C5Back.noConfusion h,
        Or.inr ⟨rfl, by omega, Or.inl rfl⟩, fun _ => rfl, l4, ?_⟩, ?_⟩
      · simp [hst, hb] at l5
        cases bRetain <;> simp at l5 ⊢ <;> omega
      · rcases hcfg with ⟨c1, c2, c3, c4⟩ | ⟨_, _, _, c4⟩ | ⟨_, _, _, c4, _⟩
        · exact Or.inl ⟨c1, c2, c3, Or.inr rfl⟩
        · rw [hl2.2] at c4
          exact C5Comp.noConfusion c4
        · rw [hl2.2] at c4
          exact C5Comp.noConfusion c4
    · rw [if_neg hst] at hstep
      injection hstep with hstep
      subst hstep
      dsimp only
      rw [hr]
      dsimp only
      unfold c5Live
      dsimp only
      have hl2 : s.st = .done ∧ s.nextStep = 1 ∧
          (s.comp = .cPending ∨ s.comp = .cDone) := by
        rcases l2 with ⟨ha, _, _⟩ | h
        · exact absurd ha hst
        · exact h
      refine ⟨⟨fun h => C5Back.noConfusion h, Or.inr hl2, fun _ => hl2.1,
        l4, ?_⟩, hcfg⟩
      simp [hl2.1, hb] at l5
      rw [hl2.1]
      cases bRetain <;> simp at l5 ⊢ <;> omega
  case bActive.rDoneOk =>
    obtain ⟨⟨l1, l2, l3, l4, l5⟩, hcfg⟩ := hinv
    by_cases hst : s.st = .waiting
    · rw [if_pos hst] at hstep
      injection hstep with hstep
      subst hstep
      dsimp only
      rw [hr]
      dsimp only
      unfold c5Live
      dsimp only
      have hl2 : s.nextStep = 0 ∧ s.comp = .cInactive := by
        rcases l2 with ⟨_, ha, hb2⟩ | ⟨ha, _, _⟩
        · exact ⟨ha, hb2⟩
        · rw [hst] at ha
          exact AwStatus.noConfusion ha
      refine ⟨⟨fun h => C5Back.noConfusion h,
        Or.inr ⟨rfl, by omega, Or.inl rfl⟩, fun _ => rfl, l4, ?_⟩, ?_⟩
      · simp [hst, hb] at l5
        cases bRetain <;> simp at l5 ⊢ <;> omega
      · rcases hcfg with ⟨c1, c2, c3, c4⟩ | h | ⟨_, _, _, c4⟩ |
          ⟨_, _, _, c4, _⟩
        · exact Or.inl ⟨c1, c2, c3, Or.inr rfl⟩
        · exact Or.inr (Or.inl h)
        · rw [hl2.2] at c4
          exact C5Comp.noConfusion c4
        · rw [hl2.2] at c4
          exact C5Comp.noConfusion c4
    · rw [if_neg hst] at hstep
      injection hstep with hstep
      subst hstep
      dsimp only
      rw [hr]
      dsimp only
      unfold c5Live
      dsimp only
      have hl2 : s.st = .done ∧ s.nextStep = 1 ∧
          (s.comp = .cPending ∨ s.comp = .cDone) := by
        rcases l2 with ⟨ha, _, _⟩ | h
        · exact absurd ha hst
        · exact h
      refine ⟨⟨fun h => C5Back.noConfusion h, Or.inr hl2, fun _ => hl2.1,
        l4, ?_⟩, hcfg⟩
      simp [hl2.1, hb] at l5
      rw [hl2.1]
      cases bRetain <;> simp at l5 ⊢ <;> omega

/-- Preservation of the cancel-handler invariant by `backendRelease` (the
backend's own reference release after its resume, present iff it
retained). -/
theorem c5Step_backendRelease_inv (subCode : Int) (bRetain : Bool)
    (ckind : Nat) (s s2 : C5State)
    (hstep : c5Step subCode bRetain ckind s .backendRelease = some s2)
    (hinv : C5Inv bRetain ckind s) : C5Inv bRetain ckind s2 := by
  unfold c5Step at hstep
  dsimp only at hstep
  unfold C5Inv at hinv ⊢
  cases hb : s.back <;> rw [hb] at hstep <;>
    try exact Option.noConfusion hstep
  cases hr : s.rpc <;> rw [hr] at hinv
  case bResumed.r0 =>
    rw [hinv.2.2.2.1] at hb
    exact C5Back.noConfusion hb
  case bResumed.r1 =>
    rw [hinv.2.2.2.1] at hb
    exact C5Back.noConfusion hb
  case bResumed.rLocked =>
    rw [hinv.2.2.2.1] at hb
    exact C5Back.noConfusion hb
  case bResumed.rDoneNoLock =>
    rw [hinv.2.2.2.1] at hb
    exact C5Back.noConfusion hb
  case bResumed.rDoneSubFail =>
    rw [hinv.2.2.2.1] at hb
    exact C5Back.noConfusion hb
  case bResumed.rSubmitted =>
    obtain ⟨⟨l1, l2, l3, l4, l5⟩, hcfg⟩ := hinv
    injection hstep with hstep
    subst hstep
    dsimp only
    rw [hr]
    dsimp only
    unfold c5Live
    dsimp only
    have hstd : s.st = .done := l3 (Or.inl hb)
    refine ⟨⟨fun h => C5Back.noConfusion h, l2, fun _ => hstd, l4, ?_⟩, hcfg⟩
    simp [hstd, hb] at l5
    rw [hstd]
    cases bRetain <;> simp at l5 ⊢ <;> omega
  case bResumed.rDoneOk =>
    obtain ⟨⟨l1, l2, l3, l4, l5⟩, hcfg⟩ := hinv
    injection hstep with hstep
    subst hstep
    dsimp only
    rw [hr]
    dsimp only
    unfold c5Live
    dsimp only
    have hstd : s.st = .done := l3 (Or.inl hb)
    refine ⟨⟨fun h => C5Back.noConfusion h, l2, fun _ => hstd, l4, ?_⟩, hcfg⟩
    simp [hstd, hb] at l5
    rw [hstd]
    cases bRetain <;> simp at l5 ⊢ <;> omega

/-- Preservation of the cancel-handler invariant by any single event. -/
theorem c5Step_inv_all (subCode : Int) (bRetain : Bool) (ckind : Nat)
    (hck : ckind = 1 ∨ ckind = 2) (s s2 : C5State) (e : C5Event)
    (hstep : c5Step subCode bRetain ckind s e = some s2)
    (hinv : C5Inv bRetain ckind s) : C5Inv bRetain ckind s2 := by
  cases e with
  | provide =>
    exact c5Step_provide_inv subCode bRetain ckind s s2 hstep hinv
  | lockTry =>
    exact c5Step_lockTry_inv subCode bRetain ckind hck s s2 hstep hinv
  | submitTry =>
    exact c5Step_submitTry_inv subCode bRetain ckind s s2 hstep hinv
  | guardUnlock =>
    exact c5Step_guardUnlock_inv subCode bRetain ckind hck s s2 hstep hinv
  | compRun =>
    exact c5Step_compRun_inv subCode bRetain ckind hck s s2 hstep hinv
  | cancelTry =>
    exact c5Step_cancelTry_inv subCode bRetain ckind hck s s2 hstep hinv
  | cancelSkip =>
    exact c5Step_cancelSkip_inv subCode bRetain ckind s s2 hstep hinv
  | backendResume =>
    exact c5Step_backendResume_inv subCode bRetain ckind s s2 hstep hinv
  | backendRelease =>
    exact c5Step_backendRelease_inv subCode bRetain ckind s s2 hstep hinv

/-- The cancel-handler invariant holds at stage entry. -/
theorem c5Init_inv (bRetain : Bool) (ckind : Nat) :
    C5Inv bRetain ckind c5Init := by
  unfold C5Inv c5Init
  dsimp only
  exact ⟨rfl, rfl, rfl, rfl, rfl, rfl, rfl, Or.inl rfl⟩

/-- Every reachable cancel-handler state satisfies the invariant. -/
theorem c5Run_inv (subCode : Int) (bRetain : Bool) (ckind : Nat)
    (hck : ckind = 1 ∨ ckind = 2) (evs : List C5Event) (s : C5State)
    (h : c5Run subCode bRetain ckind evs = some s) :
    C5Inv bRetain ckind s := by
  induction evs using List.reverseRecOn generalizing s with
  | nil =>
    unfold c5Run at h
    simp at h
    rw [← h]
    exact c5Init_inv bRetain ckind
  | append_singleton l e ih =>
    unfold c5Run at h ih
    rw [List.foldlM_append] at h
    cases hfold : List.foldlM (c5Step subCode bRetain ckind) c5Init l with
    | none =>
      rw [hfold] at h
      simp at h
    | some m =>
      rw [hfold] at h
      simp [List.foldlM] at h
      exact c5Step_inv_all subCode bRetain ckind hck m s e h (ih m hfold)

/-- Claim C5: for an async stage's awaitable, over every interleaving of
the runner, the completion task, an external cancel and the backend
accepted by the machine, a terminated stage has invoked `drop_fn`
(`notify_cancel_handler_dropped`) exactly once for the single
`provide_cancel_handler` retain — no path double-drops or leaks — and the
awaitable's refcount is back to 0. -/
theorem cancel_handler_drop_balanced (subCode : Int) (bRetain : Bool)
    (ckind : Nat) (hck : ckind = 1 ∨ ckind = 2) (evs : List C5Event)
    (s : C5State) (hrun : c5Run subCode bRetain ckind evs = some s)
    (hdone : c5Complete s) : s.drops = 1 ∧ s.rc = 0 := by
  have hinv := c5Run_inv subCode bRetain ckind hck evs s hrun
  obtain ⟨hrpc, hcanc, hcomp, hback⟩ := hdone
  unfold C5Inv at hinv
  rcases hrpc with h | h | h <;> rw [h] at hinv <;> dsimp only at hinv
  · exact ⟨hinv.2.2.2.2.2.1, by omega⟩
  · exact ⟨hinv.2.2.2.2.2.1, by omega⟩
  · obtain ⟨⟨l1, l2, l3, l4, l5⟩, hcfg⟩ := hinv
    have hbd : s.back = .bDone := by
      rcases hback with hb | hb
      · exact absurd hb l1
      · exact hb
    have hstd : s.st = .done := l3 (Or.inr hbd)
    have hdrops : s.drops = 1 := by
      rcases hcfg with ⟨_, _, _, c4⟩ | ⟨_, _, c3, _⟩ | ⟨_, _, c3, _⟩ |
        ⟨_, _, c3, _, _⟩
      · rcases c4 with hcomp2 | hcomp2
        · rcases l2 with ⟨ha, _, _⟩ | ⟨_, _, hcomp3⟩
          · rw [hstd] at ha
            exact AwStatus.noConfusion ha
          · rcases hcomp3 with hc | hc <;> rw [hcomp2] at hc <;>
              exact C5Comp.noConfusion hc
        · exact absurd hcomp2 hcomp
      · exact c3
      · exact c3
      · exact c3
    refine ⟨hdrops, ?_⟩
    rw [hstd, hbd, hdrops] at l5
    simp at l5
    omega

/-- The C5 hypotheses are satisfiable: a concrete uncancelled run with a
retaining backend (successful submit, guard unlock, backend resume and
release, then the completion task) ends with one drop and refcount 0. -/
theorem cancel_handler_drop_balanced_witness :
    c5WitnessState.drops = 1 ∧ c5WitnessState.rc = 0 :=
  cancel_handler_drop_balanced 0 true 2 (Or.inr rfl) c5WitnessEvents
    c5WitnessState rfl
    ⟨Or.inr (Or.inr rfl), rfl, by decide, Or.inr rfl⟩

end FluxFoundry